import Mathlib

/-!
Verification of the boolean sum-of-minterms program (`sum_of_min_terms.py`).

The program is embedded shallowly: strings are `List Char`, Python exceptions
become an explicit error type `PyErr`, and every partial operation returns
`Except PyErr _`.  Machine evaluation of gates is modelled over `Nat`
(Python truthiness: a value is true iff it is nonzero; Python booleans
`True`/`False` produced by `not` are collapsed to `1`/`0`, which is exactly
what `normalize_bool` does before any value is observed).
-/

namespace SumMin

/-! ### Character constants (avoiding literal escapes) -/

/-- The complement mark, ASCII 39 (single quote). -/
def compChar : Char := Char.ofNat 39

/-- The user-facing complement mark, ASCII 33 (exclamation mark). -/
def bangChar : Char := Char.ofNat 33

/-- ASCII space. -/
def spaceChar : Char := Char.ofNat 32

/-- ASCII backslash. -/
def bslashChar : Char := Char.ofNat 92

/-- The AND marker. -/
def starChar : Char := Char.ofNat 42

/-- The OR marker. -/
def plusChar : Char := Char.ofNat 43

/-- Opening parenthesis. -/
def lparChar : Char := Char.ofNat 40

/-- Closing parenthesis. -/
def rparChar : Char := Char.ofNat 41

/-- Python `str.strip()` whitespace set: space, tab, newline, CR, VT, FF. -/
def isPyWs (c : Char) : Bool :=
  c == spaceChar || c == Char.ofNat 9 || c == Char.ofNat 10 ||
  c == Char.ofNat 13 || c == Char.ofNat 11 || c == Char.ofNat 12

/-! ### Generic string helpers (Python slicing / stripping on `List Char`) -/

/-- Drop the longest suffix whose characters satisfy `p`. -/
def dropTrailingWhile (p : Char → Bool) (l : List Char) : List Char :=
  (l.reverse.dropWhile p).reverse

/-- Python `str.strip()`: remove leading and trailing whitespace. -/
def pyStrip (l : List Char) : List Char :=
  dropTrailingWhile isPyWs (l.dropWhile isPyWs)

/-- Python `str.strip(ch)` for a one-character set: remove all leading and
trailing occurrences of `ch`. -/
def stripChars (ch : Char) (l : List Char) : List Char :=
  dropTrailingWhile (fun c => c == ch) (l.dropWhile (fun c => c == ch))

/-! ### `normalize_bool_fct_str` -/

/-- The cleanup phase of `normalize_bool_fct_str`: uppercase, remove spaces,
remove backslashes, map `!` to the complement mark, strip leading/trailing
`*` then `+` markers. -/
def cleanup (s : List Char) : List Char :=
  let s1 := s.map Char.toUpper
  let s2 := s1.filter (fun c => c != spaceChar)
  let s3 := s2.filter (fun c => c != bslashChar)
  let s4 := s3.map (fun c => if c == bangChar then compChar else c)
  stripChars plusChar (stripChars starChar s4)

/-- The implicit-AND condition on an adjacent character pair, from the loop in
`normalize_bool_fct_str`. -/
def andCond (a b : Char) : Bool :=
  ((a.isAlpha || a == compChar) && (b.isAlpha || b == lparChar)) ||
    (a == rparChar && b.isAlpha)

/-- Positions `i` (over the pre-insertion index space) after which an explicit
AND marker is inserted. -/
def insertPositions (s : List Char) : List Nat :=
  (List.range (s.length - 1)).filter
    (fun i => andCond (s.getD i spaceChar) (s.getD (i + 1) spaceChar))

/-- Insert an AND marker immediately after position `i`
(`s = s[: i + 1] + "*" + s[i + 1 :]`). -/
def insertAt (i : Nat) (s : List Char) : List Char :=
  s.take (i + 1) ++ starChar :: s.drop (i + 1)

/-- `normalize_bool_fct_str`: cleanup followed by implicit-AND insertion,
applied from the highest position to the lowest. -/
def normalize_bool_fct_str (s : List Char) : List Char :=
  let t := cleanup s
  (insertPositions t).foldr insertAt t

/-- Recursive characterization of the insertion pass: walk adjacent pairs and
emit an AND marker after the left character whenever `andCond` holds. -/
def withAnds : List Char → List Char
  | [] => []
  | [a] => [a]
  | a :: b :: t =>
    a :: (if andCond a b then starChar :: withAnds (b :: t) else withAnds (b :: t))

/-! ### Errors, gates, and the parser -/

/-- The failure conditions the program can raise (`ValueError`s,
`NotImplementedError`, `KeyError`, `AttributeError`, `IndexError`). -/
inductive PyErr where
  | leadingOp
  | unmatchedParen
  | invalidParen
  | unsupportedOp
  | indexError
  | fuelOut
  | missingVar
  | attrError
  | incompleteTable
  | overdefinedTable
  | inconsistentRow (line : Nat)
  deriving DecidableEq, Repr

/-- Node kinds of the expression tree (`self.operator`). -/
inductive GOp where
  | AND | OR | NOT | INPUT | UNITY
  deriving DecidableEq, Repr

/-- The expression tree: a `Gate` stores its normalized expression text, its
operator kind, and children `inp_1`, `inp_2`; the constructor `null` embeds
the Python `None` stored in a child field. -/
inductive Gate where
  | null
  | node (expression : List Char) (operator : GOp) (inp_1 inp_2 : Gate)
  deriving DecidableEq, Repr

/-- The normalized expression text stored on a node. -/
def Gate.expression : Gate → List Char
  | .null => []
  | .node e _ _ _ => e

/-- The operator kind of a node (`INPUT` as a placeholder on `null`, which
has no attributes). -/
def Gate.operator : Gate → GOp
  | .null => .INPUT
  | .node _ op _ _ => op

/-- Python indexing `s[i]`, with negative-index wrap-around and `IndexError`
out of range. -/
def pyIndex (s : List Char) (i : Int) : Except PyErr Char :=
  if 0 ≤ i ∧ i < (s.length : Int) then .ok (s.getD i.toNat spaceChar)
  else if -(s.length : Int) ≤ i ∧ i < 0 then
    .ok (s.getD ((s.length : Int) + i).toNat spaceChar)
  else .error .indexError

/-- Clamp a (possibly negative) Python slice bound to a `Nat` position. -/
def sliceIdx (len : Nat) (k : Int) : Nat :=
  if k < 0 then ((len : Int) + k).toNat else k.toNat

/-- The scanning loop of `parse_outer_paranthesis`: `i` is the current index,
`iopen` the recorded outermost open index (`-1` if none yet), `count` the
current depth. -/
def poAux : List Char → Nat → Int → Int → Except PyErr (Int × Int)
  | [], _, iopen, _ => .ok (iopen, -1)
  | c :: rest, i, iopen, count =>
    if c == lparChar then
      poAux rest (i + 1) (if count == 0 then (i : Int) else iopen) (count + 1)
    else if c == rparChar then
      let count2 := count - 1
      if count2 == 0 then .ok (iopen, (i : Int))
      else if iopen == -1 then .error .invalidParen
      else poAux rest (i + 1) iopen count2
    else poAux rest (i + 1) iopen count

/-- Positions of the outermost opening and closing parenthesis. -/
def parse_outer_paranthesis (s : List Char) : Except PyErr (Int × Int) :=
  poAux s 0 (-1) 0

/-- Python `s.split(ch, maxsplit=1)` on a string containing `ch`: the parts
before and after the first occurrence. -/
def splitFirst (ch : Char) : List Char → List Char × List Char
  | [] => ([], [])
  | c :: t =>
    if c == ch then ([], t)
    else
      let p := splitFirst ch t
      (c :: p.1, p.2)

/-- The third case of the parenthesis branch of `Gate.__init__`: the group is
only part of the expression; compute the split point and build the binary
node. -/
def parseParenSplit (rec : List Char → Except PyErr Gate) (e : List Char)
    (i_open i_close : Int) : Except PyErr Gate := do
  let split0 : Int := if i_open > 0 then i_open - 2 else i_close
  let c1 ← pyIndex e (split0 + 1)
  let split_at : Int :=
    if c1 == compChar || c1 == bangChar then split0 + 1 else split0
  let expr_1 := e.take (sliceIdx e.length (split_at + 1))
  let expr_2 := e.drop (sliceIdx e.length (split_at + 1))
  let c2 ← pyIndex e (split_at + 1)
  let op ←
    if c2 == starChar then pure GOp.AND
    else if c2 == plusChar then pure GOp.OR
    else .error PyErr.unsupportedOp
  let i1 ← if expr_1.isEmpty then pure Gate.null else rec expr_1
  let i2 ← if expr_2.isEmpty then pure Gate.null else rec expr_2
  pure (.node e op i1 i2)

/-- The parenthesis branch of `Gate.__init__`: balance check, outermost span,
then the NOT / PASS-THROUGH / split cases. -/
def parseParenBranch (rec : List Char → Except PyErr Gate) (e : List Char) :
    Except PyErr Gate :=
  if e.count lparChar != e.count rparChar then .error .unmatchedParen
  else do
    let oc ← parse_outer_paranthesis e
    let len : Int := e.length
    if oc.1 == 0 && oc.2 == len - 2 then do
      let child ← rec ((e.take (sliceIdx e.length (len - 2))).drop 1)
      pure (.node e .NOT child .null)
    else if oc.1 == 0 && oc.2 == len - 1 then do
      let child ← rec ((e.take (sliceIdx e.length (len - 1))).drop 1)
      pure (.node e .UNITY child .null)
    else parseParenSplit rec e oc.1 oc.2

/-- The body of `Gate.__init__` for one level: normalize the (stripped)
expression text, run the validity checks, and build one node, delegating
sub-expressions to `rec`. -/
def parseGateCore (rec : List Char → Except PyErr Gate) (raw : List Char) :
    Except PyErr Gate :=
  let e := normalize_bool_fct_str (pyStrip raw)
  match e with
  | [] => .error .indexError
  | c0 :: _ =>
    if c0 == compChar || c0 == starChar || c0 == plusChar || c0 == bangChar then
      .error .leadingOp
    else if e.count lparChar != 0 then parseParenBranch rec e
    else if e.count plusChar != 0 then do
      let p := splitFirst plusChar e
      let g1 ← rec p.1
      let g2 ← rec p.2
      pure (.node e .OR g1 g2)
    else if e.count starChar != 0 then do
      let p := splitFirst starChar e
      let g1 ← rec p.1
      let g2 ← rec p.2
      pure (.node e .AND g1 g2)
    else if e.count compChar + e.count bangChar != 0 then do
      let op := if (e.count compChar + e.count bangChar) % 2 != 0
        then GOp.NOT else GOp.UNITY
      let g1 ← rec [c0]
      pure (.node e op g1 .null)
    else
      pure (.node e .INPUT .null .null)

/-- `Gate.__init__`: recursively build the tree.  `fuel` bounds the recursion
depth; every claim below either fixes a concrete fuel or quantifies over a
sufficient one. -/
def parseGate : Nat → List Char → Except PyErr Gate
  | 0, _ => .error .fuelOut
  | fuel + 1, raw => parseGateCore (parseGate fuel) raw

/-! ### Evaluation (`Gate.update`) -/

/-- Dictionary lookup in a variable assignment. -/
def lookupA (k : List Char) : List (List Char × Nat) → Option Nat
  | [] => none
  | (k2, v) :: rest => if k2 == k then some v else lookupA k rest

/-- Python `x and y` on truthiness values. -/
def pyAnd (x y : Nat) : Nat := if x ≠ 0 then y else x

/-- Python `x or y` on truthiness values. -/
def pyOr (x y : Nat) : Nat := if x ≠ 0 then x else y

/-- Python `not x` followed by the bool-to-int collapse of `normalize_bool`. -/
def pyNot (x : Nat) : Nat := if x ≠ 0 then 0 else 1

/-- `normalize_bool`: on the `Nat`-valued outputs of this embedding
(`True`/`False` are already collapsed to `1`/`0` by `pyNot`) the Python
`match` sends `0` to `0`, `1` to `1` and passes anything else through. -/
def normalize_bool : Nat → Nat
  | 0 => 0
  | 1 => 1
  | v => v

/-- The `match self.operator` step of `Gate.update`: combine the children's
output values (when present) according to the node kind.  A lookup miss is
the `KeyError` (MissingVariable); a missing required child is the
`AttributeError` of `None.output`. -/
def applyOp (e : List Char) (inputs : List (List Char × Nat)) (op : GOp)
    (o1 o2 : Option Nat) : Except PyErr Nat :=
  match op with
  | .AND =>
    match o1, o2 with
    | some x, some y => .ok (pyAnd x y)
    | _, _ => .error .attrError
  | .OR =>
    match o1, o2 with
    | some x, some y => .ok (pyOr x y)
    | _, _ => .error .attrError
  | .NOT =>
    match o1 with
    | some x => .ok (pyNot x)
    | none => .error .attrError
  | .INPUT =>
    match lookupA e inputs with
    | some v => .ok v
    | none => .error .missingVar
  | .UNITY =>
    match o1 with
    | some x => .ok x
    | none => .error .attrError

/-- Python `is None` on a child field. -/
def Gate.isNull : Gate → Bool
  | .null => true
  | .node _ _ _ _ => false

/-- `Gate.update`, functionalized: the children are evaluated first
(post-order, `inp_1` before `inp_2`, guarded by `is not None` checks, a
failure propagating immediately) and the node's output is returned instead
of cached; `update` itself is never reached on `None`, so `null` maps to the
`AttributeError` placeholder. -/
def Gate.update : Gate → List (List Char × Nat) → Except PyErr Nat
  | .null, _ => .error .attrError
  | .node e op i1 i2, inputs =>
    if i1.isNull then
      if i2.isNull then applyOp e inputs op none none
      else
        match i2.update inputs with
        | .error err => .error err
        | .ok v2 => applyOp e inputs op none (some v2)
    else
      match i1.update inputs with
      | .error err => .error err
      | .ok v1 =>
        if i2.isNull then applyOp e inputs op (some v1) none
        else
          match i2.update inputs with
          | .error err => .error err
          | .ok v2 => applyOp e inputs op (some v1) (some v2)

/-! ### Truth-table generation -/

/-- `extract_input_symbols`: the distinct alphabetic symbols of the expression,
sorted in reversed (descending) alphabetical order. -/
def extract_input_symbols (fct_str : List Char) : List Char :=
  List.insertionSort (fun a b => b ≤ a) (fct_str.filter Char.isAlpha).dedup

/-- `itertools.product([0, 1], repeat=n)`: all bit tuples of length `n` in
binary counting order, last position fastest. -/
def allTuples : Nat → List (List Nat)
  | 0 => [[]]
  | n + 1 => (allTuples n).map (fun t => 0 :: t) ++ (allTuples n).map (fun t => 1 :: t)

/-- The `n`-bit big-endian binary digits of `i`. -/
def natToBits : Nat → Nat → List Nat
  | 0, _ => []
  | n + 1, i => (i / 2 ^ n) % 2 :: natToBits n (i % 2 ^ n)

/-- `dict(zip(input_symbols, inp))`: the assignment pairing each symbol with
the tuple bit at its position. -/
def mkAssign (syms : List Char) (inp : List Nat) : List (List Char × Nat) :=
  (syms.zip inp).map (fun p => ([p.1], p.2))

/-- The enumeration loop of `generate_truth_table` over a list of tuples. -/
def genRows (g : Gate) (syms : List Char) : List (List Nat) → Except PyErr (List (List Nat × Nat))
  | [] => pure []
  | inp :: rest => do
    let out ← g.update (mkAssign syms inp)
    let tl ← genRows g syms rest
    pure ((inp, normalize_bool out) :: tl)

/-- `generate_truth_table`: enumerate all assignments of the tree's variable
set and record each output bit. -/
def generate_truth_table (g : Gate) : Except PyErr (List (List Nat × Nat)) :=
  genRows g (extract_input_symbols g.expression)
    (allTuples (extract_input_symbols g.expression).length)

/-! ### Minterm building -/

/-- One minterm row: `input_symbols[i]` bare if `inp[i]` is truthy, suffixed
with the complement mark otherwise; `IndexError` when the tuple is longer than
the symbol list. -/
def mkTerm : List Char → List Nat → Except PyErr (List Char)
  | _, [] => pure []
  | [], _ :: _ => .error .indexError
  | c :: cs, b :: bs => do
    let r ← mkTerm cs bs
    pure ((if b ≠ 0 then [c] else [c, compChar]) ++ r)

/-- The `" + "` separator. -/
def sepStr : List Char := [spaceChar, plusChar, spaceChar]

/-- `build_minterms`: collect a term for every truthy row in table order,
reverse the collected list, join with `" + "`. -/
def build_minterms (table : List (List Nat × Nat)) (input_symbols : List Char) :
    Except PyErr (List Char) := do
  let ts ← table.foldlM
    (fun acc line =>
      if line.2 ≠ 0 then do
        let row ← mkTerm input_symbols line.1
        pure (acc ++ [row])
      else pure acc)
    ([] : List (List Char))
  pure (List.intercalate sepStr ts.reverse)

/-- `sum_of_min_terms`: generate the table and prefix the minterm body with
`"F = "`. -/
def sum_of_min_terms (g : Gate) : Except PyErr (List Char) := do
  let t ← generate_truth_table g
  let body ← build_minterms t (extract_input_symbols g.expression)
  pure (['F', spaceChar, '=', spaceChar] ++ body)

/-! ### External table loader -/

/-- `parse_line` on a whitespace-split line of integers: all but the last are
the inputs, the last is the output (`IndexError` on an empty line). -/
def parse_line (line : List Nat) : Except PyErr (List Nat × Nat) :=
  match line.getLast? with
  | some v => pure (line.dropLast, v)
  | none => .error .indexError

/-- The validation loop of `check_table`: compare each table row's inputs with
the canonical enumeration, reporting the 1-based line of the first mismatch. -/
def check_table_aux : List (List Nat) → List (List Nat × Nat) → Nat → Except PyErr Unit
  | [], _, _ => pure ()
  | _ :: _, [], _ => .error .indexError
  | tup :: tups, row :: rows, i =>
    if row.1 ≠ tup then .error (.inconsistentRow (i + 1))
    else check_table_aux tups rows (i + 1)

/-- `check_table`: validate row inputs against the canonical enumeration. -/
def check_table (table : List (List Nat × Nat)) (n_inp : Nat) : Except PyErr Unit :=
  check_table_aux (allTuples n_inp) table 0

/-- `read_table_from_file`, modelled at its validation interface: each file
line is given as its list of parsed integers (file I/O mechanics are an
external collaborator).  `N` is inferred from the first line; the row count
must be exactly `2 ^ N` and rows must follow the canonical order. -/
def read_table_from_file (lines : List (List Nat)) : Except PyErr (List (List Nat × Nat)) :=
  match lines with
  | [] => .error .indexError
  | l0 :: rest => do
    let line_1 ← parse_line l0
    let n_inp := line_1.1.length
    if lines.length < 2 ^ n_inp then .error .incompleteTable
    else if lines.length > 2 ^ n_inp then .error .overdefinedTable
    else do
      let restRows ← rest.mapM parse_line
      let table := line_1 :: restRows
      check_table table n_inp
      pure table

/-! ### Spec-side definitions (used to state the claims) -/

/-- The term the specification prescribes for one true row: each symbol bare
if the corresponding bit is 1, suffixed with the complement mark if 0,
concatenated with no separator. -/
def specTerm (syms : List Char) (inp : List Nat) : List Char :=
  (syms.zip inp).flatMap (fun p => if p.2 = 1 then [p.1] else [p.1, compChar])

/-- Structural well-formedness: AND/OR own exactly two children, NOT and
PASS-THROUGH exactly one, INPUT-VARIABLE none. -/
def wellFormed : Gate → Bool
  | .node _ .AND (.node e1 o1 l1 r1) (.node e2 o2 l2 r2) =>
    wellFormed (.node e1 o1 l1 r1) && wellFormed (.node e2 o2 l2 r2)
  | .node _ .OR (.node e1 o1 l1 r1) (.node e2 o2 l2 r2) =>
    wellFormed (.node e1 o1 l1 r1) && wellFormed (.node e2 o2 l2 r2)
  | .node _ .NOT (.node e1 o1 l1 r1) .null => wellFormed (.node e1 o1 l1 r1)
  | .node _ .UNITY (.node e1 o1 l1 r1) .null => wellFormed (.node e1 o1 l1 r1)
  | .node _ .INPUT .null .null => true
  | _ => false

/-- The variable keys the tree requires: the stored symbol of every
INPUT-VARIABLE leaf. -/
def requiredVars : Gate → List (List Char)
  | .null => []
  | .node e op i1 i2 =>
    match op with
    | .INPUT => [e]
    | _ => requiredVars i1 ++ requiredVars i2

/-- The specification's denotational semantics of a tree: AND/OR/NOT are the
boolean connectives, PASS-THROUGH is the identity, INPUT-VARIABLE reads the
assignment (a missing child reads as false; it never arises on well-formed
trees). -/
def specEval : Gate → (List Char → Bool) → Bool
  | .null, _ => false
  | .node e op i1 i2, f =>
    match op with
    | .AND => specEval i1 f && specEval i2 f
    | .OR => specEval i1 f || specEval i2 f
    | .NOT => !specEval i1 f
    | .UNITY => specEval i1 f
    | .INPUT => f e

/-- The truthiness of a variable under an assignment. -/
def truthy (a : List (List Char × Nat)) (k : List Char) : Bool :=
  decide ((lookupA k a).getD 0 ≠ 0)

/-- The parse tree of `"A+B"`. -/
def gAB : Gate :=
  .node ['A', plusChar, 'B'] .OR
    (.node ['A'] .INPUT .null .null)
    (.node ['B'] .INPUT .null .null)

/-- The truth table of `"A+B"` over the variable order `[B, A]`. -/
def tAB : List (List Nat × Nat) :=
  [([0, 0], 0), ([0, 1], 1), ([1, 0], 1), ([1, 1], 1)]

/-- The parse tree of `"A*A'"`, an identically false function. -/
def gFF : Gate :=
  .node ['A', starChar, 'A', compChar] .AND
    (.node ['A'] .INPUT .null .null)
    (.node ['A', compChar] .NOT (.node ['A'] .INPUT .null .null) .null)

/-! ### DNF shapes (used to describe the minterm round-trip) -/

/-- The literal emitted for one (symbol, bit) pair: the bare symbol on a
truthy bit, the symbol with a complement mark otherwise. -/
def litStr (c : Char) (b : Nat) : List Char :=
  if b ≠ 0 then [c] else [c, compChar]

/-- One raw minterm: the literals concatenated with no separator. -/
def termRaw : List (Char × Nat) → List Char
  | [] => []
  | p :: rest => litStr p.1 p.2 ++ termRaw rest

/-- One normalized minterm: the literals joined by AND markers. -/
def termNorm : List (Char × Nat) → List Char
  | [] => []
  | [p] => litStr p.1 p.2
  | p :: rest => litStr p.1 p.2 ++ starChar :: termNorm rest

/-- The raw minterm body after space removal: terms joined by OR markers. -/
def dnfRaw : List (List (Char × Nat)) → List Char
  | [] => []
  | [t] => termRaw t
  | t :: rest => termRaw t ++ plusChar :: dnfRaw rest

/-- The fully normalized minterm body. -/
def dnfNorm : List (List (Char × Nat)) → List Char
  | [] => []
  | [t] => termNorm t
  | t :: rest => termNorm t ++ plusChar :: dnfNorm rest

/-- The tree the parser builds for one literal. -/
def litG (c : Char) (b : Nat) : Gate :=
  if b ≠ 0 then .node [c] .INPUT .null .null
  else .node [c, compChar] .NOT (.node [c] .INPUT .null .null) .null

/-- The right-nested AND chain the parser builds for one normalized term. -/
def andChainG : List (Char × Nat) → Gate
  | [] => .null
  | [p] => litG p.1 p.2
  | p :: rest => .node (termNorm (p :: rest)) .AND (litG p.1 p.2) (andChainG rest)

/-- The right-nested OR chain the parser builds for a normalized DNF body. -/
def orChainG : List (List (Char × Nat)) → Gate
  | [] => .null
  | [t] => andChainG t
  | t :: rest => .node (dnfNorm (t :: rest)) .OR (andChainG t) (orChainG rest)

/-! ### Lemmas about the normalizer -/

lemma insertAt_succ_cons (i : Nat) (a : Char) (s : List Char) :
    insertAt (i + 1) (a :: s) = a :: insertAt i s := by
  simp [insertAt, List.take_succ_cons, List.drop_succ_cons]

lemma foldr_insertAt_map_succ (ps : List Nat) (a : Char) (s : List Char) :
    ps.foldr (fun i t => insertAt (i + 1) t) (a :: s) =
      a :: ps.foldr insertAt s := by
  induction ps with
  | nil => rfl
  | cons p ps ih => simp [List.foldr_cons, ih, insertAt_succ_cons]

lemma insertPositions_cons_cons (a b : Char) (t : List Char) :
    insertPositions (a :: b :: t) =
      (if andCond a b then [0] else []) ++
        (insertPositions (b :: t)).map (· + 1) := by
  unfold insertPositions
  have h1 : (a :: b :: t).length - 1 = t.length + 1 := by simp
  have h2 : (b :: t).length - 1 = t.length := by simp
  rw [h1, h2, List.range_succ_eq_map, List.filter_cons, List.filter_map]
  have hcomp :
      ((fun i => andCond ((a :: b :: t).getD i spaceChar)
          ((a :: b :: t).getD (i + 1) spaceChar)) ∘ Nat.succ) =
        fun i => andCond ((b :: t).getD i spaceChar)
          ((b :: t).getD (i + 1) spaceChar) := by
    funext i; rfl
  have hsucc : (List.map Nat.succ
      (List.filter (fun i => andCond ((b :: t).getD i spaceChar)
        ((b :: t).getD (i + 1) spaceChar)) (List.range t.length))) =
      (List.map (· + 1)
      (List.filter (fun i => andCond ((b :: t).getD i spaceChar)
        ((b :: t).getD (i + 1) spaceChar)) (List.range t.length))) := by
    simp [Nat.succ_eq_add_one]
  rw [hcomp, hsucc]
  have hp0 : andCond ((a :: b :: t).getD 0 spaceChar)
      ((a :: b :: t).getD (0 + 1) spaceChar) = andCond a b := rfl
  by_cases h : andCond a b
  · rw [if_pos (by rw [hp0]; exact h), if_pos h]; rfl
  · rw [if_neg (by rw [hp0]; exact h), if_neg h]; rfl

lemma foldr_insertAt_map (ps : List Nat) (s : List Char) :
    (ps.map (· + 1)).foldr insertAt s = ps.foldr (fun i t => insertAt (i + 1) t) s := by
  induction ps with
  | nil => rfl
  | cons p ps ih => simp [List.foldr_cons, ih]

/-- The literal index-based insertion pass coincides with the recursive
pair-walking characterization. -/
lemma foldr_insertPositions_eq_withAnds :
    ∀ s : List Char, (insertPositions s).foldr insertAt s = withAnds s := by
  intro s
  match s with
  | [] => rfl
  | [a] => rfl
  | a :: b :: t =>
    rw [insertPositions_cons_cons, List.foldr_append, foldr_insertAt_map,
      foldr_insertAt_map_succ, foldr_insertPositions_eq_withAnds (b :: t)]
    by_cases h : andCond a b
    · simp [h, withAnds, insertAt]
    · simp [h, withAnds]

/-- `normalize_bool_fct_str` as cleanup followed by the pair-walking insertion. -/
lemma normalize_eq_withAnds (s : List Char) :
    normalize_bool_fct_str s = withAnds (cleanup s) :=
  foldr_insertPositions_eq_withAnds (cleanup s)

/-! ### Order instances for the descending character sort -/

instance : IsTotal Char (fun a b => b ≤ a) := ⟨fun a b => le_total b a⟩

instance : IsTrans Char (fun a b => b ≤ a) :=
  ⟨fun _ _ _ hab hbc => le_trans hbc hab⟩

instance : IsAntisymm Char (fun a b => b ≤ a) :=
  ⟨fun _ _ h1 h2 => le_antisymm h2 h1⟩

/-! ### The canonical enumeration -/

lemma natToBits_length : ∀ n i, (natToBits n i).length = n
  | 0, _ => rfl
  | n + 1, i => by simp [natToBits, natToBits_length n]

lemma natToBits_le_one : ∀ n i, ∀ b ∈ natToBits n i, b ≤ 1
  | n + 1, i, b, hb => by
    rcases List.mem_cons.1 hb with h | h
    · subst h; exact Nat.le_of_lt_succ (Nat.mod_lt _ (by norm_num))
    · exact natToBits_le_one n _ b h

/-- `allTuples n` lists the `n`-bit big-endian binary expansions of
`0, 1, …, 2 ^ n - 1` in order. -/
lemma allTuples_eq_map_range : ∀ n, allTuples n = (List.range (2 ^ n)).map (natToBits n)
  | 0 => rfl
  | n + 1 => by
    have hsplit : 2 ^ (n + 1) = 2 ^ n + 2 ^ n := by ring
    rw [show allTuples (n + 1) =
        (allTuples n).map (fun t => 0 :: t) ++ (allTuples n).map (fun t => 1 :: t)
      from rfl,
      allTuples_eq_map_range n, hsplit, List.range_add, List.map_append]
    congr 1
    · rw [List.map_map]
      refine List.map_congr_left ?_
      intro i hi
      have hi2 : i < 2 ^ n := List.mem_range.1 hi
      have key : natToBits (n + 1) i = 0 :: natToBits n i := by
        rw [show natToBits (n + 1) i = (i / 2 ^ n) % 2 :: natToBits n (i % 2 ^ n)
          from rfl, Nat.div_eq_of_lt hi2, Nat.mod_eq_of_lt hi2]
      exact key.symm
    · rw [List.map_map, List.map_map]
      refine List.map_congr_left ?_
      intro i hi
      have hi2 : i < 2 ^ n := List.mem_range.1 hi
      have key : natToBits (n + 1) (2 ^ n + i) = 1 :: natToBits n i := by
        rw [show natToBits (n + 1) (2 ^ n + i) =
            ((2 ^ n + i) / 2 ^ n) % 2 :: natToBits n ((2 ^ n + i) % 2 ^ n) from rfl,
          Nat.add_comm (2 ^ n) i,
          Nat.add_div_right _ (Nat.pos_pow_of_pos n (by norm_num)),
          Nat.div_eq_of_lt hi2, Nat.add_mod_right, Nat.mod_eq_of_lt hi2]
      exact key.symm

lemma allTuples_length (n : Nat) : (allTuples n).length = 2 ^ n := by
  rw [allTuples_eq_map_range, List.length_map, List.length_range]

lemma natToBits_getD : ∀ n i j, j < n →
    (natToBits n i).getD j 0 = i / 2 ^ (n - 1 - j) % 2
  | n + 1, i, 0, _ => by simp [natToBits]
  | n + 1, i, j + 1, hj => by
    have hj2 : j < n := Nat.lt_of_succ_lt_succ hj
    show (natToBits n (i % 2 ^ n)).getD j 0 = _
    rw [natToBits_getD n _ j hj2]
    have hk : n - 1 - j + 1 ≤ n := by omega
    have hmod : i % 2 ^ n / 2 ^ (n - 1 - j) = i / 2 ^ (n - 1 - j) % 2 ^ (n - (n - 1 - j)) := by
      have h2 : (2 : Nat) ^ n = 2 ^ (n - 1 - j) * 2 ^ (n - (n - 1 - j)) := by
        rw [← pow_add]
        congr 1
        omega
      rw [h2, Nat.mod_mul_right_div_self]
    rw [hmod]
    have hdvd : (2 : Nat) ∣ 2 ^ (n - (n - 1 - j)) :=
      dvd_pow_self 2 (by omega)
    rw [Nat.mod_mod_of_dvd _ hdvd]
    have he : n + 1 - 1 - (j + 1) = n - 1 - j := by omega
    rw [he]

lemma natToBits_inj : ∀ n i1 i2, i1 < 2 ^ n → i2 < 2 ^ n →
    natToBits n i1 = natToBits n i2 → i1 = i2
  | 0, i1, i2, h1, h2, _ => by omega
  | n + 1, i1, i2, h1, h2, h => by
    have hhead : i1 / 2 ^ n % 2 = i2 / 2 ^ n % 2 := by
      have := congrArg (fun l => l.getD 0 0) h
      simpa [natToBits] using this
    have htail : natToBits n (i1 % 2 ^ n) = natToBits n (i2 % 2 ^ n) := by
      have := congrArg List.tail h
      simpa [natToBits] using this
    have hm := natToBits_inj n _ _ (Nat.mod_lt _ (Nat.pos_pow_of_pos n (by norm_num)))
      (Nat.mod_lt _ (Nat.pos_pow_of_pos n (by norm_num))) htail
    have hp : (2 : Nat) ^ (n + 1) = 2 ^ n * 2 := pow_succ 2 n
    have hd1 : i1 / 2 ^ n < 2 := Nat.div_lt_of_lt_mul (by omega)
    have hd2 : i2 / 2 ^ n < 2 := Nat.div_lt_of_lt_mul (by omega)
    have hq : i1 / 2 ^ n = i2 / 2 ^ n := by
      rwa [Nat.mod_eq_of_lt hd1, Nat.mod_eq_of_lt hd2] at hhead
    calc i1 = 2 ^ n * (i1 / 2 ^ n) + i1 % 2 ^ n := (Nat.div_add_mod i1 (2 ^ n)).symm
      _ = 2 ^ n * (i2 / 2 ^ n) + i2 % 2 ^ n := by rw [hq, hm]
      _ = i2 := Nat.div_add_mod i2 (2 ^ n)

/-! ### Truth-table generation lemmas -/

lemma genRows_ok_fst (g : Gate) (syms : List Char) :
    ∀ {l : List (List Nat)} {t : List (List Nat × Nat)},
      genRows g syms l = .ok t → t.map Prod.fst = l := by
  intro l
  induction l with
  | nil =>
    intro t h
    simp only [genRows, pure, Except.pure] at h
    cases h
    rfl
  | cons inp rest ih =>
    intro t h
    simp only [genRows, bind, Except.bind] at h
    cases hu : g.update (mkAssign syms inp) with
    | error e => rw [hu] at h; cases h
    | ok v =>
      rw [hu] at h
      cases hr : genRows g syms rest with
      | error e => rw [hr] at h; cases h
      | ok t2 =>
        rw [hr] at h
        simp only [pure, Except.pure, Except.ok.injEq] at h
        subst h
        simp [ih hr]

/-- A list getter for pairs: the first component of `getD` is `getD` of the
mapped list. -/
lemma getD_fst {α β : Type} :
    ∀ (t : List (α × β)) (i : Nat) (d1 : α) (d2 : β),
      (t.getD i (d1, d2)).1 = (t.map Prod.fst).getD i d1
  | [], _, _, _ => rfl
  | _ :: _, 0, _, _ => rfl
  | _ :: t, i + 1, d1, d2 => getD_fst t i d1 d2

/-! ### The extracted variable set -/

lemma extract_sorted (s : List Char) :
    List.Pairwise (fun a b => b ≤ a) (extract_input_symbols s) :=
  List.sorted_insertionSort _ _

lemma extract_nodup (s : List Char) : (extract_input_symbols s).Nodup :=
  ((List.perm_insertionSort _ _).nodup_iff).2 (List.nodup_dedup _)

lemma extract_pairwise_gt (s : List Char) :
    List.Pairwise (· > ·) (extract_input_symbols s) := by
  have h1 := extract_sorted s
  have h2 := extract_nodup s
  exact (h1.and h2).imp (fun hab => lt_of_le_of_ne hab.1 hab.2.symm)

lemma extract_length (s : List Char) :
    (extract_input_symbols s).length = ((s.filter Char.isAlpha).dedup).length :=
  (List.perm_insertionSort _ _).length_eq

lemma extract_mem_alpha {s : List Char} {c : Char}
    (hc : c ∈ extract_input_symbols s) : c.isAlpha = true := by
  have hmem : c ∈ (s.filter Char.isAlpha).dedup :=
    (List.perm_insertionSort _ _).mem_iff.1 hc
  exact (List.of_mem_filter (List.mem_dedup.1 hmem))

lemma extract_mem_iff {s : List Char} {c : Char} :
    c ∈ extract_input_symbols s ↔ c ∈ s ∧ c.isAlpha = true := by
  unfold extract_input_symbols
  rw [(List.perm_insertionSort _ _).mem_iff, List.mem_dedup, List.mem_filter]

/-! ### Gate evaluation lemmas -/

lemma lookupA_mem : ∀ {a : List (List Char × Nat)} {k : List Char} {v : Nat},
    lookupA k a = some v → ∃ p ∈ a, p.2 = v := by
  intro a
  induction a with
  | nil => intro k v h; cases h
  | cons p rest ih =>
    intro k v h
    by_cases hk : p.1 == k
    · simp only [lookupA, hk, if_pos] at h
      cases h
      exact ⟨p, List.mem_cons_self _ _, rfl⟩
    · simp only [lookupA, hk] at h
      obtain ⟨q, hq, hv⟩ := ih h
      exact ⟨q, List.mem_cons_of_mem _ hq, hv⟩

lemma pyAnd_le_one {x y : Nat} (hx : x ≤ 1) (hy : y ≤ 1) : pyAnd x y ≤ 1 := by
  unfold pyAnd; split; exacts [hy, hx]

lemma pyOr_le_one {x y : Nat} (hx : x ≤ 1) (hy : y ≤ 1) : pyOr x y ≤ 1 := by
  unfold pyOr; split; exacts [hx, hy]

lemma pyNot_le_one (x : Nat) : pyNot x ≤ 1 := by
  unfold pyNot; split; exacts [Nat.zero_le 1, Nat.le_refl 1]

lemma normalize_bool_id (v : Nat) : normalize_bool v = v := by
  match v with
  | 0 => rfl
  | 1 => rfl
  | n + 2 => rfl

lemma update_node (e : List Char) (op : GOp) (i1 i2 : Gate)
    (inputs : List (List Char × Nat)) :
    (Gate.node e op i1 i2).update inputs =
      if i1.isNull then
        if i2.isNull then applyOp e inputs op none none
        else
          match i2.update inputs with
          | .error err => .error err
          | .ok v2 => applyOp e inputs op none (some v2)
      else
        match i1.update inputs with
        | .error err => .error err
        | .ok v1 =>
          if i2.isNull then applyOp e inputs op (some v1) none
          else
            match i2.update inputs with
            | .error err => .error err
            | .ok v2 => applyOp e inputs op (some v1) (some v2) := by
  rw [Gate.update]

lemma applyOp_ok_le_one {e : List Char} {a : List (List Char × Nat)} {op : GOp}
    {o1 o2 : Option Nat} {v : Nat}
    (ha : ∀ p ∈ a, p.2 ≤ 1)
    (h1 : ∀ x, o1 = some x → x ≤ 1) (h2 : ∀ x, o2 = some x → x ≤ 1)
    (h : applyOp e a op o1 o2 = .ok v) : v ≤ 1 := by
  cases op
  case AND =>
    rcases o1 with _ | x
    · rcases o2 with _ | y <;> simp [applyOp] at h
    · rcases o2 with _ | y
      · simp [applyOp] at h
      · simp [applyOp] at h
        exact h ▸ pyAnd_le_one (h1 x rfl) (h2 y rfl)
  case OR =>
    rcases o1 with _ | x
    · rcases o2 with _ | y <;> simp [applyOp] at h
    · rcases o2 with _ | y
      · simp [applyOp] at h
      · simp [applyOp] at h
        exact h ▸ pyOr_le_one (h1 x rfl) (h2 y rfl)
  case NOT =>
    rcases o1 with _ | x
    · simp [applyOp] at h
    · simp [applyOp] at h
      exact h ▸ pyNot_le_one x
  case INPUT =>
    cases hl : lookupA e a with
    | none => simp [applyOp, hl] at h
    | some w =>
      simp [applyOp, hl] at h
      obtain ⟨p, hp, hv⟩ := lookupA_mem hl
      rw [← h, ← hv]
      exact ha p hp
  case UNITY =>
    rcases o1 with _ | x
    · simp [applyOp] at h
    · simp [applyOp] at h
      exact h ▸ h1 x rfl

/-- On assignments with bit values, a successful evaluation is a bit. -/
lemma update_ok_le_one :
    ∀ g : Gate, ∀ (a : List (List Char × Nat)) (v : Nat),
      (∀ p ∈ a, p.2 ≤ 1) → g.update a = .ok v → v ≤ 1 := by
  intro g
  induction g with
  | null =>
    intro a v ha hu
    simp [Gate.update] at hu
  | node e op i1 i2 ih1 ih2 =>
    intro a v ha hu
    rw [update_node] at hu
    by_cases h1 : i1.isNull
    · rw [if_pos h1] at hu
      by_cases h2 : i2.isNull
      · rw [if_pos h2] at hu
        exact applyOp_ok_le_one ha (fun x hx => by cases hx) (fun x hx => by cases hx) hu
      · rw [if_neg h2] at hu
        cases hu2 : i2.update a with
        | error err => rw [hu2] at hu; dsimp only at hu; cases hu
        | ok v2 =>
          rw [hu2] at hu
          dsimp only at hu
          refine applyOp_ok_le_one ha (fun x hx => by cases hx) ?_ hu
          intro x hx
          injection hx with hx2
          exact hx2 ▸ ih2 a v2 ha hu2
    · rw [if_neg h1] at hu
      cases hu1 : i1.update a with
      | error err => rw [hu1] at hu; dsimp only at hu; cases hu
      | ok v1 =>
        rw [hu1] at hu
        dsimp only at hu
        by_cases h2 : i2.isNull
        · rw [if_pos h2] at hu
          refine applyOp_ok_le_one ha ?_ (fun x hx => by cases hx) hu
          intro x hx
          injection hx with hx1
          exact hx1 ▸ ih1 a v1 ha hu1
        · rw [if_neg h2] at hu
          cases hu2 : i2.update a with
          | error err => rw [hu2] at hu; dsimp only at hu; cases hu
          | ok v2 =>
            rw [hu2] at hu
            dsimp only at hu
            refine applyOp_ok_le_one ha ?_ ?_ hu
            · intro x hx
              injection hx with hx1
              exact hx1 ▸ ih1 a v1 ha hu1
            · intro x hx
              injection hx with hx2
              exact hx2 ▸ ih2 a v2 ha hu2

/-! ### Row generation lemmas -/

lemma genRows_ok_get (g : Gate) (syms : List Char) :
    ∀ {l : List (List Nat)} {t : List (List Nat × Nat)},
      genRows g syms l = .ok t →
      ∀ i, i < l.length →
        ∃ v, g.update (mkAssign syms (l.getD i [])) = .ok v ∧
          t.getD i ([], 0) = (l.getD i [], normalize_bool v) := by
  intro l
  induction l with
  | nil => intro t _ i hi; cases hi
  | cons inp rest ih =>
    intro t h i hi
    simp only [genRows, bind, Except.bind] at h
    cases hu : g.update (mkAssign syms inp) with
    | error e => rw [hu] at h; cases h
    | ok v =>
      rw [hu] at h
      cases hr : genRows g syms rest with
      | error e => rw [hr] at h; cases h
      | ok t2 =>
        rw [hr] at h
        simp only [pure, Except.pure, Except.ok.injEq] at h
        subst h
        cases i with
        | zero => exact ⟨v, hu, rfl⟩
        | succ j =>
          have hj : j < rest.length := Nat.lt_of_succ_lt_succ hi
          simpa using ih hr j hj

lemma genRows_intro (g : Gate) (syms : List Char) (f : List Nat → Nat) :
    ∀ l : List (List Nat),
      (∀ inp ∈ l, g.update (mkAssign syms inp) = .ok (f inp)) →
      genRows g syms l = .ok (l.map (fun inp => (inp, normalize_bool (f inp)))) := by
  intro l
  induction l with
  | nil => intro _; rfl
  | cons inp rest ih =>
    intro h
    have hhead := h inp (List.mem_cons_self _ _)
    have hrest := ih (fun x hx => h x (List.mem_cons_of_mem _ hx))
    simp only [genRows, bind, Except.bind, hhead, hrest, pure, Except.pure, List.map_cons]

lemma allTuples_mem {n : Nat} {v : List Nat} (h : v ∈ allTuples n) :
    v.length = n ∧ ∀ b ∈ v, b ≤ 1 := by
  rw [allTuples_eq_map_range] at h
  obtain ⟨i, _, rfl⟩ := List.mem_map.1 h
  exact ⟨natToBits_length n i, natToBits_le_one n i⟩

lemma mkAssign_bits {syms : List Char} {inp : List Nat}
    (h : ∀ b ∈ inp, b ≤ 1) : ∀ p ∈ mkAssign syms inp, p.2 ≤ 1 := by
  intro p hp
  obtain ⟨q, hq, rfl⟩ := List.mem_map.1 hp
  exact h q.2 (List.of_mem_zip hq).2

lemma genRows_ok_mem (g : Gate) (syms : List Char) :
    ∀ {l : List (List Nat)} {t : List (List Nat × Nat)},
      (∀ inp ∈ l, ∀ b ∈ inp, b ≤ 1) →
      genRows g syms l = .ok t →
      ∀ r ∈ t, r.1 ∈ l ∧ r.2 ≤ 1 := by
  intro l
  induction l with
  | nil =>
    intro t _ h r hr
    simp only [genRows, pure, Except.pure] at h
    cases h
    cases hr
  | cons inp rest ih =>
    intro t hbits h r hr
    simp only [genRows, bind, Except.bind] at h
    cases hu : g.update (mkAssign syms inp) with
    | error e => rw [hu] at h; cases h
    | ok v =>
      rw [hu] at h
      cases hgr : genRows g syms rest with
      | error e => rw [hgr] at h; cases h
      | ok t2 =>
        rw [hgr] at h
        simp only [pure, Except.pure, Except.ok.injEq] at h
        subst h
        rcases List.mem_cons.1 hr with hr0 | hr1
        · subst hr0
          refine ⟨List.mem_cons_self _ _, ?_⟩
          rw [normalize_bool_id]
          exact update_ok_le_one g _ v
            (mkAssign_bits (hbits inp (List.mem_cons_self _ _))) hu
        · obtain ⟨h1, h2⟩ := ih (fun x hx => hbits x (List.mem_cons_of_mem _ hx)) hgr r hr1
          exact ⟨List.mem_cons_of_mem _ h1, h2⟩

/-! ### Operator semantics helpers -/

lemma pyAnd_cond (b1 b2 : Bool) :
    pyAnd (cond b1 1 0) (cond b2 1 0) = cond (b1 && b2) 1 0 := by
  cases b1 <;> cases b2 <;> rfl

lemma pyOr_cond (b1 b2 : Bool) :
    pyOr (cond b1 1 0) (cond b2 1 0) = cond (b1 || b2) 1 0 := by
  cases b1 <;> cases b2 <;> rfl

lemma pyNot_cond (b : Bool) : pyNot (cond b 1 0) = cond (!b) 1 0 := by
  cases b <;> rfl

/-! ### Minterm builder lemmas -/

lemma mkTerm_eq_specTerm :
    ∀ (syms : List Char) (inp : List Nat),
      inp.length = syms.length → (∀ b ∈ inp, b ≤ 1) →
      mkTerm syms inp = .ok (specTerm syms inp)
  | _, [] => by
    intro _ _
    simp [mkTerm, specTerm, pure, Except.pure]
  | [], b :: bs => by intro h _; simp at h
  | c :: cs, b :: bs => by
    intro h hb
    have ih := mkTerm_eq_specTerm cs bs (by simpa using h)
      (fun x hx => hb x (List.mem_cons_of_mem _ hx))
    have hbit : b ≤ 1 := hb b (List.mem_cons_self _ _)
    have hb2 : b = 0 ∨ b = 1 := by omega
    rcases hb2 with rfl | rfl <;>
      simp [mkTerm, bind, Except.bind, ih, specTerm, pure, Except.pure]

lemma build_minterms_fold (syms : List Char) :
    ∀ (table : List (List Nat × Nat)) (acc : List (List Char)),
      (∀ r ∈ table, r.1.length = syms.length) →
      (∀ r ∈ table, r.2 ≤ 1) →
      (∀ r ∈ table, ∀ b ∈ r.1, b ≤ 1) →
      table.foldlM
        (fun acc line =>
          if line.2 ≠ 0 then do
            let row ← mkTerm syms line.1
            pure (acc ++ [row])
          else pure acc)
        acc =
      .ok (acc ++ (table.filter (fun r => r.2 = 1)).map (fun r => specTerm syms r.1)) := by
  intro table
  induction table with
  | nil =>
    intro acc _ _ _
    simp [List.foldlM]
    rfl
  | cons r rest ih =>
    intro acc hlen hout hbits
    have hr2 : r.2 ≤ 1 := hout r (List.mem_cons_self _ _)
    have hrest : ∀ acc2 : List (List Char),
        rest.foldlM
          (fun acc line =>
            if line.2 ≠ 0 then do
              let row ← mkTerm syms line.1
              pure (acc ++ [row])
            else pure acc)
          acc2 =
        .ok (acc2 ++ (rest.filter (fun r => r.2 = 1)).map (fun r => specTerm syms r.1)) :=
      fun acc2 => ih acc2
        (fun x hx => hlen x (List.mem_cons_of_mem _ hx))
        (fun x hx => hout x (List.mem_cons_of_mem _ hx))
        (fun x hx => hbits x (List.mem_cons_of_mem _ hx))
    have hr2c : r.2 = 0 ∨ r.2 = 1 := by omega
    rw [List.foldlM_cons]
    rcases hr2c with h0 | h1
    · rw [if_neg (by simp [h0])]
      show rest.foldlM _ acc = _
      rw [hrest acc, List.filter_cons, if_neg (by simp [h0])]
    · have hmk := mkTerm_eq_specTerm syms r.1
        (hlen r (List.mem_cons_self _ _)) (hbits r (List.mem_cons_self _ _))
      rw [if_pos (by simp [h1])]
      show (mkTerm syms r.1).bind _ >>= _ = _
      rw [hmk]
      show rest.foldlM _ (acc ++ [specTerm syms r.1]) = _
      rw [hrest (acc ++ [specTerm syms r.1]), List.filter_cons, if_pos (by simp [h1])]
      simp

/-! ### Table loader lemmas -/

lemma check_table_aux_ok :
    ∀ (tups : List (List Nat)) (rows : List (List Nat × Nat)) (i : Nat),
      tups.length ≤ rows.length →
      (∀ j, j < tups.length → (rows.getD j ([], 0)).1 = tups.getD j []) →
      check_table_aux tups rows i = .ok () := by
  intro tups
  induction tups with
  | nil => intro rows i _ _; rfl
  | cons t ts ih =>
    intro rows i hlen hall
    cases rows with
    | nil => simp at hlen
    | cons r rs =>
      have h0 := hall 0 (Nat.succ_pos _)
      simp only [List.getD_cons_zero] at h0
      show check_table_aux (t :: ts) (r :: rs) i = .ok ()
      rw [check_table_aux, if_neg (by simp [h0])]
      exact ih rs (i + 1) (by simpa using hlen)
        (fun j hj => by simpa using hall (j + 1) (Nat.succ_lt_succ hj))

lemma check_table_aux_err :
    ∀ (tups : List (List Nat)) (rows : List (List Nat × Nat)) (i j : Nat),
      j < tups.length → j < rows.length →
      (∀ k, k < j → (rows.getD k ([], 0)).1 = tups.getD k []) →
      (rows.getD j ([], 0)).1 ≠ tups.getD j [] →
      check_table_aux tups rows i = .error (.inconsistentRow (i + j + 1)) := by
  intro tups
  induction tups with
  | nil => intro rows i j hj _ _ _; simp at hj
  | cons t ts ih =>
    intro rows i j hj hjr hbefore hmis
    cases rows with
    | nil => simp at hjr
    | cons r rs =>
      cases j with
      | zero =>
        simp only [List.getD_cons_zero] at hmis
        show check_table_aux (t :: ts) (r :: rs) i = _
        rw [check_table_aux, if_pos (by simpa using hmis)]
      | succ k =>
        have h0 := hbefore 0 (Nat.succ_pos _)
        simp only [List.getD_cons_zero] at h0
        show check_table_aux (t :: ts) (r :: rs) i = _
        rw [check_table_aux, if_neg (by simp [h0])]
        have := ih rs (i + 1) k (by simpa using hj) (by simpa using hjr)
          (fun m hm => by simpa using hbefore (m + 1) (Nat.succ_lt_succ hm))
          (by simpa using hmis)
        rw [this]
        congr 2
        omega

lemma mapM_parse_line :
    ∀ ls : List (List Nat),
      (∀ l ∈ ls, l ≠ []) →
      ls.mapM parse_line =
        .ok (ls.map (fun l => (l.dropLast, l.getLast?.getD 0))) := by
  intro ls
  induction ls with
  | nil => intro _; rfl
  | cons l rest ih =>
    intro h
    have hl : l ≠ [] := h l (List.mem_cons_self _ _)
    obtain ⟨v, hv⟩ := Option.isSome_iff_exists.1 (List.getLast?_isSome.2 hl)
    have hpl : parse_line l = .ok (l.dropLast, v) := by
      simp [parse_line, hv, pure, Except.pure]
    rw [List.mapM_cons, hpl, ih (fun x hx => h x (List.mem_cons_of_mem _ hx))]
    simp [bind, Except.bind, pure, Except.pure, hv]

/-- `getD` through `map` when the default is the image of a default. -/
lemma getD_map {α β : Type} (f : α → β) (l : List α) (k : Nat) (d : α)
    (hk : k < l.length) : (l.map f).getD k (f d) = f (l.getD k d) := by
  rw [List.getD_eq_getElem _ _ (by simpa using hk), List.getD_eq_getElem _ _ hk,
    List.getElem_map]

/-! ### Leading-operator lemmas -/

lemma dropWhile_append_singleton (p : Char → Bool) (l : List Char) (c : Char)
    (hc : p c = false) :
    List.dropWhile p (l ++ [c]) = List.dropWhile p l ++ [c] := by
  induction l with
  | nil => simp [List.dropWhile, hc]
  | cons a t ih =>
    by_cases h : p a <;> simp [List.dropWhile_cons, h, ih]

lemma dropTrailingWhile_cons (p : Char → Bool) (c : Char) (l : List Char)
    (hc : p c = false) :
    dropTrailingWhile p (c :: l) = c :: dropTrailingWhile p l := by
  unfold dropTrailingWhile
  rw [List.reverse_cons, dropWhile_append_singleton p l.reverse c hc,
    List.reverse_append]
  simp

lemma stripChars_cons (ch c : Char) (l : List Char) (hc : (c == ch) = false) :
    stripChars ch (c :: l) = c :: dropTrailingWhile (fun x => x == ch) l := by
  unfold stripChars
  rw [List.dropWhile_cons, if_neg (by simp [hc])]
  exact dropTrailingWhile_cons _ _ _ hc

lemma pyStrip_cons (c : Char) (l : List Char) (hc : isPyWs c = false) :
    pyStrip (c :: l) = c :: dropTrailingWhile isPyWs l := by
  unfold pyStrip
  rw [List.dropWhile_cons, if_neg (by simp [hc])]
  exact dropTrailingWhile_cons _ _ _ hc

lemma cleanup_head (c : Char) (hc : c = compChar ∨ c = bangChar) (l : List Char) :
    ∃ l2, cleanup (c :: l) = compChar :: l2 := by
  have key : ∀ X : List Char,
      ∃ l2, stripChars plusChar (stripChars starChar (compChar :: X)) =
        compChar :: l2 := by
    intro X
    rw [stripChars_cons starChar compChar X (by decide),
      stripChars_cons plusChar compChar _ (by decide)]
    exact ⟨_, rfl⟩
  rcases hc with rfl | rfl
  · have e : cleanup (compChar :: l) = stripChars plusChar (stripChars starChar
        (compChar ::
          ((((l.map Char.toUpper).filter (fun x => x != spaceChar)).filter
            (fun x => x != bslashChar)).map
            (fun x => if x == bangChar then compChar else x)))) := by
      unfold cleanup
      dsimp only
      rw [List.map_cons, show Char.toUpper compChar = compChar from rfl,
        List.filter_cons, if_pos (show ((compChar != spaceChar) = true) from rfl),
        List.filter_cons, if_pos (show ((compChar != bslashChar) = true) from rfl),
        List.map_cons,
        show (if (compChar == bangChar) = true then compChar else compChar) = compChar
          from rfl]
    rw [e]
    exact key _
  · have e : cleanup (bangChar :: l) = stripChars plusChar (stripChars starChar
        (compChar ::
          ((((l.map Char.toUpper).filter (fun x => x != spaceChar)).filter
            (fun x => x != bslashChar)).map
            (fun x => if x == bangChar then compChar else x)))) := by
      unfold cleanup
      dsimp only
      rw [List.map_cons, show Char.toUpper bangChar = bangChar from rfl,
        List.filter_cons, if_pos (show ((bangChar != spaceChar) = true) from rfl),
        List.filter_cons, if_pos (show ((bangChar != bslashChar) = true) from rfl),
        List.map_cons,
        show (if (bangChar == bangChar) = true then compChar else bangChar) = compChar
          from rfl]
    rw [e]
    exact key _

lemma withAnds_cons (c : Char) (l : List Char) :
    ∃ l2, withAnds (c :: l) = c :: l2 := by
  cases l with
  | nil => exact ⟨[], rfl⟩
  | cons b t =>
    rw [withAnds]
    exact ⟨_, rfl⟩

lemma normalize_head (c : Char) (hc : c = compChar ∨ c = bangChar) (l : List Char) :
    ∃ l2, normalize_bool_fct_str (c :: l) = compChar :: l2 := by
  obtain ⟨l2, h2⟩ := cleanup_head c hc l
  rw [normalize_eq_withAnds, h2]
  exact withAnds_cons _ _

/-- The leading-operator check: when the normalized expression starts with an
operator symbol, parsing fails with LeadingOperator before any recursion. -/
lemma parseGateCore_leadingOp (rec : List Char → Except PyErr Gate)
    (raw : List Char) (c : Char) (t : List Char)
    (he : normalize_bool_fct_str (pyStrip raw) = c :: t)
    (hc : c = compChar ∨ c = starChar ∨ c = plusChar ∨ c = bangChar) :
    parseGateCore rec raw = .error .leadingOp := by
  unfold parseGateCore
  rw [he]
  have hcond : (c == compChar || c == starChar || c == plusChar || c == bangChar) =
      true := by
    rcases hc with rfl | rfl | rfl | rfl <;> rfl
  simp only [hcond, if_true]

/-! ### Characters of normalized strings -/

lemma char_toNat_ofNat {n : Nat} (h : n < 55296) : (Char.ofNat n).toNat = n := by
  have hv : n.isValidChar := Or.inl (by omega)
  rw [Char.ofNat, dif_pos hv]
  show (Char.ofNatAux n hv).toNat = n
  unfold Char.ofNatAux
  simp [Char.toNat, UInt32.toNat]

lemma char_toUpper_eq (c : Char) :
    c.toUpper = if 97 ≤ c.toNat ∧ c.toNat ≤ 122 then Char.ofNat (c.toNat - 32) else c := by
  unfold Char.toUpper
  rfl

lemma char_toUpper_idem (c : Char) : c.toUpper.toUpper = c.toUpper := by
  by_cases h : 97 ≤ c.toNat ∧ c.toNat ≤ 122
  · rw [char_toUpper_eq c, if_pos h]
    have ht : (Char.ofNat (c.toNat - 32)).toNat = c.toNat - 32 :=
      char_toNat_ofNat (by omega)
    rw [char_toUpper_eq, ht, if_neg (by omega)]
  · rw [char_toUpper_eq c, if_neg h, char_toUpper_eq c, if_neg h]

lemma mem_dropTrailingWhile {p : Char → Bool} {l : List Char} {c : Char}
    (h : c ∈ dropTrailingWhile p l) : c ∈ l := by
  unfold dropTrailingWhile at h
  rw [List.mem_reverse] at h
  have := (List.dropWhile_sublist (l := l.reverse) (p := p)).mem h
  rwa [List.mem_reverse] at this

lemma mem_stripChars {ch : Char} {l : List Char} {c : Char}
    (h : c ∈ stripChars ch l) : c ∈ l := by
  unfold stripChars at h
  exact (List.dropWhile_sublist _).mem (mem_dropTrailingWhile h)

lemma mem_withAnds : ∀ {l : List Char} {c : Char},
    c ∈ withAnds l → c = starChar ∨ c ∈ l
  | [], c, h => by cases h
  | [a], c, h => by
    rw [show withAnds [a] = [a] from rfl] at h
    exact Or.inr h
  | a :: b :: t, c, h => by
    rw [withAnds] at h
    rcases List.mem_cons.1 h with rfl | h2
    · exact Or.inr (List.mem_cons_self _ _)
    · by_cases hc : andCond a b
      · rw [if_pos hc] at h2
        rcases List.mem_cons.1 h2 with rfl | h3
        · exact Or.inl rfl
        · rcases mem_withAnds h3 with h4 | h4
          · exact Or.inl h4
          · exact Or.inr (List.mem_cons_of_mem _ h4)
      · rw [if_neg hc] at h2
        rcases mem_withAnds h2 with h4 | h4
        · exact Or.inl h4
        · exact Or.inr (List.mem_cons_of_mem _ h4)

/-- Every character of a normalized expression is fixed by `toUpper`. -/
lemma mem_normalize_toUpper {s : List Char} {c : Char}
    (h : c ∈ normalize_bool_fct_str s) : c.toUpper = c := by
  rw [normalize_eq_withAnds] at h
  rcases mem_withAnds h with rfl | h2
  · rfl
  · unfold cleanup at h2
    have h3 := mem_stripChars (mem_stripChars h2)
    obtain ⟨x, hx, rfl⟩ := List.mem_map.1 h3
    have hx2 := List.mem_filter.1 hx
    have hx3 := List.mem_filter.1 hx2.1
    obtain ⟨d, _, rfl⟩ := List.mem_map.1 hx3.1
    by_cases hb : (d.toUpper == bangChar) = true
    · rw [if_pos hb]
      rfl
    · rw [if_neg hb]
      exact char_toUpper_idem d

/-- `parseParenSplit` only returns nodes labelled with `e`. -/
lemma parseParenSplit_ok_expression {rec : List Char → Except PyErr Gate}
    {e : List Char} {io ic : Int} {g : Gate}
    (h : parseParenSplit rec e io ic = .ok g) : g.expression = e := by
  unfold parseParenSplit at h
  simp only [bind, Except.bind, pure, Except.pure] at h
  repeat' split at h
  all_goals first
    | (injection h with h2; rw [← h2]; rfl)
    | (injection h)

set_option maxHeartbeats 1000000 in
/-- `parseParenBranch` only returns nodes labelled with `e`. -/
lemma parseParenBranch_ok_expression {rec : List Char → Except PyErr Gate}
    {e : List Char} {g : Gate}
    (h : parseParenBranch rec e = .ok g) : g.expression = e := by
  unfold parseParenBranch at h
  simp only [bind, Except.bind, pure, Except.pure] at h
  split at h
  · cases h
  · split at h
    · cases h
    · split at h
      · split at h
        · cases h
        · injection h with h2; rw [← h2]; rfl
      · split at h
        · split at h
          · cases h
          · injection h with h2; rw [← h2]; rfl
        · exact parseParenSplit_ok_expression h

set_option maxHeartbeats 4000000 in
/-- A successfully parsed node stores the normalized expression text. -/
lemma parseGateCore_ok_expression {rec : List Char → Except PyErr Gate}
    {raw : List Char} {g : Gate} (h : parseGateCore rec raw = .ok g) :
    g.expression = normalize_bool_fct_str (pyStrip raw) := by
  unfold parseGateCore at h
  obtain ⟨E, hX⟩ : ∃ E, normalize_bool_fct_str (pyStrip raw) = E := ⟨_, rfl⟩
  rw [hX] at h ⊢
  cases E with
  | nil => cases h
  | cons c0 t =>
    dsimp only at h
    simp only [bind, Except.bind, pure, Except.pure] at h
    split at h
    · cases h
    · split at h
      · exact parseParenBranch_ok_expression h
      · repeat' split at h
        all_goals first
          | (injection h with h2; rw [← h2]; rfl)
          | (injection h)

/-! ### Round-trip machinery: characters and self-normalization -/

lemma beq_false_of_isAlpha {c d : Char} (h : c.isAlpha = true)
    (hd : d.isAlpha = false) : (c == d) = false := by
  cases hbe : c == d
  · rfl
  · exact absurd (eq_of_beq hbe ▸ h) (by simp [hd])

lemma alpha_not_ws {c : Char} (h : c.isAlpha = true) : isPyWs c = false := by
  unfold isPyWs
  rw [beq_false_of_isAlpha h (by decide), beq_false_of_isAlpha h (by decide),
    beq_false_of_isAlpha h (by decide), beq_false_of_isAlpha h (by decide),
    beq_false_of_isAlpha h (by decide), beq_false_of_isAlpha h (by decide)]
  rfl

lemma update_nil_error : ∀ g : Gate, ∃ err, g.update [] = .error err := by
  intro g
  induction g with
  | null => exact ⟨.attrError, rfl⟩
  | node e op i1 i2 ih1 ih2 =>
    rw [update_node]
    by_cases h1 : i1.isNull
    · rw [if_pos h1]
      by_cases h2 : i2.isNull
      · rw [if_pos h2]
        cases op <;> exact ⟨_, rfl⟩
      · rw [if_neg h2]
        obtain ⟨err2, he2⟩ := ih2
        rw [he2]
        exact ⟨err2, rfl⟩
    · rw [if_neg h1]
      obtain ⟨err1, he1⟩ := ih1
      rw [he1]
      exact ⟨err1, rfl⟩

lemma intercalate_nil (sep : List Char) :
    List.intercalate sep ([] : List (List Char)) = [] := rfl

lemma intercalate_single (sep x : List Char) :
    List.intercalate sep [x] = x := by
  simp [List.intercalate]

lemma intercalate_cons₂ (sep x y : List Char) (rest : List (List Char)) :
    List.intercalate sep (x :: y :: rest) =
      x ++ sep ++ List.intercalate sep (y :: rest) := by
  simp [List.intercalate, List.intersperse]

lemma mem_termRaw : ∀ {tm : List (Char × Nat)} {c : Char},
    c ∈ termRaw tm → c = compChar ∨ ∃ p ∈ tm, c = p.1
  | [], c, h => by cases h
  | p :: tms, c, h => by
    rw [termRaw] at h
    rcases List.mem_append.1 h with h1 | h1
    · unfold litStr at h1
      by_cases hb : p.2 ≠ 0
      · rw [if_pos hb] at h1
        rw [List.mem_singleton.1 h1]
        exact Or.inr ⟨p, List.mem_cons_self _ _, rfl⟩
      · rw [if_neg hb] at h1
        rcases List.mem_cons.1 h1 with rfl | h2
        · exact Or.inr ⟨p, List.mem_cons_self _ _, rfl⟩
        · rw [List.mem_singleton.1 h2]
          exact Or.inl rfl
    · rcases mem_termRaw h1 with h2 | ⟨q, hq, h3⟩
      · exact Or.inl h2
      · exact Or.inr ⟨q, List.mem_cons_of_mem _ hq, h3⟩

lemma mem_dnfRaw : ∀ {L : List (List (Char × Nat))} {c : Char},
    c ∈ dnfRaw L → c = plusChar ∨ ∃ tm ∈ L, c ∈ termRaw tm
  | [], c, h => by cases h
  | [tm], c, h => by
    rw [dnfRaw] at h
    exact Or.inr ⟨tm, List.mem_singleton_self _, h⟩
  | tm :: tm2 :: rest, c, h => by
    rw [show dnfRaw (tm :: tm2 :: rest) =
      termRaw tm ++ plusChar :: dnfRaw (tm2 :: rest) from rfl] at h
    rcases List.mem_append.1 h with h1 | h1
    · exact Or.inr ⟨tm, List.mem_cons_self _ _, h1⟩
    · rcases List.mem_cons.1 h1 with rfl | h2
      · exact Or.inl rfl
      · rcases mem_dnfRaw h2 with h3 | ⟨tm3, htm3, h4⟩
        · exact Or.inl h3
        · exact Or.inr ⟨tm3, List.mem_cons_of_mem _ htm3, h4⟩

lemma litStr_cons_shape (c : Char) (b : Nat) (Z : List Char) :
    ∃ W, litStr c b ++ Z = c :: W := by
  unfold litStr
  by_cases hb : b ≠ 0
  · rw [if_pos hb]; exact ⟨Z, rfl⟩
  · rw [if_neg hb]; exact ⟨compChar :: Z, rfl⟩

lemma termRaw_head_shape (p : Char × Nat) (tms : List (Char × Nat)) (Z : List Char) :
    ∃ W, termRaw (p :: tms) ++ Z = p.1 :: W := by
  rw [termRaw, List.append_assoc]
  exact litStr_cons_shape _ _ _

lemma termRaw_ne_nil (p : Char × Nat) (tms : List (Char × Nat)) :
    termRaw (p :: tms) ≠ [] := by
  obtain ⟨W, hW⟩ := termRaw_head_shape p tms []
  rw [List.append_nil] at hW
  rw [hW]
  exact List.cons_ne_nil _ _

lemma litStr_getLast (c : Char) (b : Nat) :
    ∃ x, (litStr c b).getLast? = some x ∧ (x = c ∨ x = compChar) := by
  unfold litStr
  by_cases hb : b ≠ 0
  · rw [if_pos hb]; exact ⟨c, rfl, Or.inl rfl⟩
  · rw [if_neg hb]; exact ⟨compChar, rfl, Or.inr rfl⟩

lemma termRaw_getLast : ∀ (tm : List (Char × Nat)), tm ≠ [] →
    (∃ x, (termRaw tm).getLast? = some x ∧ ∃ p ∈ tm, x = p.1) ∨
      ((termRaw tm).getLast? = some compChar)
  | [], h => absurd rfl h
  | [p], _ => by
    have h0 : termRaw [p] = litStr p.1 p.2 := by simp [termRaw]
    rw [h0]
    obtain ⟨x, hx, hor⟩ := litStr_getLast p.1 p.2
    rcases hor with rfl | rfl
    · exact Or.inl ⟨p.1, hx, ⟨p, List.mem_singleton_self _, rfl⟩⟩
    · exact Or.inr hx
  | p :: q :: tms, _ => by
    rw [termRaw]
    rcases termRaw_getLast (q :: tms) (List.cons_ne_nil _ _) with ⟨x, hx, ⟨r, hr, hxr⟩⟩ | hlast
    · refine Or.inl ⟨x, ?_, ⟨r, List.mem_cons_of_mem _ hr, hxr⟩⟩
      rw [List.getLast?_append, hx]
      rfl
    · refine Or.inr ?_
      rw [List.getLast?_append, hlast]
      rfl

lemma dropWhile_eq_self_head (p : Char → Bool) (l : List Char)
    (hh : ∀ x, l.head? = some x → p x = false) : l.dropWhile p = l := by
  cases l with
  | nil => rfl
  | cons a t => rw [List.dropWhile_cons, if_neg (by simp [hh a rfl])]

lemma dropTrailingWhile_eq_self (p : Char → Bool) (l : List Char)
    (hl : ∀ x, l.getLast? = some x → p x = false) : dropTrailingWhile p l = l := by
  unfold dropTrailingWhile
  rw [dropWhile_eq_self_head p l.reverse
    (fun x hx => hl x (by rwa [List.head?_reverse] at hx)), List.reverse_reverse]

lemma stripChars_eq_self (ch : Char) (l : List Char)
    (hh : ∀ x, l.head? = some x → (x == ch) = false)
    (hl : ∀ x, l.getLast? = some x → (x == ch) = false) : stripChars ch l = l := by
  unfold stripChars
  rw [dropWhile_eq_self_head _ l hh]
  exact dropTrailingWhile_eq_self _ l hl

lemma pyStrip_eq_self (l : List Char) (h : ∀ c ∈ l, isPyWs c = false) :
    pyStrip l = l := by
  unfold pyStrip
  rw [dropWhile_eq_self_head _ l (fun x hx => h x (List.mem_of_mem_head? hx))]
  exact dropTrailingWhile_eq_self _ l
    (fun x hx => h x (List.mem_of_mem_getLast? hx))

lemma cleanup_eq_self (l : List Char)
    (hup : ∀ c ∈ l, c.toUpper = c)
    (hsp : ∀ c ∈ l, (c == spaceChar) = false)
    (hbs : ∀ c ∈ l, (c == bslashChar) = false)
    (hbg : ∀ c ∈ l, (c == bangChar) = false)
    (hh : ∀ x, l.head? = some x → (x == starChar) = false ∧ (x == plusChar) = false)
    (hl : ∀ x, l.getLast? = some x → (x == starChar) = false ∧ (x == plusChar) = false) :
    cleanup l = l := by
  unfold cleanup
  dsimp only
  have e1 : l.map Char.toUpper = l := by
    rw [List.map_congr_left (g := fun a => a) hup]
    exact List.map_id' l
  rw [e1]
  have e2 : l.filter (fun c => c != spaceChar) = l :=
    List.filter_eq_self.2 (fun c hc => by
      show (!(c == spaceChar)) = true
      rw [hsp c hc]
      rfl)
  rw [e2]
  have e3 : l.filter (fun c => c != bslashChar) = l :=
    List.filter_eq_self.2 (fun c hc => by
      show (!(c == bslashChar)) = true
      rw [hbs c hc]
      rfl)
  rw [e3]
  have e4 : l.map (fun c => if c == bangChar then compChar else c) = l := by
    rw [List.map_congr_left (fun c hc => by rw [if_neg (by simp [hbg c hc])])]
    exact List.map_id' l
  rw [e4]
  rw [stripChars_eq_self starChar l (fun x hx => (hh x hx).1)
    (fun x hx => (hl x hx).1)]
  exact stripChars_eq_self plusChar l (fun x hx => (hh x hx).2)
    (fun x hx => (hl x hx).2)

lemma withAnds_eq_self : ∀ l : List Char,
    List.Chain' (fun a b => andCond a b = false) l → withAnds l = l
  | [], _ => rfl
  | [a], _ => rfl
  | a :: b :: t, h => by
    rw [withAnds, if_neg (by simp [List.chain'_cons.1 h |>.1])]
    rw [withAnds_eq_self (b :: t) (List.chain'_cons.1 h |>.2)]

/-- The joined minterm body for a list of (symbol, bit) rows. -/
def bodyOf (L : List (List (Char × Nat))) : List Char :=
  List.intercalate sepStr (L.map termRaw)

lemma specTerm_eq_termRaw : ∀ (syms : List Char) (inp : List Nat),
    (∀ b ∈ inp, b ≤ 1) → specTerm syms inp = termRaw (syms.zip inp)
  | _, [], _ => by simp [specTerm, termRaw]
  | [], _ :: _, _ => by simp [specTerm, termRaw]
  | c :: cs, b :: bs, hb => by
    have hb1 : b ≤ 1 := hb b (List.mem_cons_self _ _)
    have ih := specTerm_eq_termRaw cs bs (fun x hx => hb x (List.mem_cons_of_mem _ hx))
    rw [show termRaw ((c :: cs).zip (b :: bs)) =
      litStr c b ++ termRaw (cs.zip bs) from rfl, ← ih]
    unfold specTerm litStr
    rw [List.zip_cons_cons, List.flatMap_cons]
    have hcase : b = 0 ∨ b = 1 := by omega
    rcases hcase with rfl | rfl <;> simp

lemma bodyOf_single (tm : List (Char × Nat)) : bodyOf [tm] = termRaw tm := by
  unfold bodyOf
  rw [List.map_cons, List.map_nil, intercalate_single]

lemma bodyOf_cons₂ (x y : List (Char × Nat)) (rest : List (List (Char × Nat))) :
    bodyOf (x :: y :: rest) = termRaw x ++ sepStr ++ bodyOf (y :: rest) := by
  unfold bodyOf
  rw [List.map_cons, List.map_cons, intercalate_cons₂]

lemma mem_bodyOf : ∀ {L : List (List (Char × Nat))} {c : Char},
    c ∈ bodyOf L → c ∈ sepStr ∨ ∃ tm ∈ L, c ∈ termRaw tm
  | [], c, h => by rw [show bodyOf [] = [] from rfl] at h; cases h
  | [tm], c, h => by
    rw [bodyOf_single] at h
    exact Or.inr ⟨tm, List.mem_singleton_self _, h⟩
  | tm :: y :: rest, c, h => by
    rw [bodyOf_cons₂] at h
    rcases List.mem_append.1 h with h1 | h1
    · rcases List.mem_append.1 h1 with h2 | h2
      · exact Or.inr ⟨tm, List.mem_cons_self _ _, h2⟩
      · exact Or.inl h2
    · rcases mem_bodyOf h1 with h2 | ⟨tm2, htm2, h3⟩
      · exact Or.inl h2
      · exact Or.inr ⟨tm2, List.mem_cons_of_mem _ htm2, h3⟩

lemma withAnds_append_break : ∀ (x y : List Char), y ≠ [] →
    (∀ a b, x.getLast? = some a → y.head? = some b → andCond a b = false) →
    withAnds (x ++ y) = withAnds x ++ withAnds y
  | [], _, _, _ => rfl
  | [a], y, hy, hb => by
    cases y with
    | nil => exact absurd rfl hy
    | cons b t =>
      have hw : withAnds (a :: b :: t) =
          a :: (if andCond a b then starChar :: withAnds (b :: t)
            else withAnds (b :: t)) := rfl
      show withAnds (a :: b :: t) = withAnds [a] ++ withAnds (b :: t)
      rw [hw, hb a b rfl rfl, if_neg Bool.false_ne_true]
      rfl
  | a :: c :: xs, y, hy, hb => by
    have ih := withAnds_append_break (c :: xs) y hy
      (fun p q hp hq => hb p q (by rwa [List.getLast?_cons_cons]) hq)
    show withAnds (a :: c :: (xs ++ y)) = withAnds (a :: c :: xs) ++ withAnds y
    rw [withAnds, withAnds]
    by_cases hc : andCond a c
    · rw [if_pos hc, if_pos hc]
      rw [show (c :: xs) ++ y = c :: (xs ++ y) from rfl] at ih
      rw [ih]
      rfl
    · rw [if_neg hc, if_neg hc]
      rw [show (c :: xs) ++ y = c :: (xs ++ y) from rfl] at ih
      rw [ih]
      rfl

lemma withAnds_append_ins : ∀ (x y : List Char), x ≠ [] → y ≠ [] →
    (∀ a b, x.getLast? = some a → y.head? = some b → andCond a b = true) →
    withAnds (x ++ y) = withAnds x ++ starChar :: withAnds y
  | [], _, hx, _, _ => absurd rfl hx
  | [a], y, _, hy, hb => by
    cases y with
    | nil => exact absurd rfl hy
    | cons b t =>
      have hw : withAnds (a :: b :: t) =
          a :: (if andCond a b then starChar :: withAnds (b :: t)
            else withAnds (b :: t)) := rfl
      show withAnds (a :: b :: t) = withAnds [a] ++ starChar :: withAnds (b :: t)
      rw [hw, hb a b rfl rfl, if_pos rfl]
      rfl
  | a :: c :: xs, y, _, hy, hb => by
    have ih := withAnds_append_ins (c :: xs) y (List.cons_ne_nil _ _) hy
      (fun p q hp hq => hb p q (by rwa [List.getLast?_cons_cons]) hq)
    show withAnds (a :: c :: (xs ++ y)) = withAnds (a :: c :: xs) ++ starChar :: withAnds y
    rw [withAnds, withAnds]
    by_cases hc : andCond a c
    · rw [if_pos hc, if_pos hc]
      rw [show (c :: xs) ++ y = c :: (xs ++ y) from rfl] at ih
      rw [ih]
      rfl
    · rw [if_neg hc, if_neg hc]
      rw [show (c :: xs) ++ y = c :: (xs ++ y) from rfl] at ih
      rw [ih]
      rfl

lemma andCond_comp_right (a : Char) : andCond a compChar = false := by
  unfold andCond
  rw [show (compChar.isAlpha || compChar == lparChar) = false from by decide,
    show compChar.isAlpha = false from by decide]
  simp

lemma andCond_plus_right (a : Char) : andCond a plusChar = false := by
  unfold andCond
  rw [show (plusChar.isAlpha || plusChar == lparChar) = false from by decide,
    show plusChar.isAlpha = false from by decide]
  simp

lemma andCond_plus_left (b : Char) : andCond plusChar b = false := by
  unfold andCond
  rw [show (plusChar.isAlpha || plusChar == compChar) = false from by decide,
    show (plusChar == rparChar) = false from by decide]
  simp

lemma andCond_of_alpha {a b : Char} (ha : (a.isAlpha || a == compChar) = true)
    (hb : b.isAlpha = true) : andCond a b = true := by
  unfold andCond
  rw [ha, hb]
  simp

lemma termRaw_cons_shape (p : Char × Nat) (tms : List (Char × Nat)) :
    ∃ W, termRaw (p :: tms) = p.1 :: W := by
  obtain ⟨W, hW⟩ := termRaw_head_shape p tms []
  rw [List.append_nil] at hW
  exact ⟨W, hW⟩

lemma litStr_ne_nil (c : Char) (b : Nat) : litStr c b ≠ [] := by
  unfold litStr
  by_cases hb : b ≠ 0
  · rw [if_pos hb]; exact List.cons_ne_nil _ _
  · rw [if_neg hb]; exact List.cons_ne_nil _ _

lemma withAnds_litStr (c : Char) (b : Nat) : withAnds (litStr c b) = litStr c b := by
  unfold litStr
  by_cases hb : b ≠ 0
  · rw [if_pos hb]; rfl
  · rw [if_neg hb]
    show withAnds [c, compChar] = [c, compChar]
    rw [withAnds, andCond_comp_right, if_neg Bool.false_ne_true]
    rfl

lemma withAnds_termRaw : ∀ (tm : List (Char × Nat)), tm ≠ [] →
    (∀ p ∈ tm, p.1.isAlpha = true) → withAnds (termRaw tm) = termNorm tm
  | [], h, _ => absurd rfl h
  | [p], _, _ => by
    have h0 : termRaw [p] = litStr p.1 p.2 := by simp [termRaw]
    rw [h0, withAnds_litStr]
    rfl
  | p :: q :: tms, _, ha => by
    have ih := withAnds_termRaw (q :: tms) (List.cons_ne_nil _ _)
      (fun r hr => ha r (List.mem_cons_of_mem _ hr))
    obtain ⟨W, hW⟩ := termRaw_cons_shape q tms
    rw [termRaw, withAnds_append_ins (litStr p.1 p.2) (termRaw (q :: tms))
      (litStr_ne_nil _ _) (termRaw_ne_nil _ _) ?_]
    · rw [withAnds_litStr, ih]
      rfl
    · intro a b hla hhb
      obtain ⟨x, hx, hor⟩ := litStr_getLast p.1 p.2
      rw [hla] at hx
      injection hx with hx
      rw [hW] at hhb
      injection hhb with hhb
      refine andCond_of_alpha ?_ ?_
      · rcases hor with h1 | h1
        · rw [hx, h1, ha p (List.mem_cons_self _ _)]
          rfl
        · rw [hx, h1]
          decide
      · rw [← hhb]
        exact ha q (List.mem_cons_of_mem _ (List.mem_cons_self _ _))

lemma dnfRaw_cons_head (tm : List (Char × Nat)) (rest : List (List (Char × Nat)))
    (h : tm ≠ []) :
    ∃ c W, dnfRaw (tm :: rest) = c :: W ∧ ∃ p ∈ tm, c = p.1 := by
  cases tm with
  | nil => exact absurd rfl h
  | cons p ps =>
    cases rest with
    | nil =>
      obtain ⟨W, hW⟩ := termRaw_cons_shape p ps
      exact ⟨p.1, W, hW, ⟨p, List.mem_cons_self _ _, rfl⟩⟩
    | cons y rest2 =>
      obtain ⟨W, hW⟩ := termRaw_head_shape p ps (plusChar :: dnfRaw (y :: rest2))
      exact ⟨p.1, W,
        by rw [show dnfRaw ((p :: ps) :: y :: rest2) =
          termRaw (p :: ps) ++ plusChar :: dnfRaw (y :: rest2) from rfl, hW],
        ⟨p, List.mem_cons_self _ _, rfl⟩⟩

lemma dnfRaw_ne_nil (tm : List (Char × Nat)) (rest : List (List (Char × Nat)))
    (h : tm ≠ []) : dnfRaw (tm :: rest) ≠ [] := by
  obtain ⟨c, W, hW, _⟩ := dnfRaw_cons_head tm rest h
  rw [hW]
  exact List.cons_ne_nil _ _

lemma dnfRaw_getLast : ∀ (L : List (List (Char × Nat))), L ≠ [] →
    (∀ tm ∈ L, tm ≠ []) →
    ∃ x, (dnfRaw L).getLast? = some x ∧
      ((∃ tm ∈ L, ∃ p ∈ tm, x = p.1) ∨ x = compChar)
  | [], h, _ => absurd rfl h
  | [tm], _, hne => by
    rw [show dnfRaw [tm] = termRaw tm from rfl]
    rcases termRaw_getLast tm (hne tm (List.mem_singleton_self _)) with
      ⟨x, hx, ⟨p, hp, hxp⟩⟩ | hlast
    · exact ⟨x, hx, Or.inl ⟨tm, List.mem_singleton_self _, p, hp, hxp⟩⟩
    · exact ⟨compChar, hlast, Or.inr rfl⟩
  | tm :: y :: rest, _, hne => by
    obtain ⟨x, hx, hor⟩ := dnfRaw_getLast (y :: rest) (List.cons_ne_nil _ _)
      (fun t ht => hne t (List.mem_cons_of_mem _ ht))
    refine ⟨x, ?_, ?_⟩
    · rw [show dnfRaw (tm :: y :: rest) =
        termRaw tm ++ plusChar :: dnfRaw (y :: rest) from rfl,
        List.getLast?_append]
      obtain ⟨z, zs, hz⟩ := List.exists_cons_of_ne_nil
        (dnfRaw_ne_nil y rest (hne y (List.mem_cons_of_mem _ (List.mem_cons_self _ _))))
      rw [hz] at hx
      rw [hz, List.getLast?_cons_cons, hx]
      rfl
    · rcases hor with ⟨t2, ht2, hp⟩ | h1
      · exact Or.inl ⟨t2, List.mem_cons_of_mem _ ht2, hp⟩
      · exact Or.inr h1

lemma withAnds_dnfRaw : ∀ (L : List (List (Char × Nat))),
    (∀ tm ∈ L, tm ≠ []) → (∀ tm ∈ L, ∀ p ∈ tm, p.1.isAlpha = true) →
    withAnds (dnfRaw L) = dnfNorm L
  | [], _, _ => rfl
  | [tm], hne, ha => by
    rw [show dnfRaw [tm] = termRaw tm from rfl,
      withAnds_termRaw tm (hne tm (List.mem_singleton_self _))
        (ha tm (List.mem_singleton_self _))]
    rfl
  | tm :: y :: rest, hne, ha => by
    have ih := withAnds_dnfRaw (y :: rest)
      (fun t ht => hne t (List.mem_cons_of_mem _ ht))
      (fun t ht => ha t (List.mem_cons_of_mem _ ht))
    have hynil : dnfRaw (y :: rest) ≠ [] :=
      dnfRaw_ne_nil y rest (hne y (List.mem_cons_of_mem _ (List.mem_cons_self _ _)))
    rw [show dnfRaw (tm :: y :: rest) =
      termRaw tm ++ plusChar :: dnfRaw (y :: rest) from rfl]
    rw [withAnds_append_break (termRaw tm) (plusChar :: dnfRaw (y :: rest))
      (List.cons_ne_nil _ _)
      (fun a b _ hb => by
        injection hb with hb
        rw [← hb]
        exact andCond_plus_right a)]
    rw [show plusChar :: dnfRaw (y :: rest) = [plusChar] ++ dnfRaw (y :: rest) from rfl]
    rw [withAnds_append_break [plusChar] (dnfRaw (y :: rest)) hynil
      (fun a b ha2 _ => by
        injection ha2 with ha2
        rw [← ha2]
        exact andCond_plus_left b)]
    rw [withAnds_termRaw tm (hne tm (List.mem_cons_self _ _))
      (ha tm (List.mem_cons_self _ _)), ih]
    rfl

lemma map_toUpper_bodyOf (L : List (List (Char × Nat)))
    (h2 : ∀ tm ∈ L, ∀ p ∈ tm, p.1.toUpper = p.1) :
    (bodyOf L).map Char.toUpper = bodyOf L := by
  have hmem : ∀ c ∈ bodyOf L, Char.toUpper c = c := by
    intro c hc
    rcases mem_bodyOf hc with hs | ⟨tm, htm, hct⟩
    · rw [show sepStr = [spaceChar, plusChar, spaceChar] from rfl] at hs
      fin_cases hs <;> decide
    · rcases mem_termRaw hct with rfl | ⟨p, hp, rfl⟩
      · decide
      · exact h2 tm htm p hp
  rw [List.map_congr_left (g := fun a => a) hmem]
  exact List.map_id' _

lemma filter_space_bodyOf : ∀ (L : List (List (Char × Nat))),
    (∀ tm ∈ L, ∀ p ∈ tm, p.1.isAlpha = true) →
    (bodyOf L).filter (fun c => c != spaceChar) = dnfRaw L
  | [], _ => rfl
  | [tm], h => by
    rw [bodyOf_single, show dnfRaw [tm] = termRaw tm from rfl]
    refine List.filter_eq_self.2 (fun c hc => ?_)
    rcases mem_termRaw hc with rfl | ⟨p, hp, rfl⟩
    · decide
    · show (!(p.1 == spaceChar)) = true
      rw [beq_false_of_isAlpha (h tm (List.mem_singleton_self _) p hp) (by decide)]
      rfl
  | tm :: y :: rest, h => by
    have ih := filter_space_bodyOf (y :: rest)
      (fun t ht => h t (List.mem_cons_of_mem _ ht))
    rw [bodyOf_cons₂, List.filter_append, List.filter_append, ih]
    rw [show sepStr.filter (fun c => c != spaceChar) = [plusChar] from by decide]
    have ht : (termRaw tm).filter (fun c => c != spaceChar) = termRaw tm := by
      refine List.filter_eq_self.2 (fun c hc => ?_)
      rcases mem_termRaw hc with rfl | ⟨p, hp, rfl⟩
      · decide
      · show (!(p.1 == spaceChar)) = true
        rw [beq_false_of_isAlpha (h tm (List.mem_cons_self _ _) p hp) (by decide)]
        rfl
    rw [ht]
    rw [show dnfRaw (tm :: y :: rest) =
      termRaw tm ++ plusChar :: dnfRaw (y :: rest) from rfl]
    simp

lemma mem_dnfRaw_class {L : List (List (Char × Nat))} {c : Char}
    (h2 : ∀ tm ∈ L, ∀ p ∈ tm, p.1.isAlpha = true)
    (hc : c ∈ dnfRaw L) : c.isAlpha = true ∨ c = compChar ∨ c = plusChar := by
  rcases mem_dnfRaw hc with rfl | ⟨tm, htm, hct⟩
  · exact Or.inr (Or.inr rfl)
  · rcases mem_termRaw hct with rfl | ⟨p, hp, rfl⟩
    · exact Or.inr (Or.inl rfl)
    · exact Or.inl (h2 tm htm p hp)

lemma dnfRaw_char_ne {L : List (List (Char × Nat))} {c d : Char}
    (h2 : ∀ tm ∈ L, ∀ p ∈ tm, p.1.isAlpha = true)
    (hc : c ∈ dnfRaw L) (hd : d.isAlpha = false) (hd2 : d ≠ compChar)
    (hd3 : d ≠ plusChar) : (c == d) = false := by
  rcases mem_dnfRaw_class h2 hc with h1 | h1 | h1
  · exact beq_false_of_isAlpha h1 hd
  · rw [h1]
    cases hbe : compChar == d
    · rfl
    · exact absurd (eq_of_beq hbe).symm hd2
  · rw [h1]
    cases hbe : plusChar == d
    · rfl
    · exact absurd (eq_of_beq hbe).symm hd3

lemma cleanup_bodyOf (L : List (List (Char × Nat))) (hL : L ≠ [])
    (hne : ∀ tm ∈ L, tm ≠ [])
    (ha : ∀ tm ∈ L, ∀ p ∈ tm, p.1.isAlpha = true)
    (hu : ∀ tm ∈ L, ∀ p ∈ tm, p.1.toUpper = p.1) :
    cleanup (bodyOf L) = dnfRaw L := by
  unfold cleanup
  dsimp only
  rw [map_toUpper_bodyOf L hu, filter_space_bodyOf L ha]
  have e3 : (dnfRaw L).filter (fun c => c != bslashChar) = dnfRaw L := by
    refine List.filter_eq_self.2 (fun c hc => ?_)
    show (!(c == bslashChar)) = true
    rw [dnfRaw_char_ne ha hc (by decide) (by decide) (by decide)]
    rfl
  rw [e3]
  have e4 : (dnfRaw L).map (fun c => if c == bangChar then compChar else c) =
      dnfRaw L := by
    have hmem : ∀ c ∈ dnfRaw L,
        (if c == bangChar then compChar else c) = c := fun c hc => by
      rw [dnfRaw_char_ne ha hc (by decide) (by decide) (by decide)]
      rfl
    rw [List.map_congr_left (g := fun a => a) hmem]
    exact List.map_id' _
  rw [e4]
  obtain ⟨tm0, rest0, rfl⟩ := List.exists_cons_of_ne_nil hL
  obtain ⟨c0, W0, hW0, ⟨p0, hp0, rfl⟩⟩ :=
    dnfRaw_cons_head tm0 rest0 (hne tm0 (List.mem_cons_self _ _))
  obtain ⟨xl, hxl, hxor⟩ := dnfRaw_getLast (tm0 :: rest0) (List.cons_ne_nil _ _) hne
  have hhead : ∀ x, (dnfRaw (tm0 :: rest0)).head? = some x →
      (x == starChar) = false ∧ (x == plusChar) = false := by
    intro x hx
    rw [hW0] at hx
    injection hx with hx
    have hal : x.isAlpha = true := hx ▸ ha tm0 (List.mem_cons_self _ _) p0 hp0
    exact ⟨beq_false_of_isAlpha hal (by decide), beq_false_of_isAlpha hal (by decide)⟩
  have hlast : ∀ x, (dnfRaw (tm0 :: rest0)).getLast? = some x →
      (x == starChar) = false ∧ (x == plusChar) = false := by
    intro x hx
    rw [hxl] at hx
    injection hx with hx
    rcases hxor with ⟨tm2, htm2, p2, hp2, hxp⟩ | h1
    · have hal : x.isAlpha = true := by
        rw [← hx, hxp]
        exact ha tm2 htm2 p2 hp2
      exact ⟨beq_false_of_isAlpha hal (by decide), beq_false_of_isAlpha hal (by decide)⟩
    · rw [← hx, h1]
      exact ⟨by decide, by decide⟩
  rw [stripChars_eq_self starChar _ (fun x hx => (hhead x hx).1)
    (fun x hx => (hlast x hx).1)]
  exact stripChars_eq_self plusChar _ (fun x hx => (hhead x hx).2)
    (fun x hx => (hlast x hx).2)

lemma bodyOf_cons_head (tm : List (Char × Nat)) (rest : List (List (Char × Nat)))
    (h : tm ≠ []) :
    ∃ c W, bodyOf (tm :: rest) = c :: W ∧ ∃ p ∈ tm, c = p.1 := by
  cases tm with
  | nil => exact absurd rfl h
  | cons p ps =>
    cases rest with
    | nil =>
      obtain ⟨W, hW⟩ := termRaw_cons_shape p ps
      exact ⟨p.1, W, by rw [bodyOf_single, hW], ⟨p, List.mem_cons_self _ _, rfl⟩⟩
    | cons y rest2 =>
      obtain ⟨W, hW⟩ := termRaw_head_shape p ps (sepStr ++ bodyOf (y :: rest2))
      refine ⟨p.1, W, ?_, ⟨p, List.mem_cons_self _ _, rfl⟩⟩
      rw [bodyOf_cons₂, List.append_assoc, hW]

lemma bodyOf_ne_nil (tm : List (Char × Nat)) (rest : List (List (Char × Nat)))
    (h : tm ≠ []) : bodyOf (tm :: rest) ≠ [] := by
  obtain ⟨c, W, hW, _⟩ := bodyOf_cons_head tm rest h
  rw [hW]
  exact List.cons_ne_nil _ _

lemma bodyOf_getLast : ∀ (L : List (List (Char × Nat))), L ≠ [] →
    (∀ tm ∈ L, tm ≠ []) →
    ∃ x, (bodyOf L).getLast? = some x ∧
      ((∃ tm ∈ L, ∃ p ∈ tm, x = p.1) ∨ x = compChar)
  | [], h, _ => absurd rfl h
  | [tm], _, hne => by
    rw [bodyOf_single]
    rcases termRaw_getLast tm (hne tm (List.mem_singleton_self _)) with
      ⟨x, hx, ⟨p, hp, hxp⟩⟩ | hlast
    · exact ⟨x, hx, Or.inl ⟨tm, List.mem_singleton_self _, p, hp, hxp⟩⟩
    · exact ⟨compChar, hlast, Or.inr rfl⟩
  | tm :: y :: rest, _, hne => by
    obtain ⟨x, hx, hor⟩ := bodyOf_getLast (y :: rest) (List.cons_ne_nil _ _)
      (fun t ht => hne t (List.mem_cons_of_mem _ ht))
    refine ⟨x, ?_, ?_⟩
    · rw [bodyOf_cons₂, List.getLast?_append]
      obtain ⟨z, zs, hz⟩ := List.exists_cons_of_ne_nil
        (bodyOf_ne_nil y rest (hne y (List.mem_cons_of_mem _ (List.mem_cons_self _ _))))
      rw [hz] at hx
      rw [hz, hx]
      rfl
    · rcases hor with ⟨t2, ht2, hp⟩ | h1
      · exact Or.inl ⟨t2, List.mem_cons_of_mem _ ht2, hp⟩
      · exact Or.inr h1

lemma pyStrip_bodyOf (L : List (List (Char × Nat))) (hL : L ≠ [])
    (hne : ∀ tm ∈ L, tm ≠ [])
    (ha : ∀ tm ∈ L, ∀ p ∈ tm, p.1.isAlpha = true) :
    pyStrip (bodyOf L) = bodyOf L := by
  obtain ⟨tm0, rest0, rfl⟩ := List.exists_cons_of_ne_nil hL
  obtain ⟨c0, W0, hW0, ⟨p0, hp0, rfl⟩⟩ :=
    bodyOf_cons_head tm0 rest0 (hne tm0 (List.mem_cons_self _ _))
  obtain ⟨xl, hxl, hxor⟩ := bodyOf_getLast (tm0 :: rest0) (List.cons_ne_nil _ _) hne
  unfold pyStrip
  rw [dropWhile_eq_self_head _ _ (fun x hx => by
    rw [hW0] at hx
    injection hx with hx
    exact alpha_not_ws (hx ▸ ha tm0 (List.mem_cons_self _ _) p0 hp0))]
  refine dropTrailingWhile_eq_self _ _ (fun x hx => ?_)
  rw [hxl] at hx
  injection hx with hx
  rcases hxor with ⟨tm2, htm2, p2, hp2, hxp⟩ | h1
  · exact alpha_not_ws (by rw [← hx, hxp]; exact ha tm2 htm2 p2 hp2)
  · rw [← hx, h1]
    decide

lemma normalize_bodyOf (L : List (List (Char × Nat))) (hL : L ≠ [])
    (hne : ∀ tm ∈ L, tm ≠ [])
    (ha : ∀ tm ∈ L, ∀ p ∈ tm, p.1.isAlpha = true)
    (hu : ∀ tm ∈ L, ∀ p ∈ tm, p.1.toUpper = p.1) :
    normalize_bool_fct_str (pyStrip (bodyOf L)) = dnfNorm L := by
  rw [pyStrip_bodyOf L hL hne ha, normalize_eq_withAnds,
    cleanup_bodyOf L hL hne ha hu]
  exact withAnds_dnfRaw L hne ha

lemma mem_litStr {a : Char} {b : Nat} {c : Char} (h : c ∈ litStr a b) :
    c = a ∨ c = compChar := by
  unfold litStr at h
  by_cases hb : b ≠ 0
  · rw [if_pos hb] at h
    exact Or.inl (List.mem_singleton.1 h)
  · rw [if_neg hb] at h
    rcases List.mem_cons.1 h with rfl | h2
    · exact Or.inl rfl
    · exact Or.inr (List.mem_singleton.1 h2)

lemma self_mem_litStr (a : Char) (b : Nat) : a ∈ litStr a b := by
  unfold litStr
  by_cases hb : b ≠ 0
  · rw [if_pos hb]; exact List.mem_singleton_self _
  · rw [if_neg hb]; exact List.mem_cons_self _ _

lemma mem_termNorm : ∀ {tm : List (Char × Nat)} {c : Char},
    c ∈ termNorm tm → c = starChar ∨ c = compChar ∨ ∃ p ∈ tm, c = p.1
  | [], c, h => by cases h
  | [p], c, h => by
    rw [show termNorm [p] = litStr p.1 p.2 from rfl] at h
    rcases mem_litStr h with h1 | h1
    · exact Or.inr (Or.inr ⟨p, List.mem_singleton_self _, h1⟩)
    · exact Or.inr (Or.inl h1)
  | p :: q :: tms, c, h => by
    rw [show termNorm (p :: q :: tms) =
      litStr p.1 p.2 ++ starChar :: termNorm (q :: tms) from rfl] at h
    rcases List.mem_append.1 h with h1 | h1
    · rcases mem_litStr h1 with h2 | h2
      · exact Or.inr (Or.inr ⟨p, List.mem_cons_self _ _, h2⟩)
      · exact Or.inr (Or.inl h2)
    · rcases List.mem_cons.1 h1 with rfl | h2
      · exact Or.inl rfl
      · rcases mem_termNorm h2 with h3 | h3 | ⟨r, hr, h4⟩
        · exact Or.inl h3
        · exact Or.inr (Or.inl h3)
        · exact Or.inr (Or.inr ⟨r, List.mem_cons_of_mem _ hr, h4⟩)

lemma mem_dnfNorm : ∀ {L : List (List (Char × Nat))} {c : Char},
    c ∈ dnfNorm L →
      c = plusChar ∨ c = starChar ∨ c = compChar ∨ ∃ tm ∈ L, ∃ p ∈ tm, c = p.1
  | [], c, h => by cases h
  | [tm], c, h => by
    rw [show dnfNorm [tm] = termNorm tm from rfl] at h
    rcases mem_termNorm h with h1 | h1 | ⟨p, hp, h2⟩
    · exact Or.inr (Or.inl h1)
    · exact Or.inr (Or.inr (Or.inl h1))
    · exact Or.inr (Or.inr (Or.inr ⟨tm, List.mem_singleton_self _, p, hp, h2⟩))
  | tm :: y :: rest, c, h => by
    rw [show dnfNorm (tm :: y :: rest) =
      termNorm tm ++ plusChar :: dnfNorm (y :: rest) from rfl] at h
    rcases List.mem_append.1 h with h1 | h1
    · rcases mem_termNorm h1 with h2 | h2 | ⟨p, hp, h3⟩
      · exact Or.inr (Or.inl h2)
      · exact Or.inr (Or.inr (Or.inl h2))
      · exact Or.inr (Or.inr (Or.inr ⟨tm, List.mem_cons_self _ _, p, hp, h3⟩))
    · rcases List.mem_cons.1 h1 with rfl | h2
      · exact Or.inl rfl
      · rcases mem_dnfNorm h2 with h3 | h3 | h3 | ⟨t2, ht2, p, hp, h4⟩
        · exact Or.inl h3
        · exact Or.inr (Or.inl h3)
        · exact Or.inr (Or.inr (Or.inl h3))
        · exact Or.inr (Or.inr (Or.inr ⟨t2, List.mem_cons_of_mem _ ht2, p, hp, h4⟩))

lemma mem_fst_termNorm : ∀ {tm : List (Char × Nat)} {p : Char × Nat},
    p ∈ tm → p.1 ∈ termNorm tm
  | [], _, h => by cases h
  | [q], p, h => by
    rw [List.mem_singleton.1 h, show termNorm [q] = litStr q.1 q.2 from rfl]
    exact self_mem_litStr _ _
  | q :: q2 :: tms, p, h => by
    rw [show termNorm (q :: q2 :: tms) =
      litStr q.1 q.2 ++ starChar :: termNorm (q2 :: tms) from rfl]
    rcases List.mem_cons.1 h with rfl | h2
    · exact List.mem_append.2 (Or.inl (self_mem_litStr _ _))
    · exact List.mem_append.2
        (Or.inr (List.mem_cons_of_mem _ (mem_fst_termNorm h2)))

lemma mem_termNorm_dnfNorm : ∀ {L : List (List (Char × Nat))}
    {tm : List (Char × Nat)} {c : Char}, tm ∈ L → c ∈ termNorm tm → c ∈ dnfNorm L
  | [], _, _, h, _ => by cases h
  | [t0], tm, c, h, hc => by
    rw [List.mem_singleton.1 h] at hc
    rw [show dnfNorm [t0] = termNorm t0 from rfl]
    exact hc
  | t0 :: y :: rest, tm, c, h, hc => by
    rw [show dnfNorm (t0 :: y :: rest) =
      termNorm t0 ++ plusChar :: dnfNorm (y :: rest) from rfl]
    rcases List.mem_cons.1 h with rfl | h2
    · exact List.mem_append.2 (Or.inl hc)
    · exact List.mem_append.2
        (Or.inr (List.mem_cons_of_mem _ (mem_termNorm_dnfNorm h2 hc)))

lemma termNorm_cons_shape (p : Char × Nat) (tms : List (Char × Nat)) :
    ∃ W, termNorm (p :: tms) = p.1 :: W := by
  cases tms with
  | nil =>
    rw [show termNorm [p] = litStr p.1 p.2 from rfl]
    obtain ⟨W, hW⟩ := litStr_cons_shape p.1 p.2 []
    rw [List.append_nil] at hW
    exact ⟨W, hW⟩
  | cons q tms2 =>
    rw [show termNorm (p :: q :: tms2) =
      litStr p.1 p.2 ++ starChar :: termNorm (q :: tms2) from rfl]
    exact litStr_cons_shape p.1 p.2 _

lemma termNorm_ne_nil (p : Char × Nat) (tms : List (Char × Nat)) :
    termNorm (p :: tms) ≠ [] := by
  obtain ⟨W, hW⟩ := termNorm_cons_shape p tms
  rw [hW]
  exact List.cons_ne_nil _ _

lemma dnfNorm_cons_head (tm : List (Char × Nat)) (rest : List (List (Char × Nat)))
    (h : tm ≠ []) :
    ∃ c W, dnfNorm (tm :: rest) = c :: W ∧ ∃ p ∈ tm, c = p.1 := by
  cases tm with
  | nil => exact absurd rfl h
  | cons p ps =>
    obtain ⟨W, hW⟩ := termNorm_cons_shape p ps
    cases rest with
    | nil =>
      exact ⟨p.1, W, by rw [show dnfNorm [p :: ps] = termNorm (p :: ps) from rfl, hW],
        ⟨p, List.mem_cons_self _ _, rfl⟩⟩
    | cons y rest2 =>
      refine ⟨p.1, W ++ plusChar :: dnfNorm (y :: rest2), ?_,
        ⟨p, List.mem_cons_self _ _, rfl⟩⟩
      rw [show dnfNorm ((p :: ps) :: y :: rest2) =
        termNorm (p :: ps) ++ plusChar :: dnfNorm (y :: rest2) from rfl, hW]
      rfl

lemma dnfNorm_ne_nil (tm : List (Char × Nat)) (rest : List (List (Char × Nat)))
    (h : tm ≠ []) : dnfNorm (tm :: rest) ≠ [] := by
  obtain ⟨c, W, hW, _⟩ := dnfNorm_cons_head tm rest h
  rw [hW]
  exact List.cons_ne_nil _ _

lemma termNorm_getLast : ∀ (tm : List (Char × Nat)), tm ≠ [] →
    (∃ x, (termNorm tm).getLast? = some x ∧ ∃ p ∈ tm, x = p.1) ∨
      ((termNorm tm).getLast? = some compChar)
  | [], h => absurd rfl h
  | [p], _ => by
    rw [show termNorm [p] = litStr p.1 p.2 from rfl]
    obtain ⟨x, hx, hor⟩ := litStr_getLast p.1 p.2
    rcases hor with rfl | rfl
    · exact Or.inl ⟨p.1, hx, ⟨p, List.mem_singleton_self _, rfl⟩⟩
    · exact Or.inr hx
  | p :: q :: tms, _ => by
    obtain ⟨W, hW⟩ := termNorm_cons_shape q tms
    have hne : termNorm (q :: tms) ≠ [] := termNorm_ne_nil q tms
    rcases termNorm_getLast (q :: tms) (List.cons_ne_nil _ _) with
      ⟨x, hx, ⟨r, hr, hxr⟩⟩ | hlast
    · refine Or.inl ⟨x, ?_, ⟨r, List.mem_cons_of_mem _ hr, hxr⟩⟩
      rw [show termNorm (p :: q :: tms) =
        litStr p.1 p.2 ++ starChar :: termNorm (q :: tms) from rfl,
        List.getLast?_append, hW] at *
      rw [hW] at hx
      rw [List.getLast?_cons_cons, hx]
      rfl
    · refine Or.inr ?_
      rw [show termNorm (p :: q :: tms) =
        litStr p.1 p.2 ++ starChar :: termNorm (q :: tms) from rfl,
        List.getLast?_append]
      rw [hW] at hlast
      rw [hW, List.getLast?_cons_cons, hlast]
      rfl

lemma dnfNorm_getLast : ∀ (L : List (List (Char × Nat))), L ≠ [] →
    (∀ tm ∈ L, tm ≠ []) →
    ∃ x, (dnfNorm L).getLast? = some x ∧
      ((∃ tm ∈ L, ∃ p ∈ tm, x = p.1) ∨ x = compChar)
  | [], h, _ => absurd rfl h
  | [tm], _, hne => by
    rw [show dnfNorm [tm] = termNorm tm from rfl]
    rcases termNorm_getLast tm (hne tm (List.mem_singleton_self _)) with
      ⟨x, hx, ⟨p, hp, hxp⟩⟩ | hlast
    · exact ⟨x, hx, Or.inl ⟨tm, List.mem_singleton_self _, p, hp, hxp⟩⟩
    · exact ⟨compChar, hlast, Or.inr rfl⟩
  | tm :: y :: rest, _, hne => by
    obtain ⟨x, hx, hor⟩ := dnfNorm_getLast (y :: rest) (List.cons_ne_nil _ _)
      (fun t ht => hne t (List.mem_cons_of_mem _ ht))
    refine ⟨x, ?_, ?_⟩
    · rw [show dnfNorm (tm :: y :: rest) =
        termNorm tm ++ plusChar :: dnfNorm (y :: rest) from rfl,
        List.getLast?_append]
      obtain ⟨z, zs, hz⟩ := List.exists_cons_of_ne_nil
        (dnfNorm_ne_nil y rest (hne y (List.mem_cons_of_mem _ (List.mem_cons_self _ _))))
      rw [hz] at hx
      rw [hz, List.getLast?_cons_cons, hx]
      rfl
    · rcases hor with ⟨t2, ht2, hp⟩ | h1
      · exact Or.inl ⟨t2, List.mem_cons_of_mem _ ht2, hp⟩
      · exact Or.inr h1

lemma andCond_star_right (a : Char) : andCond a starChar = false := by
  unfold andCond
  rw [show (starChar.isAlpha || starChar == lparChar) = false from by decide,
    show starChar.isAlpha = false from by decide]
  simp

lemma andCond_star_left (b : Char) : andCond starChar b = false := by
  unfold andCond
  rw [show (starChar.isAlpha || starChar == compChar) = false from by decide,
    show (starChar == rparChar) = false from by decide]
  simp

lemma chain'_litStr (c : Char) (b : Nat) :
    List.Chain' (fun a b => andCond a b = false) (litStr c b) := by
  unfold litStr
  by_cases hb : b ≠ 0
  · rw [if_pos hb]
    exact List.chain'_singleton _
  · rw [if_neg hb]
    exact List.chain'_cons.2 ⟨andCond_comp_right c, List.chain'_singleton _⟩

lemma chain'_termNorm : ∀ (tm : List (Char × Nat)),
    List.Chain' (fun a b => andCond a b = false) (termNorm tm)
  | [] => List.chain'_nil
  | [p] => by
    rw [show termNorm [p] = litStr p.1 p.2 from rfl]
    exact chain'_litStr _ _
  | p :: q :: tms => by
    rw [show termNorm (p :: q :: tms) =
      litStr p.1 p.2 ++ starChar :: termNorm (q :: tms) from rfl]
    refine List.chain'_append.2 ⟨chain'_litStr _ _, ?_, ?_⟩
    · refine List.chain'_cons'.2 ⟨?_, chain'_termNorm (q :: tms)⟩
      intro y _
      exact andCond_star_left y
    · intro x _ y hy
      injection hy with hy
      rw [← hy]
      exact andCond_star_right x

lemma chain'_dnfNorm : ∀ (L : List (List (Char × Nat))),
    List.Chain' (fun a b => andCond a b = false) (dnfNorm L)
  | [] => List.chain'_nil
  | [tm] => by
    rw [show dnfNorm [tm] = termNorm tm from rfl]
    exact chain'_termNorm tm
  | tm :: y :: rest => by
    rw [show dnfNorm (tm :: y :: rest) =
      termNorm tm ++ plusChar :: dnfNorm (y :: rest) from rfl]
    refine List.chain'_append.2 ⟨chain'_termNorm tm, ?_, ?_⟩
    · refine List.chain'_cons'.2 ⟨?_, chain'_dnfNorm (y :: rest)⟩
      intro z _
      exact andCond_plus_left z
    · intro x _ z hz
      injection hz with hz
      rw [← hz]
      exact andCond_plus_right x

lemma normalize_eq_self_class (l : List Char)
    (hcl : ∀ c ∈ l, (c.isAlpha = true ∧ c.toUpper = c) ∨
      c = compChar ∨ c = starChar ∨ c = plusChar)
    (hh : ∀ x, l.head? = some x → x.isAlpha = true)
    (hl : ∀ x, l.getLast? = some x → x.isAlpha = true ∨ x = compChar)
    (hch : List.Chain' (fun a b => andCond a b = false) l) :
    normalize_bool_fct_str (pyStrip l) = l := by
  have hws : ∀ c ∈ l, isPyWs c = false := by
    intro c hc
    rcases hcl c hc with ⟨h1, _⟩ | rfl | rfl | rfl
    · exact alpha_not_ws h1
    · decide
    · decide
    · decide
  have hne : ∀ (d : Char), d.isAlpha = false → d ≠ compChar → d ≠ starChar →
      d ≠ plusChar → ∀ c ∈ l, (c == d) = false := by
    intro d hd hd1 hd2 hd3 c hc
    rcases hcl c hc with ⟨h1, _⟩ | rfl | rfl | rfl
    · exact beq_false_of_isAlpha h1 hd
    · cases hbe : compChar == d
      · rfl
      · exact absurd (eq_of_beq hbe).symm hd1
    · cases hbe : starChar == d
      · rfl
      · exact absurd (eq_of_beq hbe).symm hd2
    · cases hbe : plusChar == d
      · rfl
      · exact absurd (eq_of_beq hbe).symm hd3
  rw [pyStrip_eq_self l hws, normalize_eq_withAnds]
  rw [cleanup_eq_self l
    (fun c hc => by
      rcases hcl c hc with ⟨_, h2⟩ | rfl | rfl | rfl
      · exact h2
      · decide
      · decide
      · decide)
    (hne spaceChar (by decide) (by decide) (by decide) (by decide))
    (hne bslashChar (by decide) (by decide) (by decide) (by decide))
    (hne bangChar (by decide) (by decide) (by decide) (by decide))
    (fun x hx => by
      have := hh x hx
      exact ⟨beq_false_of_isAlpha this (by decide),
        beq_false_of_isAlpha this (by decide)⟩)
    (fun x hx => by
      rcases hl x hx with h1 | rfl
      · exact ⟨beq_false_of_isAlpha h1 (by decide),
          beq_false_of_isAlpha h1 (by decide)⟩
      · exact ⟨by decide, by decide⟩)]
  exact withAnds_eq_self l hch

lemma normalize_litStr (c : Char) (b : Nat) (ha : c.isAlpha = true)
    (hu : c.toUpper = c) :
    normalize_bool_fct_str (pyStrip (litStr c b)) = litStr c b := by
  refine normalize_eq_self_class _ ?_ ?_ ?_ (chain'_litStr c b)
  · intro d hd
    rcases mem_litStr hd with rfl | rfl
    · exact Or.inl ⟨ha, hu⟩
    · exact Or.inr (Or.inl rfl)
  · intro x hx
    obtain ⟨W, hW⟩ := litStr_cons_shape c b []
    rw [List.append_nil] at hW
    rw [hW] at hx
    injection hx with hx
    rw [← hx]
    exact ha
  · intro x hx
    obtain ⟨z, hz, hor⟩ := litStr_getLast c b
    rw [hz] at hx
    injection hx with hx
    rcases hor with rfl | rfl
    · exact Or.inl (hx ▸ ha)
    · exact Or.inr hx.symm

lemma termNorm_class {tm : List (Char × Nat)}
    (ha : ∀ p ∈ tm, p.1.isAlpha = true) (hu : ∀ p ∈ tm, p.1.toUpper = p.1) :
    ∀ c ∈ termNorm tm, (c.isAlpha = true ∧ c.toUpper = c) ∨
      c = compChar ∨ c = starChar ∨ c = plusChar := by
  intro c hc
  rcases mem_termNorm hc with rfl | rfl | ⟨p, hp, rfl⟩
  · exact Or.inr (Or.inr (Or.inl rfl))
  · exact Or.inr (Or.inl rfl)
  · exact Or.inl ⟨ha p hp, hu p hp⟩

lemma normalize_termNorm (tm : List (Char × Nat)) (hne : tm ≠ [])
    (ha : ∀ p ∈ tm, p.1.isAlpha = true) (hu : ∀ p ∈ tm, p.1.toUpper = p.1) :
    normalize_bool_fct_str (pyStrip (termNorm tm)) = termNorm tm := by
  obtain ⟨p0, ps0, rfl⟩ := List.exists_cons_of_ne_nil hne
  refine normalize_eq_self_class _ (termNorm_class ha hu) ?_ ?_
    (chain'_termNorm _)
  · intro x hx
    obtain ⟨W, hW⟩ := termNorm_cons_shape p0 ps0
    rw [hW] at hx
    injection hx with hx
    rw [← hx]
    exact ha p0 (List.mem_cons_self _ _)
  · intro x hx
    rcases termNorm_getLast (p0 :: ps0) (List.cons_ne_nil _ _) with
      ⟨z, hz, ⟨p, hp, hzp⟩⟩ | hlast
    · rw [hz] at hx
      injection hx with hx
      exact Or.inl (by rw [← hx, hzp]; exact ha p hp)
    · rw [hlast] at hx
      injection hx with hx
      exact Or.inr hx.symm

lemma dnfNorm_class {L : List (List (Char × Nat))}
    (ha : ∀ tm ∈ L, ∀ p ∈ tm, p.1.isAlpha = true)
    (hu : ∀ tm ∈ L, ∀ p ∈ tm, p.1.toUpper = p.1) :
    ∀ c ∈ dnfNorm L, (c.isAlpha = true ∧ c.toUpper = c) ∨
      c = compChar ∨ c = starChar ∨ c = plusChar := by
  intro c hc
  rcases mem_dnfNorm hc with rfl | rfl | rfl | ⟨tm, htm, p, hp, rfl⟩
  · exact Or.inr (Or.inr (Or.inr rfl))
  · exact Or.inr (Or.inr (Or.inl rfl))
  · exact Or.inr (Or.inl rfl)
  · exact Or.inl ⟨ha tm htm p hp, hu tm htm p hp⟩

lemma normalize_dnfNorm (L : List (List (Char × Nat))) (hL : L ≠ [])
    (hne : ∀ tm ∈ L, tm ≠ [])
    (ha : ∀ tm ∈ L, ∀ p ∈ tm, p.1.isAlpha = true)
    (hu : ∀ tm ∈ L, ∀ p ∈ tm, p.1.toUpper = p.1) :
    normalize_bool_fct_str (pyStrip (dnfNorm L)) = dnfNorm L := by
  obtain ⟨tm0, rest0, rfl⟩ := List.exists_cons_of_ne_nil hL
  refine normalize_eq_self_class _ (dnfNorm_class ha hu) ?_ ?_ (chain'_dnfNorm _)
  · intro x hx
    obtain ⟨c0, W0, hW0, ⟨p0, hp0, rfl⟩⟩ :=
      dnfNorm_cons_head tm0 rest0 (hne tm0 (List.mem_cons_self _ _))
    rw [hW0] at hx
    injection hx with hx
    rw [← hx]
    exact ha tm0 (List.mem_cons_self _ _) p0 hp0
  · intro x hx
    obtain ⟨z, hz, hor⟩ := dnfNorm_getLast (tm0 :: rest0) (List.cons_ne_nil _ _) hne
    rw [hz] at hx
    injection hx with hx
    rcases hor with ⟨tm2, htm2, p2, hp2, hzp⟩ | rfl
    · exact Or.inl (by rw [← hx, hzp]; exact ha tm2 htm2 p2 hp2)
    · exact Or.inr hx.symm

lemma normalize_var (c : Char) (ha : c.isAlpha = true) (hu : c.toUpper = c) :
    normalize_bool_fct_str (pyStrip [c]) = [c] := by
  refine normalize_eq_self_class _ ?_ ?_ ?_ (List.chain'_singleton _)
  · intro d hd
    rw [List.mem_singleton.1 hd]
    exact Or.inl ⟨ha, hu⟩
  · intro x hx
    injection hx with hx
    rw [← hx]
    exact ha
  · intro x hx
    injection hx with hx
    exact Or.inl (by rw [← hx]; exact ha)

lemma litStr_length_le (c : Char) (b : Nat) :
    1 ≤ (litStr c b).length ∧ (litStr c b).length ≤ 2 := by
  unfold litStr
  by_cases hb : b ≠ 0
  · rw [if_pos hb]; exact ⟨by simp, by simp⟩
  · rw [if_neg hb]; exact ⟨by simp, by simp⟩

lemma termNorm_length_ge : ∀ (tm : List (Char × Nat)),
    tm.length ≤ (termNorm tm).length
  | [] => Nat.le_refl _
  | [p] => by
    rw [show termNorm [p] = litStr p.1 p.2 from rfl]
    exact (litStr_length_le p.1 p.2).1
  | p :: q :: tms => by
    have ih := termNorm_length_ge (q :: tms)
    have h1 := (litStr_length_le p.1 p.2).1
    rw [show termNorm (p :: q :: tms) =
      litStr p.1 p.2 ++ starChar :: termNorm (q :: tms) from rfl]
    simp only [List.length_append, List.length_cons] at ih ⊢
    omega

lemma bne_eq_false {n : Nat} (h : n = 0) : (n != 0) = false := by simp [h]

lemma bne_eq_true {n : Nat} (h : n ≠ 0) : (n != 0) = true := by simp [h]

lemma count_ne_zero_of_mem {l : List Char} {d : Char} (hm : d ∈ l) :
    l.count d ≠ 0 := fun h0 => (List.count_eq_zero.1 h0) hm

lemma leading_false {c : Char} (hc : c.isAlpha = true) :
    (c == compChar || c == starChar || c == plusChar || c == bangChar) = false := by
  rw [beq_false_of_isAlpha hc (by decide), beq_false_of_isAlpha hc (by decide),
    beq_false_of_isAlpha hc (by decide), beq_false_of_isAlpha hc (by decide)]
  rfl

lemma termNorm_count_lpar {tm : List (Char × Nat)}
    (ha : ∀ p ∈ tm, p.1.isAlpha = true) : (termNorm tm).count lparChar = 0 := by
  refine List.count_eq_zero.2 (fun hm => ?_)
  rcases mem_termNorm hm with h | h | ⟨p, hp, h⟩
  · exact absurd h (by decide)
  · exact absurd h (by decide)
  · have h2 := ha p hp
    rw [← h] at h2
    exact absurd h2 (by decide)

lemma termNorm_count_plus {tm : List (Char × Nat)}
    (ha : ∀ p ∈ tm, p.1.isAlpha = true) : (termNorm tm).count plusChar = 0 := by
  refine List.count_eq_zero.2 (fun hm => ?_)
  rcases mem_termNorm hm with h | h | ⟨p, hp, h⟩
  · exact absurd h (by decide)
  · exact absurd h (by decide)
  · have h2 := ha p hp
    rw [← h] at h2
    exact absurd h2 (by decide)

lemma dnfNorm_count_lpar {L : List (List (Char × Nat))}
    (ha : ∀ tm ∈ L, ∀ p ∈ tm, p.1.isAlpha = true) :
    (dnfNorm L).count lparChar = 0 := by
  refine List.count_eq_zero.2 (fun hm => ?_)
  rcases mem_dnfNorm hm with h | h | h | ⟨tm, htm, p, hp, h⟩
  · exact absurd h (by decide)
  · exact absurd h (by decide)
  · exact absurd h (by decide)
  · have h2 := ha tm htm p hp
    rw [← h] at h2
    exact absurd h2 (by decide)

lemma star_mem_termNorm (p q : Char × Nat) (tms : List (Char × Nat)) :
    starChar ∈ termNorm (p :: q :: tms) := by
  rw [show termNorm (p :: q :: tms) =
    litStr p.1 p.2 ++ starChar :: termNorm (q :: tms) from rfl]
  exact List.mem_append.2 (Or.inr (List.mem_cons_self _ _))

lemma plus_mem_dnfNorm (tm y : List (Char × Nat)) (rest : List (List (Char × Nat))) :
    plusChar ∈ dnfNorm (tm :: y :: rest) := by
  rw [show dnfNorm (tm :: y :: rest) =
    termNorm tm ++ plusChar :: dnfNorm (y :: rest) from rfl]
  exact List.mem_append.2 (Or.inr (List.mem_cons_self _ _))

lemma star_not_mem_litStr {c : Char} (b : Nat) (hc : c.isAlpha = true) :
    starChar ∉ litStr c b := by
  intro hm
  rcases mem_litStr hm with h | h
  · rw [← h] at hc
    exact absurd hc (by decide)
  · exact absurd h (by decide)

lemma plus_not_mem_termNorm {tm : List (Char × Nat)}
    (ha : ∀ p ∈ tm, p.1.isAlpha = true) : plusChar ∉ termNorm tm :=
  fun hm => count_ne_zero_of_mem hm (termNorm_count_plus ha)

lemma splitFirst_append (ch : Char) : ∀ (x y : List Char), ch ∉ x →
    splitFirst ch (x ++ ch :: y) = (x, y)
  | [], y, _ => by
    rw [List.nil_append]
    show splitFirst ch (ch :: y) = ([], y)
    rw [show splitFirst ch (ch :: y) =
      if ch == ch then ([], y)
      else (ch :: (splitFirst ch y).1, (splitFirst ch y).2) from rfl,
      if_pos (beq_self_eq_true ch)]
  | c :: x2, y, hch => by
    have hcc : (c == ch) = false := by
      cases hbe : c == ch
      · rfl
      · exact absurd (eq_of_beq hbe ▸ List.mem_cons_self c x2) hch
    rw [List.cons_append]
    rw [show splitFirst ch (c :: (x2 ++ ch :: y)) =
      if c == ch then ([], x2 ++ ch :: y)
      else (c :: (splitFirst ch (x2 ++ ch :: y)).1,
        (splitFirst ch (x2 ++ ch :: y)).2) from rfl,
      hcc, if_neg Bool.false_ne_true,
      splitFirst_append ch x2 y (fun hm => hch (List.mem_cons_of_mem _ hm))]

lemma count_singleton_eq_zero {c d : Char} (h : (c == d) = false) :
    ([c] : List Char).count d = 0 := by
  simp [List.count_cons, h]

lemma count_pair {x y d : Char} (hx : (x == d) = false) (hy : (y == d) = false) :
    ([x, y] : List Char).count d = 0 := by
  simp [List.count_cons, hx, hy]

lemma parse_var_raw (fuel : Nat) (raw : List Char) (c : Char)
    (hc : c.isAlpha = true)
    (he : normalize_bool_fct_str (pyStrip raw) = [c]) (hf : 1 ≤ fuel) :
    parseGate fuel raw = .ok (.node [c] .INPUT .null .null) := by
  obtain ⟨m, rfl⟩ : ∃ m, fuel = m + 1 := ⟨fuel - 1, by omega⟩
  show parseGateCore (parseGate m) raw = _
  unfold parseGateCore
  rw [he]
  dsimp only
  rw [leading_false hc, if_neg Bool.false_ne_true]
  rw [bne_eq_false (count_singleton_eq_zero (beq_false_of_isAlpha hc (by decide))),
    if_neg Bool.false_ne_true]
  rw [bne_eq_false (count_singleton_eq_zero (beq_false_of_isAlpha hc (by decide))),
    if_neg Bool.false_ne_true]
  rw [bne_eq_false (count_singleton_eq_zero (beq_false_of_isAlpha hc (by decide))),
    if_neg Bool.false_ne_true]
  rw [count_singleton_eq_zero (beq_false_of_isAlpha hc (by decide)),
    count_singleton_eq_zero (beq_false_of_isAlpha hc (by decide))]
  rw [bne_eq_false rfl, if_neg Bool.false_ne_true]
  rfl

lemma parse_litStr_raw (fuel : Nat) (raw : List Char) (c : Char) (b : Nat)
    (ha : c.isAlpha = true) (hu : c.toUpper = c)
    (he : normalize_bool_fct_str (pyStrip raw) = litStr c b) (hf : 2 ≤ fuel) :
    parseGate fuel raw = .ok (litG c b) := by
  by_cases hb : b ≠ 0
  · rw [show litG c b = .node [c] .INPUT .null .null from by
      unfold litG; rw [if_pos hb]]
    refine parse_var_raw fuel raw c ha ?_ (by omega)
    rw [he]
    unfold litStr
    rw [if_pos hb]
  · obtain ⟨m, rfl⟩ : ∃ m, fuel = m + 2 := ⟨fuel - 2, by omega⟩
    have he2 : normalize_bool_fct_str (pyStrip raw) = [c, compChar] := by
      rw [he]
      unfold litStr
      rw [if_neg hb]
    show parseGateCore (parseGate (m + 1)) raw = _
    unfold parseGateCore
    rw [he2]
    dsimp only
    have hnc : ¬(c = compChar) := fun h => by
      rw [h] at ha
      exact absurd ha (by decide)
    rw [leading_false ha, if_neg Bool.false_ne_true]
    rw [bne_eq_false (count_pair (beq_false_of_isAlpha ha (by decide))
      (show (compChar == lparChar) = false from by decide)),
      if_neg Bool.false_ne_true]
    rw [bne_eq_false (count_pair (beq_false_of_isAlpha ha (by decide))
      (show (compChar == plusChar) = false from by decide)),
      if_neg Bool.false_ne_true]
    rw [bne_eq_false (count_pair (beq_false_of_isAlpha ha (by decide))
      (show (compChar == starChar) = false from by decide)),
      if_neg Bool.false_ne_true]
    rw [show ([c, compChar] : List Char).count compChar = 1 from by
      simp [List.count_cons, hnc]]
    rw [count_pair (beq_false_of_isAlpha ha (by decide))
      (show (compChar == bangChar) = false from by decide)]
    rw [bne_eq_true (by decide), if_pos rfl]
    simp only [bind, Except.bind]
    rw [parse_var_raw (m + 1) [c] c ha (normalize_var c ha hu) (by omega)]
    rw [show litG c b = .node [c, compChar] .NOT
      (.node [c] .INPUT .null .null) .null from by
      unfold litG
      rw [if_neg hb]]
    rfl

lemma parse_termNorm_raw : ∀ (tm : List (Char × Nat)) (fuel : Nat)
    (raw : List Char), tm ≠ [] →
    (∀ p ∈ tm, p.1.isAlpha = true) → (∀ p ∈ tm, p.1.toUpper = p.1) →
    normalize_bool_fct_str (pyStrip raw) = termNorm tm →
    tm.length + 2 ≤ fuel →
    parseGate fuel raw = .ok (andChainG tm)
  | [], _, _, h, _, _, _, _ => absurd rfl h
  | [p], fuel, raw, _, ha, hu, he, hf => by
    rw [show andChainG [p] = litG p.1 p.2 from rfl]
    refine parse_litStr_raw fuel raw p.1 p.2 (ha p (List.mem_singleton_self _))
      (hu p (List.mem_singleton_self _)) ?_ (by omega)
    rw [he]
    rfl
  | p :: q :: tms, fuel, raw, _, ha, hu, he, hf => by
    obtain ⟨m, rfl⟩ : ∃ m, fuel = m + 1 :=
      ⟨fuel - 1, by simp only [List.length_cons] at hf; omega⟩
    have hlen : (p :: q :: tms).length + 2 ≤ m + 1 := hf
    simp only [List.length_cons] at hlen
    obtain ⟨W, hW⟩ := termNorm_cons_shape p (q :: tms)
    have hsplit : splitFirst starChar (termNorm (p :: q :: tms)) =
        (litStr p.1 p.2, termNorm (q :: tms)) := by
      rw [show termNorm (p :: q :: tms) =
        litStr p.1 p.2 ++ starChar :: termNorm (q :: tms) from rfl]
      exact splitFirst_append starChar _ _
        (star_not_mem_litStr p.2 (ha p (List.mem_cons_self _ _)))
    show parseGateCore (parseGate m) raw = _
    unfold parseGateCore
    rw [he, hW]
    dsimp only
    rw [leading_false (ha p (List.mem_cons_self _ _)), if_neg Bool.false_ne_true]
    rw [← hW]
    rw [bne_eq_false (termNorm_count_lpar ha), if_neg Bool.false_ne_true]
    rw [bne_eq_false (termNorm_count_plus ha), if_neg Bool.false_ne_true]
    rw [bne_eq_true (count_ne_zero_of_mem (star_mem_termNorm p q tms)), if_pos rfl]
    rw [hsplit]
    simp only [bind, Except.bind]
    rw [parse_litStr_raw m (litStr p.1 p.2) p.1 p.2 (ha p (List.mem_cons_self _ _))
      (hu p (List.mem_cons_self _ _))
      (normalize_litStr p.1 p.2 (ha p (List.mem_cons_self _ _))
        (hu p (List.mem_cons_self _ _))) (by omega)]
    rw [parse_termNorm_raw (q :: tms) m (termNorm (q :: tms))
      (List.cons_ne_nil _ _)
      (fun r hr => ha r (List.mem_cons_of_mem _ hr))
      (fun r hr => hu r (List.mem_cons_of_mem _ hr))
      (normalize_termNorm (q :: tms) (List.cons_ne_nil _ _)
        (fun r hr => ha r (List.mem_cons_of_mem _ hr))
        (fun r hr => hu r (List.mem_cons_of_mem _ hr)))
      (by simp only [List.length_cons]; omega)]
    rfl

lemma parse_dnfNorm_raw : ∀ (L : List (List (Char × Nat))) (fuel : Nat)
    (raw : List Char), L ≠ [] → (∀ tm ∈ L, tm ≠ []) →
    (∀ tm ∈ L, ∀ p ∈ tm, p.1.isAlpha = true) →
    (∀ tm ∈ L, ∀ p ∈ tm, p.1.toUpper = p.1) →
    normalize_bool_fct_str (pyStrip raw) = dnfNorm L →
    (dnfNorm L).length + 2 ≤ fuel →
    parseGate fuel raw = .ok (orChainG L)
  | [], _, _, h, _, _, _, _, _ => absurd rfl h
  | [tm], fuel, raw, _, hne, ha, hu, he, hf => by
    rw [show orChainG [tm] = andChainG tm from rfl]
    have h1 := termNorm_length_ge tm
    refine parse_termNorm_raw tm fuel raw (hne tm (List.mem_singleton_self _))
      (ha tm (List.mem_singleton_self _)) (hu tm (List.mem_singleton_self _))
      (by rw [he]; rfl) ?_
    rw [show dnfNorm [tm] = termNorm tm from rfl] at hf
    omega
  | tm :: y :: rest, fuel, raw, _, hne, ha, hu, he, hf => by
    have hdlen : (dnfNorm (tm :: y :: rest)).length =
        (termNorm tm).length + 1 + (dnfNorm (y :: rest)).length := by
      rw [show dnfNorm (tm :: y :: rest) =
        termNorm tm ++ plusChar :: dnfNorm (y :: rest) from rfl]
      simp only [List.length_append, List.length_cons]
      omega
    have htlen := termNorm_length_ge tm
    have hrlen : 1 ≤ (dnfNorm (y :: rest)).length :=
      List.length_pos.2 (dnfNorm_ne_nil y rest
        (hne y (List.mem_cons_of_mem _ (List.mem_cons_self _ _))))
    have htm1 : 1 ≤ tm.length :=
      List.length_pos.2 (hne tm (List.mem_cons_self _ _))
    obtain ⟨m, rfl⟩ : ∃ m, fuel = m + 1 := ⟨fuel - 1, by omega⟩
    obtain ⟨c0, W0, hW0, ⟨p0, hp0, rfl⟩⟩ :=
      dnfNorm_cons_head tm (y :: rest) (hne tm (List.mem_cons_self _ _))
    have hsplit : splitFirst plusChar (dnfNorm (tm :: y :: rest)) =
        (termNorm tm, dnfNorm (y :: rest)) := by
      rw [show dnfNorm (tm :: y :: rest) =
        termNorm tm ++ plusChar :: dnfNorm (y :: rest) from rfl]
      exact splitFirst_append plusChar _ _
        (plus_not_mem_termNorm (ha tm (List.mem_cons_self _ _)))
    show parseGateCore (parseGate m) raw = _
    unfold parseGateCore
    rw [he, hW0]
    dsimp only
    rw [leading_false (ha tm (List.mem_cons_self _ _) p0 hp0),
      if_neg Bool.false_ne_true]
    rw [← hW0]
    rw [bne_eq_false (dnfNorm_count_lpar ha), if_neg Bool.false_ne_true]
    rw [bne_eq_true (count_ne_zero_of_mem (plus_mem_dnfNorm tm y rest)), if_pos rfl]
    rw [hsplit]
    simp only [bind, Except.bind]
    rw [parse_termNorm_raw tm m (termNorm tm) (hne tm (List.mem_cons_self _ _))
      (ha tm (List.mem_cons_self _ _)) (hu tm (List.mem_cons_self _ _))
      (normalize_termNorm tm (hne tm (List.mem_cons_self _ _))
        (ha tm (List.mem_cons_self _ _)) (hu tm (List.mem_cons_self _ _)))
      (by omega)]
    rw [parse_dnfNorm_raw (y :: rest) m (dnfNorm (y :: rest))
      (List.cons_ne_nil _ _)
      (fun t ht => hne t (List.mem_cons_of_mem _ ht))
      (fun t ht => ha t (List.mem_cons_of_mem _ ht))
      (fun t ht => hu t (List.mem_cons_of_mem _ ht))
      (normalize_dnfNorm (y :: rest) (List.cons_ne_nil _ _)
        (fun t ht => hne t (List.mem_cons_of_mem _ ht))
        (fun t ht => ha t (List.mem_cons_of_mem _ ht))
        (fun t ht => hu t (List.mem_cons_of_mem _ ht)))
      (by omega)]
    rfl

lemma lookupA_mkAssign : ∀ (syms : List Char) (inp : List Nat), syms.Nodup →
    ∀ (c : Char) (v : Nat), (c, v) ∈ syms.zip inp →
    lookupA [c] (mkAssign syms inp) = some v
  | [], inp, _, c, v, h => by rw [List.zip_nil_left] at h; cases h
  | s :: ss, [], _, c, v, h => by rw [List.zip_nil_right] at h; cases h
  | s :: ss, b :: bs, hnd, c, v, h => by
    have hnd2 := List.nodup_cons.1 hnd
    rw [List.zip_cons_cons] at h
    rcases List.mem_cons.1 h with heq | htl
    · injection heq with h1 h2
      subst h1
      subst h2
      rw [show lookupA [c] (mkAssign (c :: ss) (v :: bs)) =
        if ([c] == [c] : Bool) then some v else lookupA [c] (mkAssign ss bs)
        from rfl, if_pos (beq_self_eq_true _)]
    · have hcs : c ∈ ss := (List.of_mem_zip htl).1
      have hne : s ≠ c := fun h2 => hnd2.1 (h2 ▸ hcs)
      have hb : (([s] : List Char) == [c]) = false := by
        cases hbe : ([s] : List Char) == [c]
        · rfl
        · have h3 := eq_of_beq hbe
          injection h3 with h4 h5
          exact absurd h4 hne
      rw [show lookupA [c] (mkAssign (s :: ss) (b :: bs)) =
        if (([s] : List Char) == [c] : Bool) then some b
        else lookupA [c] (mkAssign ss bs) from rfl, hb,
        if_neg Bool.false_ne_true]
      exact lookupA_mkAssign ss bs hnd2.2 c v htl

lemma litG_isNull (c : Char) (b : Nat) : (litG c b).isNull = false := by
  unfold litG
  by_cases hb : b ≠ 0
  · rw [if_pos hb]; rfl
  · rw [if_neg hb]; rfl

lemma andChainG_isNull : ∀ (tm : List (Char × Nat)), tm ≠ [] →
    (andChainG tm).isNull = false
  | [], h => absurd rfl h
  | [p], _ => litG_isNull p.1 p.2
  | _ :: _ :: _, _ => rfl

lemma orChainG_isNull : ∀ (L : List (List (Char × Nat))), L ≠ [] →
    (∀ tm ∈ L, tm ≠ []) → (orChainG L).isNull = false
  | [], h, _ => absurd rfl h
  | [tm], _, hne => andChainG_isNull tm (hne tm (List.mem_singleton_self _))
  | _ :: _ :: _, _, _ => rfl

lemma litG_expression (c : Char) (b : Nat) :
    (litG c b).expression = litStr c b := by
  unfold litG litStr
  by_cases hb : b ≠ 0
  · rw [if_pos hb, if_pos hb]; rfl
  · rw [if_neg hb, if_neg hb]; rfl

lemma andChainG_expression : ∀ (tm : List (Char × Nat)), tm ≠ [] →
    (andChainG tm).expression = termNorm tm
  | [], h => absurd rfl h
  | [p], _ => litG_expression p.1 p.2
  | _ :: _ :: _, _ => rfl

lemma orChainG_expression : ∀ (L : List (List (Char × Nat))), L ≠ [] →
    (∀ tm ∈ L, tm ≠ []) → (orChainG L).expression = dnfNorm L
  | [], h, _ => absurd rfl h
  | [tm], _, hne =>
    (andChainG_expression tm (hne tm (List.mem_singleton_self _))).trans rfl
  | _ :: _ :: _, _, _ => rfl

lemma update_inputG (A : List (List Char × Nat)) (c : Char) (v : Nat)
    (hl : lookupA [c] A = some v) :
    (Gate.node [c] GOp.INPUT Gate.null Gate.null).update A = .ok v := by
  rw [update_node, if_pos (show Gate.null.isNull = true from rfl),
    if_pos (show Gate.null.isNull = true from rfl)]
  rw [show applyOp [c] A GOp.INPUT none none =
    (match lookupA [c] A with
      | some v => .ok v
      | none => .error .missingVar) from rfl, hl]

lemma update_litG (A : List (List Char × Nat)) (c : Char) (b v : Nat)
    (hl : lookupA [c] A = some v) (hv : v ≤ 1) (hb : b ≤ 1) :
    (litG c b).update A = .ok (if v = b then 1 else 0) := by
  unfold litG
  by_cases hbz : b ≠ 0
  · have hb1 : b = 1 := by omega
    subst hb1
    rw [if_pos (by omega)]
    rw [update_inputG A c v hl]
    have hv2 : v = 0 ∨ v = 1 := by omega
    rcases hv2 with rfl | rfl <;> simp
  · have hb0 : b = 0 := by omega
    subst hb0
    rw [if_neg hbz]
    rw [update_node,
      if_neg (show ¬((Gate.node [c] GOp.INPUT Gate.null Gate.null).isNull = true)
        from fun h => Bool.false_ne_true h),
      update_inputG A c v hl]
    dsimp only
    rw [if_pos (show Gate.null.isNull = true from rfl)]
    rw [show applyOp [c, compChar] A GOp.NOT (some v) none = .ok (pyNot v) from rfl]
    have hv2 : v = 0 ∨ v = 1 := by omega
    rcases hv2 with rfl | rfl <;> simp [pyNot]

lemma update_andChainG : ∀ (tm : List (Char × Nat)) (A : List (List Char × Nat)),
    tm ≠ [] →
    (∀ p ∈ tm, ∃ v, lookupA [p.1] A = some v ∧ v ≤ 1) →
    (∀ p ∈ tm, p.2 ≤ 1) →
    (andChainG tm).update A =
      .ok (if (∀ p ∈ tm, (lookupA [p.1] A).getD 0 = p.2) then 1 else 0)
  | [], _, h, _, _ => absurd rfl h
  | [p], A, _, hl, hb => by
    obtain ⟨v, hv, hvle⟩ := hl p (List.mem_singleton_self _)
    rw [show andChainG [p] = litG p.1 p.2 from rfl,
      update_litG A p.1 p.2 v hv hvle (hb p (List.mem_singleton_self _))]
    have hPp : ((lookupA [p.1] A).getD 0 = p.2) ↔ (v = p.2) := by
      rw [hv]
      exact Iff.rfl
    by_cases hc : v = p.2
    · rw [if_pos hc, if_pos (fun q hq => by
        rw [List.mem_singleton.1 hq]
        exact hPp.2 hc)]
    · rw [if_neg hc,
        if_neg (fun hall => hc (hPp.1 (hall p (List.mem_singleton_self _))))]
  | p :: q :: tms, A, _, hl, hb => by
    obtain ⟨v1, hv1, hv1le⟩ := hl p (List.mem_cons_self _ _)
    have ih := update_andChainG (q :: tms) A (List.cons_ne_nil _ _)
      (fun r hr => hl r (List.mem_cons_of_mem _ hr))
      (fun r hr => hb r (List.mem_cons_of_mem _ hr))
    rw [show andChainG (p :: q :: tms) = .node (termNorm (p :: q :: tms)) .AND
      (litG p.1 p.2) (andChainG (q :: tms)) from rfl, update_node,
      if_neg (show ¬((litG p.1 p.2).isNull = true) from
        fun h => Bool.false_ne_true ((litG_isNull p.1 p.2) ▸ h)),
      update_litG A p.1 p.2 v1 hv1 hv1le (hb p (List.mem_cons_self _ _))]
    dsimp only
    rw [if_neg (show ¬((andChainG (q :: tms)).isNull = true) from
      fun h => Bool.false_ne_true
        ((andChainG_isNull (q :: tms) (List.cons_ne_nil _ _)) ▸ h)), ih]
    dsimp only
    rw [show applyOp (termNorm (p :: q :: tms)) A GOp.AND
      (some (if v1 = p.2 then 1 else 0))
      (some (if (∀ r ∈ q :: tms, (lookupA [r.1] A).getD 0 = r.2) then 1 else 0)) =
      .ok (pyAnd (if v1 = p.2 then 1 else 0)
        (if (∀ r ∈ q :: tms, (lookupA [r.1] A).getD 0 = r.2) then 1 else 0))
      from rfl]
    have hPp : ((lookupA [p.1] A).getD 0 = p.2) ↔ (v1 = p.2) := by
      rw [hv1]
      exact Iff.rfl
    by_cases h1 : v1 = p.2
    · by_cases h2 : ∀ r ∈ q :: tms, (lookupA [r.1] A).getD 0 = r.2
      · rw [if_pos h1, if_pos h2,
          if_pos (show ∀ r ∈ p :: q :: tms, (lookupA [r.1] A).getD 0 = r.2 from
            List.forall_mem_cons.2 ⟨hPp.2 h1, h2⟩)]
        rfl
      · rw [if_pos h1, if_neg h2,
          if_neg (show ¬(∀ r ∈ p :: q :: tms, (lookupA [r.1] A).getD 0 = r.2) from
            fun hall => h2 (List.forall_mem_cons.1 hall).2)]
        rfl
    · rw [if_neg h1,
        if_neg (show ¬(∀ r ∈ p :: q :: tms, (lookupA [r.1] A).getD 0 = r.2) from
          fun hall => h1 (hPp.1 (List.forall_mem_cons.1 hall).1))]
      rfl

lemma update_orChainG : ∀ (L : List (List (Char × Nat)))
    (A : List (List Char × Nat)), L ≠ [] → (∀ tm ∈ L, tm ≠ []) →
    (∀ tm ∈ L, ∀ p ∈ tm, ∃ v, lookupA [p.1] A = some v ∧ v ≤ 1) →
    (∀ tm ∈ L, ∀ p ∈ tm, p.2 ≤ 1) →
    (orChainG L).update A =
      .ok (if (∃ tm ∈ L, ∀ p ∈ tm, (lookupA [p.1] A).getD 0 = p.2) then 1 else 0)
  | [], _, h, _, _, _ => absurd rfl h
  | [tm], A, _, hne, hl, hb => by
    rw [show orChainG [tm] = andChainG tm from rfl,
      update_andChainG tm A (hne tm (List.mem_singleton_self _))
        (hl tm (List.mem_singleton_self _)) (hb tm (List.mem_singleton_self _))]
    by_cases hc : ∀ p ∈ tm, (lookupA [p.1] A).getD 0 = p.2
    · rw [if_pos hc,
        if_pos (show ∃ t2 ∈ [tm], ∀ p ∈ t2, (lookupA [p.1] A).getD 0 = p.2 from
          ⟨tm, List.mem_singleton_self _, hc⟩)]
    · rw [if_neg hc,
        if_neg (show ¬(∃ t2 ∈ [tm], ∀ p ∈ t2, (lookupA [p.1] A).getD 0 = p.2) from
          fun hex => by
            obtain ⟨t2, ht2, hall⟩ := hex
            rw [List.mem_singleton.1 ht2] at hall
            exact hc hall)]
  | tm :: y :: rest, A, _, hne, hl, hb => by
    have ih := update_orChainG (y :: rest) A (List.cons_ne_nil _ _)
      (fun t ht => hne t (List.mem_cons_of_mem _ ht))
      (fun t ht => hl t (List.mem_cons_of_mem _ ht))
      (fun t ht => hb t (List.mem_cons_of_mem _ ht))
    rw [show orChainG (tm :: y :: rest) = .node (dnfNorm (tm :: y :: rest)) .OR
      (andChainG tm) (orChainG (y :: rest)) from rfl, update_node,
      if_neg (show ¬((andChainG tm).isNull = true) from
        fun h => Bool.false_ne_true
          ((andChainG_isNull tm (hne tm (List.mem_cons_self _ _))) ▸ h)),
      update_andChainG tm A (hne tm (List.mem_cons_self _ _))
        (hl tm (List.mem_cons_self _ _)) (hb tm (List.mem_cons_self _ _))]
    dsimp only
    rw [if_neg (show ¬((orChainG (y :: rest)).isNull = true) from
      fun h => Bool.false_ne_true
        ((orChainG_isNull (y :: rest) (List.cons_ne_nil _ _)
          (fun t ht => hne t (List.mem_cons_of_mem _ ht))) ▸ h)), ih]
    dsimp only
    rw [show applyOp (dnfNorm (tm :: y :: rest)) A GOp.OR
      (some (if (∀ p ∈ tm, (lookupA [p.1] A).getD 0 = p.2) then 1 else 0))
      (some (if (∃ t2 ∈ y :: rest, ∀ p ∈ t2, (lookupA [p.1] A).getD 0 = p.2)
        then 1 else 0)) =
      .ok (pyOr (if (∀ p ∈ tm, (lookupA [p.1] A).getD 0 = p.2) then 1 else 0)
        (if (∃ t2 ∈ y :: rest, ∀ p ∈ t2, (lookupA [p.1] A).getD 0 = p.2)
          then 1 else 0)) from rfl]
    by_cases h1 : ∀ p ∈ tm, (lookupA [p.1] A).getD 0 = p.2
    · rw [if_pos h1,
        if_pos (show ∃ t2 ∈ tm :: y :: rest,
          ∀ p ∈ t2, (lookupA [p.1] A).getD 0 = p.2 from
          ⟨tm, List.mem_cons_self _ _, h1⟩)]
      rfl
    · by_cases h2 : ∃ t2 ∈ y :: rest, ∀ p ∈ t2, (lookupA [p.1] A).getD 0 = p.2
      · obtain ⟨t2, ht2, hall⟩ := h2
        rw [if_neg h1,
          if_pos (show ∃ t3 ∈ y :: rest,
            ∀ p ∈ t3, (lookupA [p.1] A).getD 0 = p.2 from ⟨t2, ht2, hall⟩),
          if_pos (show ∃ t3 ∈ tm :: y :: rest,
            ∀ p ∈ t3, (lookupA [p.1] A).getD 0 = p.2 from
            ⟨t2, List.mem_cons_of_mem _ ht2, hall⟩)]
        rfl
      · rw [if_neg h1, if_neg h2,
          if_neg (show ¬(∃ t2 ∈ tm :: y :: rest,
            ∀ p ∈ t2, (lookupA [p.1] A).getD 0 = p.2) from fun hex => by
            obtain ⟨t2, ht2, hall⟩ := hex
            rcases List.mem_cons.1 ht2 with rfl | ht3
            · exact h1 hall
            · exact h2 ⟨t2, ht3, hall⟩)]
        rfl

lemma zip_mem_left : ∀ {l1 : List Char} {l2 : List Nat} {a : Char},
    a ∈ l1 → l1.length = l2.length → ∃ b, (a, b) ∈ l1.zip l2
  | [], _, _, h, _ => by cases h
  | s :: ss, [], _, _, hlen => by simp at hlen
  | s :: ss, b :: bs, a, h, hlen => by
    rw [List.zip_cons_cons]
    rcases List.mem_cons.1 h with rfl | h2
    · exact ⟨b, List.mem_cons_self _ _⟩
    · obtain ⟨w, hw⟩ := zip_mem_left h2 (by simpa using hlen)
      exact ⟨w, List.mem_cons_of_mem _ hw⟩

lemma zip_right_inj : ∀ (syms : List Char) (a b : List Nat),
    a.length = syms.length → b.length = syms.length →
    syms.zip a = syms.zip b → a = b
  | [], a, b, ha, hb, _ => by
    rw [List.length_eq_zero.1 ha, List.length_eq_zero.1 hb]
  | s :: ss, [], _, ha, _, _ => by simp at ha
  | s :: ss, _ :: _, [], _, hb, _ => by simp at hb
  | s :: ss, x :: xs, y :: ys, ha, hb, h => by
    rw [List.zip_cons_cons, List.zip_cons_cons] at h
    injection h with h1 h2
    injection h1 with h3 h4
    rw [h4, zip_right_inj ss xs ys (by simpa using ha) (by simpa using hb) h2]

lemma forall_zip_getD : ∀ (syms : List Char) (a inp : List Nat), syms.Nodup →
    a.length = syms.length → inp.length = syms.length →
    ((∀ p ∈ syms.zip a, (lookupA [p.1] (mkAssign syms inp)).getD 0 = p.2) ↔
      a = inp)
  | [], a, inp, _, ha, hi => by
    rw [List.length_eq_zero.1 ha, List.length_eq_zero.1 hi]
    simp
  | s :: ss, [], _, _, ha, _ => by simp at ha
  | s :: ss, _ :: _, [], _, _, hi => by simp at hi
  | s :: ss, x :: xs, y :: ys, hnd, ha, hi => by
    have hnd2 := List.nodup_cons.1 hnd
    have ih := forall_zip_getD ss xs ys hnd2.2 (by simpa using ha)
      (by simpa using hi)
    have hhead : lookupA [s] (mkAssign (s :: ss) (y :: ys)) = some y := by
      rw [show lookupA [s] (mkAssign (s :: ss) (y :: ys)) =
        if ([s] == [s] : Bool) then some y else lookupA [s] (mkAssign ss ys)
        from rfl, if_pos (beq_self_eq_true _)]
    have hstep : ∀ p ∈ ss.zip xs,
        lookupA [p.1] (mkAssign (s :: ss) (y :: ys)) =
          lookupA [p.1] (mkAssign ss ys) := by
      intro p hp
      have hps : p.1 ∈ ss := (List.of_mem_zip hp).1
      have hne : s ≠ p.1 := fun h2 => hnd2.1 (h2 ▸ hps)
      have hbeq : (([s] : List Char) == [p.1]) = false := by
        cases hbe : ([s] : List Char) == [p.1]
        · rfl
        · have h3 := eq_of_beq hbe
          injection h3 with h4 h5
          exact absurd h4 hne
      rw [show lookupA [p.1] (mkAssign (s :: ss) (y :: ys)) =
        if (([s] : List Char) == [p.1] : Bool) then some y
        else lookupA [p.1] (mkAssign ss ys) from rfl, hbeq,
        if_neg Bool.false_ne_true]
    rw [List.zip_cons_cons]
    constructor
    · intro hall
      have hx := List.forall_mem_cons.1 hall
      have hhd : y = x := by
        have := hx.1
        rw [hhead] at this
        exact this
      have htl : xs = ys := ih.1 (fun p hp => by
        rw [← hstep p hp]
        exact hx.2 p hp)
      rw [hhd, htl]
    · intro heq
      injection heq with h1 h2
      refine List.forall_mem_cons.2 ⟨?_, ?_⟩
      · rw [hhead]
        exact h1.symm
      · intro p hp
        rw [hstep p hp]
        exact ih.2 h2 p hp

lemma allTuples_nodup (n : Nat) : (allTuples n).Nodup := by
  rw [allTuples_eq_map_range]
  refine List.Nodup.map_on ?_ (List.nodup_range _)
  intro x hx y hy hxy
  exact natToBits_inj n x y (List.mem_range.1 hx) (List.mem_range.1 hy) hxy

lemma ext_getD {α : Type} (d : α) : ∀ (l1 l2 : List α),
    l1.length = l2.length → (∀ i, i < l1.length → l1.getD i d = l2.getD i d) →
    l1 = l2
  | [], [], _, _ => rfl
  | [], _ :: _, hlen, _ => by simp at hlen
  | _ :: _, [], hlen, _ => by simp at hlen
  | a :: t1, b :: t2, hlen, h => by
    have h0 := h 0 (by simp)
    rw [show (a :: t1).getD 0 d = a from rfl, show (b :: t2).getD 0 d = b from rfl] at h0
    rw [h0, ext_getD d t1 t2 (by simpa using hlen)
      (fun i hi => h (i + 1) (by simpa using Nat.succ_lt_succ hi))]

lemma getD_map_lt {α β : Type} (f : α → β) : ∀ (l : List α) (i : Nat)
    (d : β) (d2 : α), i < l.length → (l.map f).getD i d = f (l.getD i d2)
  | [], i, _, _, h => by simp at h
  | a :: t, 0, _, _, _ => rfl
  | a :: t, i + 1, d, d2, h =>
    getD_map_lt f t i d d2 (by simpa using Nat.succ_lt_succ_iff.1 (by simpa using h))

lemma orChain_eval (L : List (List (Char × Nat))) (syms : List Char)
    (inp : List Nat) (hnd : syms.Nodup) (hL : L ≠ [])
    (hLz : ∀ tm ∈ L, ∃ r1 : List Nat,
      tm = syms.zip r1 ∧ r1.length = syms.length ∧ ∀ b ∈ r1, b ≤ 1)
    (hsne : syms ≠ [])
    (hinp : inp.length = syms.length) (hbits : ∀ b ∈ inp, b ≤ 1) :
    (orChainG L).update (mkAssign syms inp) =
      .ok (if syms.zip inp ∈ L then 1 else 0) := by
  have htmne : ∀ tm ∈ L, tm ≠ [] := by
    intro tm htm
    obtain ⟨r1, rfl, hr1len, _⟩ := hLz tm htm
    intro hnil
    have h0 : (syms.zip r1).length = 0 := by rw [hnil]; rfl
    rw [List.length_zip, hr1len, Nat.min_self] at h0
    exact hsne (List.length_eq_zero.1 h0)
  have hlook : ∀ tm ∈ L, ∀ p ∈ tm,
      ∃ v, lookupA [p.1] (mkAssign syms inp) = some v ∧ v ≤ 1 := by
    intro tm htm p hp
    obtain ⟨r1, rfl, hr1len, hr1b⟩ := hLz tm htm
    have hps : p.1 ∈ syms := (List.of_mem_zip hp).1
    obtain ⟨w, hw⟩ := zip_mem_left hps hinp.symm
    exact ⟨w, lookupA_mkAssign syms inp hnd p.1 w hw,
      hbits w (List.of_mem_zip hw).2⟩
  have hp2 : ∀ tm ∈ L, ∀ p ∈ tm, p.2 ≤ 1 := by
    intro tm htm p hp
    obtain ⟨r1, rfl, _, hr1b⟩ := hLz tm htm
    exact hr1b p.2 (List.of_mem_zip hp).2
  rw [update_orChainG L (mkAssign syms inp) hL htmne hlook hp2]
  have hiff : (∃ tm ∈ L, ∀ p ∈ tm,
      (lookupA [p.1] (mkAssign syms inp)).getD 0 = p.2) ↔ syms.zip inp ∈ L := by
    constructor
    · rintro ⟨tm, htm, hall⟩
      obtain ⟨r1, rfl, hr1len, _⟩ := hLz tm htm
      have heq := (forall_zip_getD syms r1 inp hnd hr1len hinp).1 hall
      rw [heq] at htm
      exact htm
    · intro hmem
      exact ⟨syms.zip inp, hmem,
        (forall_zip_getD syms inp inp hnd hinp hinp).2 rfl⟩
  by_cases hc : syms.zip inp ∈ L
  · rw [if_pos (hiff.2 hc), if_pos hc]
  · have hn : ¬(∃ tm ∈ L, ∀ p ∈ tm,
        (lookupA [p.1] (mkAssign syms inp)).getD 0 = p.2) :=
      fun h => hc (hiff.1 h)
    rw [if_neg hn, if_neg hc]

lemma extract_eq_syms (L : List (List (Char × Nat))) (syms : List Char)
    (hL : L ≠ [])
    (hsorted : List.Pairwise (fun a b => b ≤ a) syms) (hnd : syms.Nodup)
    (halpha : ∀ c ∈ syms, c.isAlpha = true)
    (hcov : ∀ tm ∈ L, ∀ c ∈ syms, ∃ b, (c, b) ∈ tm)
    (hsub : ∀ tm ∈ L, ∀ p ∈ tm, p.1 ∈ syms) :
    extract_input_symbols (dnfNorm L) = syms := by
  have hmem : ∀ c, c ∈ extract_input_symbols (dnfNorm L) ↔ c ∈ syms := by
    intro c
    rw [extract_mem_iff]
    constructor
    · rintro ⟨hcd, hal⟩
      rcases mem_dnfNorm hcd with rfl | rfl | rfl | ⟨tm, htm, p, hp, rfl⟩
      · exact absurd hal (by decide)
      · exact absurd hal (by decide)
      · exact absurd hal (by decide)
      · exact hsub tm htm p hp
    · intro hcs
      obtain ⟨tm0, rest0, rfl⟩ := List.exists_cons_of_ne_nil hL
      obtain ⟨b, hb⟩ := hcov tm0 (List.mem_cons_self _ _) c hcs
      have hc1 : c ∈ termNorm tm0 := mem_fst_termNorm hb
      exact ⟨mem_termNorm_dnfNorm (List.mem_cons_self _ _) hc1, halpha c hcs⟩
  have hperm : List.Perm (extract_input_symbols (dnfNorm L)) syms :=
    (List.perm_ext_iff_of_nodup (extract_nodup _) hnd).2 hmem
  exact List.eq_of_perm_of_sorted hperm (extract_sorted _) hsorted

lemma getD_mem {α : Type} (d : α) : ∀ (l : List α) (i : Nat),
    i < l.length → l.getD i d ∈ l
  | [], _, h => absurd h (by simp)
  | a :: t, 0, _ => List.mem_cons_self _ _
  | a :: t, i + 1, h =>
    List.mem_cons_of_mem _ (getD_mem d t i (by simpa using Nat.succ_lt_succ_iff.1 (by simpa using h)))

end SumMin

open SumMin

/-- C9: normalizing the raw input `"a!b + c"` uppercases, removes whitespace,
maps `!` to a postfix complement mark (giving `A'B+C`), computes the single
implicit-AND insertion point between the complement mark after `A` and the
variable `B` (index 1), and yields exactly `A'*B+C`. -/
theorem C9_normalize_example :
    cleanup ("a!b + c".toList) = ['A', compChar, 'B', plusChar, 'C'] ∧
    insertPositions (cleanup ("a!b + c".toList)) = [1] ∧
    normalize_bool_fct_str ("a!b + c".toList) =
      ['A', compChar, starChar, 'B', plusChar, 'C'] :=
  ⟨by decide, by decide, by decide⟩

/-- C10: on inputs whose normalized form is empty (the empty string, a
whitespace-only string, a string of only `*` and `+` markers), `Gate`
construction raises the out-of-range indexing error of reading character 0 of
the empty string — not any of the named validation failures. -/
theorem C10_empty_normalized_index_error :
    (∀ fuel : Nat, parseGate (fuel + 1) ("".toList) = .error .indexError) ∧
    (∀ fuel : Nat, parseGate (fuel + 1) (" ".toList) = .error .indexError) ∧
    (∀ fuel : Nat, parseGate (fuel + 1) [starChar, plusChar] = .error .indexError) :=
  ⟨fun _ => rfl, fun _ => rfl, fun _ => rfl⟩

/-- C4: `"A+B"` parses to an OR gate over variable order `[B, A]` (descending
alphabetical, `B` most significant); its truth table is
`(0,0) ↦ 0, (0,1) ↦ 1, (1,0) ↦ 1, (1,1) ↦ 1` and its sum-of-minterms string
is exactly `F = BA + BA' + B'A`. -/
theorem C4_example_A_or_B :
    ∃ g : Gate,
      parseGate 2 ("A+B".toList) = .ok g ∧
      extract_input_symbols g.expression = ['B', 'A'] ∧
      generate_truth_table g =
        .ok [([0, 0], 0), ([0, 1], 1), ([1, 0], 1), ([1, 1], 1)] ∧
      sum_of_min_terms g =
        .ok ['F', spaceChar, '=', spaceChar,
             'B', 'A', spaceChar, plusChar, spaceChar,
             'B', 'A', compChar, spaceChar, plusChar, spaceChar,
             'B', compChar, 'A'] :=
  ⟨gAB, rfl, by decide, rfl, rfl⟩

/-- C1: the split point for a partial parenthesized group lands on the
operator character directly preceding the open parenthesis, which need not be
the top-level operator.  On `"A+B*(C)"` (outermost open index 4, not 0) the
top-level operator under NOT > AND > OR precedence is the `+` at index 1, but
the computed split selects the `*` at index 3, so the built root is an AND
node; at `A=1, B=0, C=0` it evaluates to 0, while the same boolean expression
without the redundant parentheses, `"A+B*C"`, parses to the correct OR root
and evaluates to 1 there. -/
theorem C1_paren_split_misses_top_operator :
    ∃ g g2 : Gate,
      parseGate 9 ("A+B*(C)".toList) = .ok g ∧ g.operator = .AND ∧
      g.update [(['A'], 1), (['B'], 0), (['C'], 0)] = .ok 0 ∧
      parseGate 9 ("A+B*C".toList) = .ok g2 ∧ g2.operator = .OR ∧
      g2.update [(['A'], 1), (['B'], 0), (['C'], 0)] = .ok 1 :=
  ⟨_, _, rfl, rfl, rfl, rfl, rfl, rfl⟩

/-- C6 counterexample: the expression `"*A"` begins with the operator symbol
`*`, yet `Gate` construction succeeds (normalization strips the leading `*`
before the leading-operator check), producing the INPUT-VARIABLE leaf `A`
instead of failing with LeadingOperator. -/
theorem C6_counterexample_star_A_parses :
    parseGate 1 [starChar, 'A'] = .ok (.node ['A'] .INPUT .null .null) := rfl

/-- C2: for every successfully parsed expression whose truth table generation
succeeds, the variable set has one entry per distinct alphabetic character of
the normalized expression and is strictly descending alphabetically; the
table has exactly `2 ^ N` rows whose input tuples are, in order, the `N`-bit
big-endian binary expansions of `0, …, 2 ^ N - 1` — so position `j` of row
`i` (the bit assigned to the `j`-th symbol) is `i / 2 ^ (N - 1 - j) % 2`: the
first symbol is the most significant bit and the last the least significant. -/
theorem C2_truth_table_canonical :
    ∀ (fuel : Nat) (s : List Char) (g : Gate) (t : List (List Nat × Nat)),
      parseGate fuel s = .ok g →
      generate_truth_table g = .ok t →
      (extract_input_symbols g.expression).length =
        ((g.expression.filter Char.isAlpha).dedup).length ∧
      List.Pairwise (· > ·) (extract_input_symbols g.expression) ∧
      t.length = 2 ^ (extract_input_symbols g.expression).length ∧
      t.map Prod.fst =
        (List.range (2 ^ (extract_input_symbols g.expression).length)).map
          (natToBits (extract_input_symbols g.expression).length) ∧
      (∀ i j, i < t.length → j < (extract_input_symbols g.expression).length →
        (t.getD i ([], 0)).1.getD j 0 =
          i / 2 ^ ((extract_input_symbols g.expression).length - 1 - j) % 2) := by
  intro fuel s g t _ hg
  have hg2 : genRows g (extract_input_symbols g.expression)
      (allTuples (extract_input_symbols g.expression).length) = .ok t := hg
  have hfst : t.map Prod.fst =
      allTuples (extract_input_symbols g.expression).length :=
    genRows_ok_fst g _ hg2
  have hlen : t.length = 2 ^ (extract_input_symbols g.expression).length := by
    have h := congrArg List.length hfst
    rw [List.length_map, allTuples_length] at h
    exact h
  refine ⟨extract_length _, extract_pairwise_gt _, hlen, ?_, ?_⟩
  · rw [hfst, allTuples_eq_map_range]
  · intro i j hi hj
    have hi2 : i < 2 ^ (extract_input_symbols g.expression).length := by
      rwa [hlen] at hi
    have h1 : (t.getD i ([], 0)).1 =
        natToBits (extract_input_symbols g.expression).length i := by
      rw [getD_fst t i [] 0, hfst, allTuples_eq_map_range]
      have hlt : i < ((List.range
          (2 ^ (extract_input_symbols g.expression).length)).map
          (natToBits (extract_input_symbols g.expression).length)).length := by
        simpa using hi2
      rw [List.getD_eq_getElem _ _ hlt, List.getElem_map, List.getElem_range]
    rw [h1, natToBits_getD _ i j hj]

/-- C2 witness: the claim instantiated on `"A+B"` (variable set `[B, A]`,
four rows in canonical order). -/
theorem C2_truth_table_canonical_witness :
    (parseGate 2 ("A+B".toList) = .ok gAB) ∧
    (generate_truth_table gAB = .ok tAB) ∧
    ((extract_input_symbols gAB.expression).length =
        ((gAB.expression.filter Char.isAlpha).dedup).length ∧
      List.Pairwise (· > ·) (extract_input_symbols gAB.expression) ∧
      tAB.length = 2 ^ (extract_input_symbols gAB.expression).length ∧
      tAB.map Prod.fst =
        (List.range (2 ^ (extract_input_symbols gAB.expression).length)).map
          (natToBits (extract_input_symbols gAB.expression).length) ∧
      (∀ i j, i < tAB.length → j < (extract_input_symbols gAB.expression).length →
        (tAB.getD i ([], 0)).1.getD j 0 =
          i / 2 ^ ((extract_input_symbols gAB.expression).length - 1 - j) % 2)) :=
  ⟨rfl, rfl, C2_truth_table_canonical 2 ("A+B".toList) gAB tAB rfl rfl⟩

/-- C8: on well-formed trees, evaluation recomputes children before parents
(post-order) and realizes the specified operator semantics — AND is the
logical AND of the children's bits, OR the logical OR, NOT the complement of
the single child's bit, PASS-THROUGH the single child's bit unchanged, and
INPUT-VARIABLE the bit looked up for the stored symbol — while an assignment
that lacks any symbol the tree requires makes evaluation fail with the
MissingVariable condition. -/
theorem C8_evaluation_semantics :
    ∀ (g : Gate) (a : List (List Char × Nat)),
      wellFormed g = true →
      (∀ p ∈ a, p.2 ≤ 1) →
      ((∀ k ∈ requiredVars g, (lookupA k a).isSome) →
          g.update a = .ok (cond (specEval g (truthy a)) 1 0)) ∧
      ((¬ ∀ k ∈ requiredVars g, (lookupA k a).isSome) →
          g.update a = .error .missingVar) := by
  intro g
  induction g with
  | null =>
    intro a hwf _
    simp [wellFormed] at hwf
  | node e op i1 i2 ih1 ih2 =>
    intro a hwf hbits
    cases op
    case INPUT =>
      cases i1 with
      | node e1 o1 l1 r1 => simp [wellFormed] at hwf
      | null =>
        cases i2 with
        | node e2 o2 l2 r2 => simp [wellFormed] at hwf
        | null =>
          have hreq : requiredVars (Gate.node e .INPUT .null .null) = [e] := rfl
          have hupd : (Gate.node e .INPUT .null .null).update a =
              applyOp e a .INPUT none none := rfl
          constructor
          · intro hall
            have he := hall e (by rw [hreq]; exact List.mem_singleton_self e)
            cases hl : lookupA e a with
            | none => simp [hl] at he
            | some v =>
              have hv : v ≤ 1 := by
                obtain ⟨p, hp, hpv⟩ := lookupA_mem hl
                exact hpv ▸ hbits p hp
              rw [hupd]
              have hv2 : v = 0 ∨ v = 1 := by omega
              rcases hv2 with rfl | rfl <;>
                simp [applyOp, hl, specEval, truthy]
          · intro hnall
            cases hl : lookupA e a with
            | some v =>
              exfalso
              apply hnall
              intro k hk
              rw [hreq, List.mem_singleton] at hk
              subst hk
              simp [hl]
            | none =>
              rw [hupd]
              simp [applyOp, hl]
    case AND =>
      cases i1 with
      | null => simp [wellFormed] at hwf
      | node e1 o1 l1 r1 =>
        cases i2 with
        | null => simp [wellFormed] at hwf
        | node e2 o2 l2 r2 =>
          rw [show wellFormed (Gate.node e .AND (.node e1 o1 l1 r1) (.node e2 o2 l2 r2)) =
            (wellFormed (.node e1 o1 l1 r1) && wellFormed (.node e2 o2 l2 r2)) from rfl,
            Bool.and_eq_true] at hwf
          have H1 := ih1 a hwf.1 hbits
          have H2 := ih2 a hwf.2 hbits
          have hreq : requiredVars (Gate.node e .AND (.node e1 o1 l1 r1) (.node e2 o2 l2 r2)) =
              requiredVars (.node e1 o1 l1 r1) ++ requiredVars (.node e2 o2 l2 r2) := rfl
          constructor
          · intro hall
            rw [hreq, List.forall_mem_append] at hall
            rw [update_node]
            simp only [Gate.isNull, Bool.false_eq_true, if_false, H1.1 hall.1, H2.1 hall.2]
            simp [applyOp, pyAnd_cond, specEval]
          · intro hnall
            by_cases h1 : ∀ k ∈ requiredVars (Gate.node e1 o1 l1 r1), (lookupA k a).isSome
            · have h2 : ¬ ∀ k ∈ requiredVars (Gate.node e2 o2 l2 r2), (lookupA k a).isSome := by
                intro h2x
                exact hnall (by rw [hreq]; exact List.forall_mem_append.2 ⟨h1, h2x⟩)
              rw [update_node]
              simp only [Gate.isNull, Bool.false_eq_true, if_false, H1.1 h1, H2.2 h2]
            · rw [update_node]
              simp only [Gate.isNull, Bool.false_eq_true, if_false, H1.2 h1]
    case OR =>
      cases i1 with
      | null => simp [wellFormed] at hwf
      | node e1 o1 l1 r1 =>
        cases i2 with
        | null => simp [wellFormed] at hwf
        | node e2 o2 l2 r2 =>
          rw [show wellFormed (Gate.node e .OR (.node e1 o1 l1 r1) (.node e2 o2 l2 r2)) =
            (wellFormed (.node e1 o1 l1 r1) && wellFormed (.node e2 o2 l2 r2)) from rfl,
            Bool.and_eq_true] at hwf
          have H1 := ih1 a hwf.1 hbits
          have H2 := ih2 a hwf.2 hbits
          have hreq : requiredVars (Gate.node e .OR (.node e1 o1 l1 r1) (.node e2 o2 l2 r2)) =
              requiredVars (.node e1 o1 l1 r1) ++ requiredVars (.node e2 o2 l2 r2) := rfl
          constructor
          · intro hall
            rw [hreq, List.forall_mem_append] at hall
            rw [update_node]
            simp only [Gate.isNull, Bool.false_eq_true, if_false, H1.1 hall.1, H2.1 hall.2]
            simp [applyOp, pyOr_cond, specEval]
          · intro hnall
            by_cases h1 : ∀ k ∈ requiredVars (Gate.node e1 o1 l1 r1), (lookupA k a).isSome
            · have h2 : ¬ ∀ k ∈ requiredVars (Gate.node e2 o2 l2 r2), (lookupA k a).isSome := by
                intro h2x
                exact hnall (by rw [hreq]; exact List.forall_mem_append.2 ⟨h1, h2x⟩)
              rw [update_node]
              simp only [Gate.isNull, Bool.false_eq_true, if_false, H1.1 h1, H2.2 h2]
            · rw [update_node]
              simp only [Gate.isNull, Bool.false_eq_true, if_false, H1.2 h1]
    case NOT =>
      cases i1 with
      | null => simp [wellFormed] at hwf
      | node e1 o1 l1 r1 =>
        cases i2 with
        | node e2 o2 l2 r2 => simp [wellFormed] at hwf
        | null =>
          rw [show wellFormed (Gate.node e .NOT (.node e1 o1 l1 r1) .null) =
            wellFormed (.node e1 o1 l1 r1) from rfl] at hwf
          have H1 := ih1 a hwf hbits
          have hreq : requiredVars (Gate.node e .NOT (.node e1 o1 l1 r1) .null) =
              requiredVars (.node e1 o1 l1 r1) := by
            show requiredVars (.node e1 o1 l1 r1) ++ [] = _
            rw [List.append_nil]
          constructor
          · intro hall
            rw [hreq] at hall
            rw [update_node]
            simp only [Gate.isNull, Bool.false_eq_true, if_false, H1.1 hall]
            simp [applyOp, pyNot_cond, specEval]
          · intro hnall
            rw [hreq] at hnall
            rw [update_node]
            simp only [Gate.isNull, Bool.false_eq_true, if_false, H1.2 hnall]
    case UNITY =>
      cases i1 with
      | null => simp [wellFormed] at hwf
      | node e1 o1 l1 r1 =>
        cases i2 with
        | node e2 o2 l2 r2 => simp [wellFormed] at hwf
        | null =>
          rw [show wellFormed (Gate.node e .UNITY (.node e1 o1 l1 r1) .null) =
            wellFormed (.node e1 o1 l1 r1) from rfl] at hwf
          have H1 := ih1 a hwf hbits
          have hreq : requiredVars (Gate.node e .UNITY (.node e1 o1 l1 r1) .null) =
              requiredVars (.node e1 o1 l1 r1) := by
            show requiredVars (.node e1 o1 l1 r1) ++ [] = _
            rw [List.append_nil]
          constructor
          · intro hall
            rw [hreq] at hall
            rw [update_node]
            simp only [Gate.isNull, Bool.false_eq_true, if_false, H1.1 hall]
            simp [applyOp, specEval]
          · intro hnall
            rw [hreq] at hnall
            rw [update_node]
            simp only [Gate.isNull, Bool.false_eq_true, if_false, H1.2 hnall]

/-- C8 witness: the OR tree of `"A+B"` evaluated at `A=1, B=0` yields bit 1;
dropping `B` from the assignment yields the MissingVariable failure. -/
theorem C8_evaluation_semantics_witness :
    (wellFormed gAB = true) ∧
    (∀ p ∈ ([(['A'], 1), (['B'], 0)] : List (List Char × Nat)), p.2 ≤ 1) ∧
    gAB.update [(['A'], 1), (['B'], 0)] = .ok 1 ∧
    gAB.update [(['A'], 1)] = .error .missingVar := by
  refine ⟨by decide, by decide, ?_, ?_⟩
  · exact (C8_evaluation_semantics gAB [(['A'], 1), (['B'], 0)]
      (by decide) (by decide)).1 (by decide)
  · exact (C8_evaluation_semantics gAB [(['A'], 1)]
      (by decide) (by decide)).2 (by decide)

/-- C3: the minterm builder emits one term per row whose output bit is 1
(each symbol bare on bit 1, complement-marked on bit 0, concatenated without
separator), collects the terms in table row order, reverses the collected
list, and joins with `" + "`; with no true row the body is the empty string
and the full minterm string is `"F = "`. -/
theorem C3_minterm_builder :
    (∀ (table : List (List Nat × Nat)) (syms : List Char),
      (∀ r ∈ table, r.1.length = syms.length) →
      (∀ r ∈ table, r.2 ≤ 1) →
      (∀ r ∈ table, ∀ b ∈ r.1, b ≤ 1) →
      build_minterms table syms =
        .ok (List.intercalate sepStr
          (((table.filter (fun r => r.2 = 1)).map
            (fun r => specTerm syms r.1)).reverse)) ∧
      ((∀ r ∈ table, r.2 ≠ 1) → build_minterms table syms = .ok [])) ∧
    (∀ (g : Gate) (t : List (List Nat × Nat)),
      generate_truth_table g = .ok t →
      (∀ r ∈ t, r.2 ≠ 1) →
      sum_of_min_terms g = .ok ['F', spaceChar, '=', spaceChar]) := by
  constructor
  · intro table syms hlen hout hbits
    have hfold := build_minterms_fold syms table [] hlen hout hbits
    constructor
    · unfold build_minterms
      rw [hfold]
      simp [bind, Except.bind, pure, Except.pure]
    · intro hnone
      have hfilter : table.filter (fun r => r.2 = 1) = [] := by
        rw [List.filter_eq_nil_iff]
        intro r hr
        simp [hnone r hr]
      unfold build_minterms
      rw [hfold, hfilter]
      simp [bind, Except.bind, pure, Except.pure]
      rfl
  · intro g t hg hnone
    have hg2 : genRows g (extract_input_symbols g.expression)
        (allTuples (extract_input_symbols g.expression).length) = .ok t := hg
    have hmem := genRows_ok_mem g (extract_input_symbols g.expression)
      (fun inp hinp => (allTuples_mem hinp).2) hg2
    have hlen : ∀ r ∈ t, r.1.length = (extract_input_symbols g.expression).length :=
      fun r hr => (allTuples_mem (hmem r hr).1).1
    have hout : ∀ r ∈ t, r.2 ≤ 1 := fun r hr => (hmem r hr).2
    have hbits : ∀ r ∈ t, ∀ b ∈ r.1, b ≤ 1 :=
      fun r hr => (allTuples_mem (hmem r hr).1).2
    have hfold := build_minterms_fold (extract_input_symbols g.expression) t []
      hlen hout hbits
    have hfilter : t.filter (fun r => r.2 = 1) = [] := by
      rw [List.filter_eq_nil_iff]
      intro r hr
      simp [hnone r hr]
    have hbm : build_minterms t (extract_input_symbols g.expression) = .ok [] := by
      unfold build_minterms
      rw [hfold, hfilter]
      simp [bind, Except.bind, pure, Except.pure]
      rfl
    unfold sum_of_min_terms
    rw [hg]
    simp only [bind, Except.bind]
    rw [hbm]
    simp [pure, Except.pure]

/-- C3 witness: the builder on the `"A+B"` table over `[B, A]` produces the
three reversed terms, and on the identically false `"A*A'"` the full minterm
string is `"F = "`. -/
theorem C3_minterm_builder_witness :
    (∀ r ∈ tAB, r.1.length = (['B', 'A'] : List Char).length) ∧
    (∀ r ∈ tAB, r.2 ≤ 1) ∧
    (∀ r ∈ tAB, ∀ b ∈ r.1, b ≤ 1) ∧
    (build_minterms tAB ['B', 'A'] =
        .ok (List.intercalate sepStr
          (((tAB.filter (fun r => r.2 = 1)).map
            (fun r => specTerm ['B', 'A'] r.1)).reverse)) ∧
      ((∀ r ∈ tAB, r.2 ≠ 1) → build_minterms tAB ['B', 'A'] = .ok [])) ∧
    (generate_truth_table gFF = .ok [([0], 0), ([1], 0)]) ∧
    (∀ r ∈ ([([0], 0), ([1], 0)] : List (List Nat × Nat)), r.2 ≠ 1) ∧
    sum_of_min_terms gFF = .ok ['F', spaceChar, '=', spaceChar] :=
  ⟨by decide, by decide, by decide,
    C3_minterm_builder.1 tAB ['B', 'A'] (by decide) (by decide) (by decide),
    rfl, by decide,
    C3_minterm_builder.2 gFF [([0], 0), ([1], 0)] rfl (by decide)⟩

/-- C7: the external table loader infers `N` from the first line, fails with
IncompleteTable when the line count is below `2 ^ N`, with OverdefinedTable
when above, and at exactly `2 ^ N` fails with InconsistentRow naming the
1-based line number of the first row whose input tuple differs from the
canonical enumeration tuple at its index; a file passing all checks yields
the parsed table unchanged. -/
theorem C7_table_loader :
    ∀ (l0 : List Nat) (rest : List (List Nat)),
      l0 ≠ [] →
      (((l0 :: rest).length < 2 ^ (l0.length - 1) →
        read_table_from_file (l0 :: rest) = .error .incompleteTable) ∧
      ((l0 :: rest).length > 2 ^ (l0.length - 1) →
        read_table_from_file (l0 :: rest) = .error .overdefinedTable) ∧
      ((l0 :: rest).length = 2 ^ (l0.length - 1) →
        (∀ line ∈ l0 :: rest, line ≠ []) →
        ∀ j, j < (l0 :: rest).length →
          (∀ k ∈ List.range j, ((l0 :: rest).getD k []).dropLast =
            (allTuples (l0.length - 1)).getD k []) →
          ((l0 :: rest).getD j []).dropLast ≠ (allTuples (l0.length - 1)).getD j [] →
          read_table_from_file (l0 :: rest) = .error (.inconsistentRow (j + 1))) ∧
      ((l0 :: rest).length = 2 ^ (l0.length - 1) →
        (∀ line ∈ l0 :: rest, line ≠ []) →
        (∀ k ∈ List.range (l0 :: rest).length,
          ((l0 :: rest).getD k []).dropLast = (allTuples (l0.length - 1)).getD k []) →
        read_table_from_file (l0 :: rest) =
          .ok ((l0 :: rest).map (fun line => (line.dropLast, line.getLast?.getD 0))))) := by
  intro l0 rest hl0
  obtain ⟨v0, hv0⟩ := Option.isSome_iff_exists.1 (List.getLast?_isSome.2 hl0)
  have hpl : parse_line l0 = .ok (l0.dropLast, v0) := by
    simp [parse_line, hv0, pure, Except.pure]
  have hn : l0.dropLast.length = l0.length - 1 := List.length_dropLast l0
  have hfun : (fun line => (List.dropLast line, line.getLast?.getD 0)) l0 =
      (l0.dropLast, v0) := by simp [hv0]
  refine ⟨?_, ?_, ?_, ?_⟩
  · intro hlt
    unfold read_table_from_file
    simp only [bind, Except.bind, hpl, hn]
    rw [if_pos hlt]
  · intro hgt
    unfold read_table_from_file
    simp only [bind, Except.bind, hpl, hn]
    rw [if_neg (by omega), if_pos hgt]
  · intro heq hne j hj hbefore hmis
    have hmapm := mapM_parse_line rest (fun x hx => hne x (List.mem_cons_of_mem _ hx))
    unfold read_table_from_file
    simp only [bind, Except.bind, hpl, hn]
    rw [if_neg (by omega), if_neg (by omega)]
    simp only [hmapm]
    have htbl : (l0.dropLast, v0) ::
        rest.map (fun line => (line.dropLast, line.getLast?.getD 0)) =
        (l0 :: rest).map (fun line => (line.dropLast, line.getLast?.getD 0)) := by
      simp [hv0]
    rw [htbl]
    have hlen2 : ((l0 :: rest).map
        (fun line => (line.dropLast, line.getLast?.getD 0))).length =
        (l0 :: rest).length := List.length_map _ _
    have hrowk : ∀ k, k < (l0 :: rest).length →
        (((l0 :: rest).map (fun line => (line.dropLast, line.getLast?.getD 0))).getD
          k ([], 0)).1 = ((l0 :: rest).getD k []).dropLast := by
      intro k hk
      have := getD_map (fun line => (List.dropLast line, line.getLast?.getD 0))
        (l0 :: rest) k [] hk
      simp only [List.dropLast_nil] at this
      rw [show (([] : List Nat), ((([] : List Nat)).getLast?.getD 0)) = (([] : List Nat), 0)
        from rfl] at this
      rw [this]
    have herr := check_table_aux_err (allTuples (l0.length - 1))
      ((l0 :: rest).map (fun line => (line.dropLast, line.getLast?.getD 0))) 0 j
      (by rw [allTuples_length]; omega) (by rw [hlen2]; exact hj)
      (fun m hm => by
        rw [hrowk m (by omega)]
        exact hbefore m (List.mem_range.2 hm))
      (by
        rw [hrowk j hj]
        exact hmis)
    show (check_table _ _).bind _ = _
    unfold check_table
    rw [herr]
    simp [Except.bind]
  · intro heq hne hall
    have hmapm := mapM_parse_line rest (fun x hx => hne x (List.mem_cons_of_mem _ hx))
    unfold read_table_from_file
    simp only [bind, Except.bind, hpl, hn]
    rw [if_neg (by omega), if_neg (by omega)]
    simp only [hmapm]
    have htbl : (l0.dropLast, v0) ::
        rest.map (fun line => (line.dropLast, line.getLast?.getD 0)) =
        (l0 :: rest).map (fun line => (line.dropLast, line.getLast?.getD 0)) := by
      simp [hv0]
    rw [htbl]
    have hlen2 : ((l0 :: rest).map
        (fun line => (line.dropLast, line.getLast?.getD 0))).length =
        (l0 :: rest).length := List.length_map _ _
    have hrowk : ∀ k, k < (l0 :: rest).length →
        (((l0 :: rest).map (fun line => (line.dropLast, line.getLast?.getD 0))).getD
          k ([], 0)).1 = ((l0 :: rest).getD k []).dropLast := by
      intro k hk
      have := getD_map (fun line => (List.dropLast line, line.getLast?.getD 0))
        (l0 :: rest) k [] hk
      simp only [List.dropLast_nil] at this
      rw [show (([] : List Nat), ((([] : List Nat)).getLast?.getD 0)) = (([] : List Nat), 0)
        from rfl] at this
      rw [this]
    have hok := check_table_aux_ok (allTuples (l0.length - 1))
      ((l0 :: rest).map (fun line => (line.dropLast, line.getLast?.getD 0))) 0
      (by rw [allTuples_length, hlen2]; omega)
      (fun m hm => by
        rw [allTuples_length] at hm
        rw [hrowk m (by omega)]
        exact hall m (List.mem_range.2 (by omega)))
    show (check_table _ _).bind _ = _
    unfold check_table
    rw [hok]
    simp [Except.bind, pure, Except.pure]

/-- C7 witness: three concrete 2-input files — 3 lines (IncompleteTable),
5 lines (OverdefinedTable), a second line out of canonical order
(InconsistentRow at line 2) — and a valid file parsed unchanged. -/
theorem C7_table_loader_witness :
    (([0, 0, 1] : List Nat) ≠ [] ∧
      read_table_from_file [[0, 0, 1], [0, 1, 0], [1, 0, 0]] =
        .error .incompleteTable) ∧
    (read_table_from_file [[0, 0, 1], [0, 1, 0], [1, 0, 0], [1, 1, 1], [1, 1, 0]] =
        .error .overdefinedTable) ∧
    (read_table_from_file [[0, 0, 1], [1, 1, 0], [1, 0, 0], [1, 1, 1]] =
        .error (.inconsistentRow 2)) ∧
    (read_table_from_file [[0, 0, 1], [0, 1, 0], [1, 0, 0], [1, 1, 1]] =
        .ok [([0, 0], 1), ([0, 1], 0), ([1, 0], 0), ([1, 1], 1)]) := by
  refine ⟨⟨by decide, ?_⟩, ?_, ?_, ?_⟩
  · exact (C7_table_loader [0, 0, 1] [[0, 1, 0], [1, 0, 0]] (by decide)).1
      (by decide)
  · exact (C7_table_loader [0, 0, 1] [[0, 1, 0], [1, 0, 0], [1, 1, 1], [1, 1, 0]]
      (by decide)).2.1 (by decide)
  · exact (C7_table_loader [0, 0, 1] [[1, 1, 0], [1, 0, 0], [1, 1, 1]]
      (by decide)).2.2.1 (by decide) (by decide) 1 (by decide) (by decide) (by decide)
  · exact (C7_table_loader [0, 0, 1] [[0, 1, 0], [1, 0, 0], [1, 1, 1]]
      (by decide)).2.2.2 (by decide) (by decide) (by decide)

/-- C6 (amended): an expression whose text begins with a complement mark
`'` or `!` always fails with LeadingOperator — at top level and, since every
recursive `Gate` call performs the same check, equally for every recursively
parsed sub-expression — and in general parsing fails with LeadingOperator
whenever the normalized expression begins with one of `'`, `*`, `+`, `!`; a
leading `*` or `+` in the raw text, by contrast, is stripped by normalization
before the check and does not by itself cause the failure. -/
theorem C6_leading_operator_amended :
    (∀ (c : Char) (t : List Char) (fuel : Nat),
        (c = compChar ∨ c = bangChar) →
        parseGate (fuel + 1) (c :: t) = .error .leadingOp) ∧
    (∀ (s : List Char) (fuel : Nat) (c : Char) (t : List Char),
        normalize_bool_fct_str (pyStrip s) = c :: t →
        (c = compChar ∨ c = starChar ∨ c = plusChar ∨ c = bangChar) →
        parseGate (fuel + 1) s = .error .leadingOp) := by
  have general : ∀ (s : List Char) (fuel : Nat) (c : Char) (t : List Char),
      normalize_bool_fct_str (pyStrip s) = c :: t →
      (c = compChar ∨ c = starChar ∨ c = plusChar ∨ c = bangChar) →
      parseGate (fuel + 1) s = .error .leadingOp := by
    intro s fuel c t he hc
    show parseGateCore (parseGate fuel) s = _
    exact parseGateCore_leadingOp _ s c t he hc
  refine ⟨?_, general⟩
  intro c t fuel hc
  have hws : isPyWs c = false := by rcases hc with rfl | rfl <;> rfl
  have hstrip := pyStrip_cons c t hws
  obtain ⟨l2, hnorm⟩ := normalize_head c hc (dropTrailingWhile isPyWs t)
  exact general (c :: t) fuel compChar l2 (by rw [hstrip, hnorm]) (Or.inl rfl)

/-- C6 witness: `"'A"` and `"!A"` fail with LeadingOperator at top level, the
sub-expression `"''"` arising under a NOT also fails, and `"+*A"` (whose
normalized form still begins with `*`) fails through the general rule. -/
theorem C6_leading_operator_amended_witness :
    ((compChar = compChar ∨ compChar = bangChar) ∧
      parseGate 3 [compChar, 'A'] = .error .leadingOp) ∧
    ((bangChar = compChar ∨ bangChar = bangChar) ∧
      parseGate 3 [bangChar, 'A'] = .error .leadingOp) ∧
    (normalize_bool_fct_str (pyStrip [plusChar, starChar, 'A']) =
        starChar :: ['A'] ∧
      parseGate 3 [plusChar, starChar, 'A'] = .error .leadingOp) :=
  ⟨⟨Or.inl rfl, C6_leading_operator_amended.1 compChar ['A'] 2 (Or.inl rfl)⟩,
    ⟨Or.inr rfl, C6_leading_operator_amended.1 bangChar ['A'] 2 (Or.inr rfl)⟩,
    ⟨by decide, C6_leading_operator_amended.2 [plusChar, starChar, 'A'] 2 starChar ['A']
      (by decide) (Or.inr (Or.inl rfl))⟩⟩


/-- C5: round trip.  For every successfully parsed expression whose generated
truth table has at least one truthy row, the minterm builder's output body
parses successfully as a new expression (for sufficient recursion fuel), and
generating that new expression's truth table yields a table identical to the
original's. -/
theorem C5_minterm_round_trip (fuel : Nat) (s : List Char) (g : Gate)
    (t : List (List Nat × Nat))
    (hg : parseGate fuel s = .ok g)
    (ht : generate_truth_table g = .ok t)
    (hnz : ∃ r ∈ t, r.2 ≠ 0) :
    ∃ body g2, build_minterms t (extract_input_symbols g.expression) = .ok body ∧
      ∃ fuel2, parseGate fuel2 body = .ok g2 ∧
        generate_truth_table g2 = .ok t := by
  obtain ⟨m, rfl⟩ : ∃ m, fuel = m + 1 := by
    cases fuel with
    | zero => cases hg
    | succ m => exact ⟨m, rfl⟩
  have hgexp : g.expression = normalize_bool_fct_str (pyStrip s) :=
    parseGateCore_ok_expression hg
  have hupper : ∀ c ∈ g.expression, c.toUpper = c := by
    intro c hc
    rw [hgexp] at hc
    exact mem_normalize_toUpper hc
  obtain ⟨syms, hsyms⟩ : ∃ y, extract_input_symbols g.expression = y := ⟨_, rfl⟩
  have hsym_alpha : ∀ c ∈ syms, c.isAlpha = true := by
    intro c hc
    rw [← hsyms] at hc
    exact extract_mem_alpha hc
  have hsym_upper : ∀ c ∈ syms, c.toUpper = c := by
    intro c hc
    rw [← hsyms] at hc
    exact hupper c (extract_mem_iff.1 hc).1
  have hsym_nd : syms.Nodup := by
    rw [← hsyms]
    exact extract_nodup _
  have hsym_sorted : List.Pairwise (fun a b => b ≤ a) syms := by
    rw [← hsyms]
    exact extract_sorted _
  have ht2 : genRows g (extract_input_symbols g.expression)
      (allTuples (extract_input_symbols g.expression).length) = .ok t := ht
  rw [hsyms] at ht2
  have hfst : t.map Prod.fst = allTuples syms.length := genRows_ok_fst g syms ht2
  have hbits_all : ∀ inp ∈ allTuples syms.length, ∀ b ∈ inp, b ≤ 1 :=
    fun inp hi => (allTuples_mem hi).2
  have hrow : ∀ r ∈ t, r.1 ∈ allTuples syms.length ∧ r.2 ≤ 1 :=
    genRows_ok_mem g syms hbits_all ht2
  have hsne : syms ≠ [] := by
    intro h0
    rw [h0] at ht2
    rw [show allTuples (List.length ([] : List Char)) = [[]] from rfl] at ht2
    obtain ⟨err, herr⟩ := update_nil_error g
    simp only [genRows, bind, Except.bind] at ht2
    rw [show mkAssign ([] : List Char) ([] : List Nat) =
      ([] : List (List Char × Nat)) from rfl, herr] at ht2
    cases ht2
  have hrlen : ∀ r ∈ t, r.1.length = syms.length :=
    fun r hr => (allTuples_mem (hrow r hr).1).1
  have hrbits : ∀ r ∈ t, ∀ b ∈ r.1, b ≤ 1 :=
    fun r hr => (allTuples_mem (hrow r hr).1).2
  obtain ⟨L, hLdef⟩ : ∃ x,
      ((t.filter (fun r => r.2 = 1)).reverse).map (fun r => syms.zip r.1) = x :=
    ⟨_, rfl⟩
  have hbody : build_minterms t syms = .ok (bodyOf L) := by
    unfold build_minterms
    rw [build_minterms_fold syms t [] hrlen (fun r hr => (hrow r hr).2) hrbits]
    simp only [bind, Except.bind]
    rw [List.nil_append]
    have hmapeq : (t.filter (fun r => r.2 = 1)).map (fun r => specTerm syms r.1) =
        (t.filter (fun r => r.2 = 1)).map (fun r => termRaw (syms.zip r.1)) := by
      refine List.map_congr_left (fun r hr => ?_)
      exact specTerm_eq_termRaw syms r.1 (hrbits r (List.mem_filter.1 hr).1)
    rw [hmapeq]
    rw [show ((t.filter (fun r => r.2 = 1)).map
        (fun r => termRaw (syms.zip r.1))).reverse =
      ((t.filter (fun r => r.2 = 1)).reverse).map
        (fun r => termRaw (syms.zip r.1)) from (List.map_reverse _ _).symm]
    rw [show bodyOf L = List.intercalate sepStr (L.map termRaw) from rfl, ← hLdef]
    rw [List.map_map]
    rfl
  have hmemL : ∀ tm ∈ L, ∃ r, r ∈ t ∧ r.2 = 1 ∧ tm = syms.zip r.1 := by
    intro tm htm
    rw [← hLdef] at htm
    obtain ⟨r, hr, rfl⟩ := List.mem_map.1 htm
    have hr2 := List.mem_filter.1 (List.mem_reverse.1 hr)
    exact ⟨r, hr2.1, of_decide_eq_true hr2.2, rfl⟩
  have hLz : ∀ tm ∈ L, ∃ r1 : List Nat,
      tm = syms.zip r1 ∧ r1.length = syms.length ∧ ∀ b ∈ r1, b ≤ 1 := by
    intro tm htm
    obtain ⟨r, hrt, _, rfl⟩ := hmemL _ htm
    exact ⟨r.1, rfl, hrlen r hrt, hrbits r hrt⟩
  have hLne : L ≠ [] := by
    obtain ⟨r, hrt, hr2⟩ := hnz
    have hr1 : r.2 = 1 := by
      have := (hrow r hrt).2
      omega
    refine List.ne_nil_of_mem (a := syms.zip r.1) ?_
    rw [← hLdef]
    exact List.mem_map.2 ⟨r, List.mem_reverse.2
      (List.mem_filter.2 ⟨hrt, by simp [hr1]⟩), rfl⟩
  have htmne : ∀ tm ∈ L, tm ≠ [] := by
    intro tm htm hnil
    obtain ⟨r1, rfl, hr1len, _⟩ := hLz tm htm
    have hlen0 : (syms.zip r1).length = 0 := by rw [hnil]; rfl
    rw [List.length_zip, hr1len, Nat.min_self] at hlen0
    exact hsne (List.length_eq_zero.1 hlen0)
  have hLa : ∀ tm ∈ L, ∀ p ∈ tm, p.1.isAlpha = true := by
    intro tm htm p hp
    obtain ⟨r1, rfl, _, _⟩ := hLz tm htm
    exact hsym_alpha p.1 (List.of_mem_zip hp).1
  have hLu : ∀ tm ∈ L, ∀ p ∈ tm, p.1.toUpper = p.1 := by
    intro tm htm p hp
    obtain ⟨r1, rfl, _, _⟩ := hLz tm htm
    exact hsym_upper p.1 (List.of_mem_zip hp).1
  have hnorm : normalize_bool_fct_str (pyStrip (bodyOf L)) = dnfNorm L :=
    normalize_bodyOf L hLne htmne hLa hLu
  have hparse : parseGate ((dnfNorm L).length + 2) (bodyOf L) = .ok (orChainG L) :=
    parse_dnfNorm_raw L ((dnfNorm L).length + 2) (bodyOf L) hLne htmne hLa hLu
      hnorm (Nat.le_refl _)
  have hexpr2 : (orChainG L).expression = dnfNorm L :=
    orChainG_expression L hLne htmne
  have hcov : ∀ tm ∈ L, ∀ c ∈ syms, ∃ b, (c, b) ∈ tm := by
    intro tm htm c hcs
    obtain ⟨r1, rfl, hr1len, _⟩ := hLz tm htm
    exact zip_mem_left hcs hr1len.symm
  have hsub : ∀ tm ∈ L, ∀ p ∈ tm, p.1 ∈ syms := by
    intro tm htm p hp
    obtain ⟨r1, rfl, _, _⟩ := hLz tm htm
    exact (List.of_mem_zip hp).1
  have hext2 : extract_input_symbols (dnfNorm L) = syms :=
    extract_eq_syms L syms hLne hsym_sorted hsym_nd hsym_alpha hcov hsub
  have hval : ∀ inp ∈ allTuples syms.length,
      (orChainG L).update (mkAssign syms inp) =
        .ok (if syms.zip inp ∈ L then 1 else 0) := by
    intro inp hi
    exact orChain_eval L syms inp hsym_nd hLne hLz hsne
      (allTuples_mem hi).1 (allTuples_mem hi).2
  have hrows2 : genRows (orChainG L) syms (allTuples syms.length) =
      .ok ((allTuples syms.length).map (fun inp =>
        (inp, normalize_bool (if syms.zip inp ∈ L then 1 else 0)))) :=
    genRows_intro (orChainG L) syms
      (fun inp => if syms.zip inp ∈ L then 1 else 0) (allTuples syms.length) hval
  have hlen_t : t.length = (allTuples syms.length).length := by
    rw [← hfst, List.length_map]
  have hrow_iff : ∀ r ∈ t, (r.2 = 1 ↔ syms.zip r.1 ∈ L) := by
    intro r hrt
    constructor
    · intro h1
      rw [← hLdef]
      exact List.mem_map.2 ⟨r, List.mem_reverse.2
        (List.mem_filter.2 ⟨hrt, by simp [h1]⟩), rfl⟩
    · intro hmem
      obtain ⟨r2, hr2t, h22, hzip⟩ := hmemL _ hmem
      have hr21 : r2.1 = r.1 := zip_right_inj syms r2.1 r.1
        (hrlen r2 hr2t) (hrlen r hrt) hzip.symm
      have hndmap : (t.map Prod.fst).Nodup := by
        rw [hfst]
        exact allTuples_nodup _
      have hr2r : r2 = r := List.inj_on_of_nodup_map hndmap hr2t hrt hr21
      rw [← hr2r]
      exact h22
  have hteq : t = (allTuples syms.length).map (fun inp =>
      (inp, normalize_bool (if syms.zip inp ∈ L then 1 else 0))) := by
    refine ext_getD ([], 0) t _ ?_ ?_
    · rw [List.length_map]
      exact hlen_t
    · intro i hi
      have hiN : i < (allTuples syms.length).length := hlen_t ▸ hi
      obtain ⟨v, hv, hgetD⟩ := genRows_ok_get g syms ht2 i hiN
      rw [hgetD, getD_map_lt _ _ i ([], 0) [] hiN]
      have hinp_mem : (allTuples syms.length).getD i [] ∈ allTuples syms.length :=
        getD_mem [] _ i hiN
      have hrmem : ((allTuples syms.length).getD i [], normalize_bool v) ∈ t := by
        rw [← hgetD]
        exact getD_mem ([], 0) t i hi
      have hvle : v ≤ 1 := update_ok_le_one g _ v
        (mkAssign_bits (allTuples_mem hinp_mem).2) hv
      have hiff := hrow_iff _ hrmem
      dsimp only at hiff
      rw [normalize_bool_id] at hiff
      have hveq : v = (if syms.zip ((allTuples syms.length).getD i []) ∈ L
          then 1 else 0) := by
        by_cases hc : syms.zip ((allTuples syms.length).getD i []) ∈ L
        · rw [if_pos hc]
          exact hiff.2 hc
        · rw [if_neg hc]
          have hne1 : v ≠ 1 := fun h => hc (hiff.1 h)
          omega
      rw [hveq]
  rw [hsyms]
  refine ⟨bodyOf L, orChainG L, hbody, (dnfNorm L).length + 2, hparse, ?_⟩
  show genRows (orChainG L) (extract_input_symbols (orChainG L).expression)
    (allTuples (extract_input_symbols (orChainG L).expression).length) = .ok t
  rw [hexpr2, hext2, hrows2, ← hteq]

/-- Witness for C5 at the concrete input `"A+B"`. -/
theorem C5_minterm_round_trip_witness :
    ∃ body g2, build_minterms tAB (extract_input_symbols gAB.expression) =
        .ok body ∧
      ∃ fuel2, parseGate fuel2 body = .ok g2 ∧
        generate_truth_table g2 = .ok tAB :=
  C5_minterm_round_trip 9 ("A+B".toList) gAB tAB rfl rfl
    (by decide)
